import Mathlib

/-! mikan: a write-ahead-logged record store.

A shallow embedding of `db/table.go`, `db/db.go` and `db/query.go`: the WAL
line format, the line scanner used by recovery, `Table.Recover`,
`MinDB.AutoCreate`, the three mutations `MinDB.Create`, `MinDB.Update`,
`MinDB.Delete`, and the query builder with its terminal operations, followed
by theorems about them.

Conventions of the embedding.
* A Go `string` is a list of characters (`Str`); its length in bytes is `byteLen`.
* A table's WAL file is the string of everything written to it so far.
* The in-memory sequence is the list of the records its pointers refer to.
  `Create` receives a pointer and writes through it (defaults, the key), so
  it is told which positions of the sequence hold that same pointer (`held`,
  empty for a record the table does not hold) and what it writes shows at
  those positions. `Update` stores the record passed and `Delete` removes
  one; neither writes through the pointer. A "before" hook gives the record
  as it leaves it, and "after" hooks are observers that only report an error.
  The bulk update of the query builder writes to the stored records position
  by position, the positions taken to hold different pointers.
* The outcome of each file write is an input (`WriteOutcome`), and so is the
  key that `generateUniqueKey` draws, the permutation that `sort.Slice` leaves
  among equal elements, the order in which `range` visits a map (`Env`) and
  Go's `regexp.Compile` (`Regexp`).
-/

namespace Mikan

/-! ## Strings -/

/-- Go strings, as sequences of characters. -/
abbrev Str := List Char

/-- Length of a string in bytes (UTF-8), which is what Go's `len` and the
scanner's buffer count. -/
def byteLen (s : Str) : Nat := (s.map Char.utf8Size).sum

/-- Go's `unicode.IsSpace`: the Latin-1 spaces and the characters with the
Unicode White_Space property. -/
def isSpace (c : Char) : Bool :=
  let n := c.toNat
  n == 0x09 || n == 0x0A || n == 0x0B || n == 0x0C || n == 0x0D || n == 0x20
    || n == 0x85 || n == 0xA0 || n == 0x1680 || (0x2000 ≤ n && n ≤ 0x200A)
    || n == 0x2028 || n == 0x2029 || n == 0x202F || n == 0x205F || n == 0x3000

/-- Go's `strings.TrimSpace`: leading and trailing white space removed. -/
def TrimSpace (s : Str) : Str :=
  ((s.dropWhile isSpace).reverse.dropWhile isSpace).reverse

/-- The text before the first comma and the text after it; `none` when the
string has no comma. -/
def cutComma : Str → Option (Str × Str)
  | [] => none
  | c :: cs =>
    if c = ',' then some ([], cs)
    else match cutComma cs with
      | none => none
      | some (a, b) => some (c :: a, b)

/-- Go's `strings.SplitN(line, ",", 2)`: at most two parts, cut at the first
comma. -/
def SplitN2 (line : Str) : List Str :=
  match cutComma line with
  | none => [line]
  | some (a, b) => [a, b]

/-- Go's `strings.Contains(s, sub)`. -/
def Contains (s sub : Str) : Bool :=
  s.tails.any fun t => sub.isPrefixOf t

/-! ## The line scanner (`bufio.Scanner` with `bufio.ScanLines`) -/

/-- `bufio.MaxScanTokenSize`: the size of the scanner's buffer. -/
def MaxScanTokenSize : Nat := 64 * 1024

/-- `dropCR` of `bufio`: one trailing carriage return is removed. -/
def dropCR (line : Str) : Str :=
  if line.getLast? = some '\r' then line.dropLast else line

/-- The tokens that successive `s.Scan()` calls deliver for the given input.
`cur` is the part of the current line read so far, most recent character first.
A line ends at `'\n'`; the last line may lack it. A line that does not fit the
buffer (`MaxScanTokenSize` bytes) makes `Scan` return false for good, so the
scan ends there. -/
def scanFrom (cur : Str) : Str → List Str
  | [] =>
    if cur = [] then []
    else if MaxScanTokenSize ≤ byteLen cur then []
    else [dropCR cur.reverse]
  | c :: cs =>
    if c = '\n' then
      if MaxScanTokenSize ≤ byteLen cur then []
      else dropCR cur.reverse :: scanFrom [] cs
    else scanFrom (c :: cur) cs

/-- All lines the scanner delivers for a file. -/
def scanLines (file : Str) : List Str := scanFrom [] file

/-! ## Values, records and the `Keyable` contract -/

/-- The kinds of struct field the store tells apart (`reflect.Kind`). -/
inductive Kind where
  | String
  | Int
  | Bool
  deriving DecidableEq, Repr

/-- A field value read through reflection (`.Interface()`). -/
inductive Value where
  | str (s : Str)
  | int (n : Int)
  | bool (b : Bool)
  deriving DecidableEq, Repr

/-- The kind of a value. -/
def Value.kind : Value → Kind
  | .str _ => Kind.String
  | .int _ => Kind.Int
  | .bool _ => Kind.Bool

/-- Go's `reflect.Value.IsZero`. -/
def Value.IsZero : Value → Bool
  | .str s => s.isEmpty
  | .int n => n == 0
  | .bool b => !b

/-- Errors returned by the store. -/
inductive Error where
  /-- "unique constraint violation for field %s". -/
  | constraintViolation (field : Str)
  /-- "not found". -/
  | notFound
  /-- An error of `os.File.Write` or `os.File.Sync`. -/
  | io (code : Nat)
  /-- An error made by a hook or by `From`. -/
  | user (msg : Str)
  /-- "condition fields must be in pairs". -/
  | conditionPairs
  /-- "field not found". -/
  | fieldNotFound
  deriving DecidableEq, Repr

/-- One field of the record struct: its declaration (`reflect.StructField`)
and the reflective access to it. `set` is `reflect.Value.Set`, which panics
(`none`) when the value is not assignable to the field. -/
structure Field (R : Type) where
  Name : Str
  Typ : Kind
  Tag : Str
  get : R → Value
  set : R → Value → Option R

/-- A record type as the store sees it: the methods of the `Keyable`
interface, the struct fields, and the hooks the type implements.
`From payload` is `reflect.New(typ)` followed by `data.From(payload)`. -/
structure Keyable (R : Type) where
  GetKey : R → Str
  SetKey : R → Str → R
  String : R → Str
  From : Str → Except Error R
  fields : List (Field R)
  BeforeCreate : Option (R → Except Error R) := none
  AfterCreate : Option (R → Option Error) := none
  BeforeDelete : Option (R → Except Error R) := none
  AfterDelete : Option (R → Option Error) := none
  BeforeUpdate : Option (R → Except Error R) := none
  AfterUpdate : Option (R → Option Error) := none

/-- Go's `reflect.Value.FieldByName`: `none` is the invalid value. -/
def Keyable.FieldByName {R : Type} (K : Keyable R) (name : Str) : Option (Field R) :=
  K.fields.find? fun f => f.Name == name

/-! ## Table: the WAL file and the in-memory sequence (`db/table.go`) -/

/-- A table: the content of its WAL file and the in-memory sequence. -/
structure Table (R : Type) where
  wal : Str
  data : List R

/-- What the operating system did with one `writeWAL`: everything written and
synced; `Write` failed after `written` characters of the line; or `Write`
succeeded and `Sync` failed. -/
inductive WriteOutcome where
  | ok
  | writeFailed (written : Nat) (code : Nat)
  | syncFailed (code : Nat)
  deriving DecidableEq, Repr

/-- The line `writeWAL` hands to `Write`: `opType + "," + payload + "\n"`. -/
def walLine (opType payload : Str) : Str := opType ++ [','] ++ payload ++ ['\n']

/-- `Table.writeWAL`: append the line, then sync; the error of either step is
returned. -/
def Table.writeWAL {R : Type} (t : Table R) (opType payload : Str) (io : WriteOutcome) :
    Table R × Option Error :=
  match io with
  | .ok => ({ t with wal := t.wal ++ walLine opType payload }, none)
  | .writeFailed written code =>
    ({ t with wal := t.wal ++ (walLine opType payload).take written }, some (.io code))
  | .syncFailed code => ({ t with wal := t.wal ++ walLine opType payload }, some (.io code))

/-- The op type "ADD". -/
def ADD : Str := ['A', 'D', 'D']

/-- The op type "UPDATE". -/
def UPDATE : Str := ['U', 'P', 'D', 'A', 'T', 'E']

/-- The op type "DELETE". -/
def DELETE : Str := ['D', 'E', 'L', 'E', 'T', 'E']

/-- The loop `for i, v := range data { if v.GetKey() == d.GetKey() { data[i] = d; break } }`:
the first record carrying the key of `d` is replaced by `d`. -/
def replaceFirst {R : Type} (K : Keyable R) (d : R) : List R → List R
  | [] => []
  | v :: vs => if K.GetKey v = K.GetKey d then d :: vs else v :: replaceFirst K d vs

/-- The loop `for i, v := range data { if v.GetKey() == key { data = append(data[:i],
data[i+1:]...); break } }`: the first record carrying `key` is removed. -/
def removeFirst {R : Type} (K : Keyable R) (key : Str) : List R → List R
  | [] => []
  | v :: vs => if K.GetKey v = key then vs else v :: removeFirst K key vs

/-- Whether some record of the sequence carries `key`. -/
def hasKey {R : Type} (K : Keyable R) (key : Str) (data : List R) : Bool :=
  data.any fun v => K.GetKey v == key

/-- The body of the loop of `Table.Recover` for one scanned line. -/
def Table.recoverLine {R : Type} (K : Keyable R) (data : List R) (line : Str) : List R :=
  if TrimSpace line = [] then data
  else
    match SplitN2 line with
    | [opType, payload] =>
      if opType = ADD then
        match K.From payload with
        | .error _ => data
        | .ok d => data ++ [d]
      else if opType = UPDATE then
        match K.From payload with
        | .error _ => data
        | .ok d => replaceFirst K d data
      else if opType = DELETE then removeFirst K payload data
      else data
    | _ => data

/-- The loop of `Table.Recover` over the lines the scanner delivers. -/
def Table.recoverLines {R : Type} (K : Keyable R) (data : List R) (lines : List Str) : List R :=
  lines.foldl (Table.recoverLine K) data

/-- `Table.Recover`: replay the WAL file onto the in-memory sequence. -/
def Table.Recover {R : Type} (K : Keyable R) (t : Table R) : Table R :=
  { t with data := Table.recoverLines K t.data (scanLines t.wal) }

/-- The creating path of `MinDB.getOrCreateTable`: a table over the file, with
an empty sequence, recovered. -/
def openTable {R : Type} (K : Keyable R) (wal : Str) : Table R :=
  Table.Recover K { wal := wal, data := [] }

/-- `MinDB.GetByKey`'s scan: the first record carrying `key`. -/
def lookup {R : Type} (K : Keyable R) (key : Str) (data : List R) : Option R :=
  data.find? fun v => K.GetKey v == key

/-! ## The store (`db/db.go`) -/

/-- The registry entries of one table: `m.constraints[tableName]` and
`m.defaults[tableName]`. Go iterates these maps in an unspecified order; the
lists fix one order, and the theorems hold for every order. A missing map
entry behaves as the empty list. -/
structure MinDB where
  constraints : List Str
  defaults : List (Str × Value)

/-- What a call did: it returned (with the table as it left it and the error
value it returned, `none` for `nil`), or it panicked. -/
inductive Result (R : Type) where
  | returned (t : Table R) (err : Option Error)
  | panicked

/-- Go's `strings.Split(s, sep)` for a non-empty separator. `skip` counts the
characters of a matched separator still to pass over, `cur` is the current
part, most recent character first. -/
def splitFrom (sep : Str) : Nat → Str → Str → List Str
  | _, cur, [] => [cur.reverse]
  | skip + 1, cur, _ :: cs => splitFrom sep skip cur cs
  | 0, cur, c :: cs =>
    if sep.isPrefixOf (c :: cs) then cur.reverse :: splitFrom sep (sep.length - 1) [] cs
    else splitFrom sep 0 (c :: cur) cs

/-- Go's `strings.Split(s, sep)` for a non-empty separator. -/
def Split (s sep : Str) : List Str := splitFrom sep 0 [] s

/-- The value of a string of decimal digits; `none` when it is empty or holds
another character. -/
def parseDigits (s : Str) : Option Nat :=
  if s = [] then none
  else s.foldl (fun acc c => match acc with
    | none => none
    | some n => if c.isDigit then some (10 * n + (c.toNat - 48)) else none) (some 0)

/-- Go's `strconv.Atoi` on a 64-bit platform: an optional sign, decimal digits,
and a value that fits `int`. -/
def Atoi (s : Str) : Option Int :=
  match s with
  | '-' :: ds =>
    match parseDigits ds with
    | some n => if n ≤ 2 ^ 63 then some (-(n : Int)) else none
    | none => none
  | '+' :: ds =>
    match parseDigits ds with
    | some n => if n < 2 ^ 63 then some (n : Int) else none
    | none => none
  | ds =>
    match parseDigits ds with
    | some n => if n < 2 ^ 63 then some (n : Int) else none
    | none => none

/-- The text "unique". -/
def uniqueWord : Str := ['u', 'n', 'i', 'q', 'u', 'e']

/-- The text "default". -/
def defaultWord : Str := ['d', 'e', 'f', 'a', 'u', 'l', 't']

/-- `m.constraints[tableName][name] = struct{}{}`. -/
def addConstraint (name : Str) (cs : List Str) : List Str :=
  if name ∈ cs then cs else cs ++ [name]

/-- `m.defaults[tableName][name] = v`. -/
def setDefault (name : Str) (v : Value) (ds : List (Str × Value)) : List (Str × Value) :=
  if ds.any (fun d => d.1 == name) then ds.map (fun d => if d.1 = name then (name, v) else d)
  else ds ++ [(name, v)]

/-- The body of the loop of `MinDB.AutoCreate` for one struct field; `none` is
the index-out-of-range panic of `strings.Split(tag, "default ")[1]`. -/
def autoCreateField {R : Type} (m : MinDB) (field : Field R) : Option MinDB :=
  let m1 : MinDB :=
    if Contains field.Tag uniqueWord then
      { m with constraints := addConstraint field.Name m.constraints }
    else m
  if Contains field.Tag defaultWord then
    match (Split field.Tag (defaultWord ++ [' '])).get? 1 with
    | none => none
    | some defaultValue =>
      match field.Typ with
      | Kind.String =>
        some { m1 with defaults := setDefault field.Name (.str defaultValue) m1.defaults }
      | Kind.Int =>
        match Atoi defaultValue with
        | none => some m1
        | some intValue =>
          some { m1 with defaults := setDefault field.Name (.int intValue) m1.defaults }
      | Kind.Bool => some m1
  else some m1

/-- The loop of `MinDB.AutoCreate` over the struct fields, in declaration
order; a panic ends it. -/
def autoCreateFields {R : Type} : MinDB → List (Field R) → Option MinDB
  | m, [] => some m
  | m, field :: rest =>
    match autoCreateField m field with
    | none => none
    | some m1 => autoCreateFields m1 rest

/-- `MinDB.AutoCreate`: register the record type. -/
def MinDB.AutoCreate {R : Type} (m : MinDB) (K : Keyable R) : Option MinDB :=
  autoCreateFields m K.fields

/-- A store in which nothing is registered. -/
def MinDB.empty : MinDB := { constraints := [], defaults := [] }

/-- The uniqueness check of `MinDB.Create`: for each constrained field, the
incoming value is compared with that of every stored record. -/
inductive UniqueCheck where
  | pass
  | violation (field : Str)
  | panicked
  deriving DecidableEq, Repr

/-- The loop over `constraints` in `MinDB.Create`. Reading a field the record
type lacks panics (`Interface` on the invalid value). -/
def checkUnique {R : Type} (K : Keyable R) (data : R) (existing : List R) :
    List Str → UniqueCheck
  | [] => .pass
  | field :: rest =>
    match K.FieldByName field with
    | none => .panicked
    | some f =>
      if existing.any (fun e => f.get e == f.get data) then .violation field
      else checkUnique K data existing rest

/-- The loop over `defaults` in `MinDB.Create`: a valid field holding its zero
value is set to the default; `none` is the panic of `Set`. -/
def applyDefaults {R : Type} (K : Keyable R) : List (Str × Value) → R → Option R
  | [], data => some data
  | (field, defaultValue) :: rest, data =>
    match K.FieldByName field with
    | none => applyDefaults K rest data
    | some f =>
      if (f.get data).IsZero then
        match f.set data defaultValue with
        | none => none
        | some data1 => applyDefaults K rest data1
      else applyDefaults K rest data

/-- A "before" hook call: the record as the hook leaves it, or the hook's
error; a type without the hook leaves the record as it is. -/
def runBefore {R : Type} (hook : Option (R → Except Error R)) (data : R) : Except Error R :=
  match hook with
  | none => .ok data
  | some h => h data

/-- An "after" hook call: the error the hook returns, if any. -/
def runAfter {R : Type} (hook : Option (R → Option Error)) (data : R) : Option Error :=
  match hook with
  | none => none
  | some h => h data

/-- A write through the pointer the caller passed: every position of the
sequence that holds that same pointer shows the record as written. -/
def writeThrough {R : Type} (held : List Nat) (data : R) (l : List R) : List R :=
  held.foldl (fun acc i => acc.set i data) l

/-- `MinDB.Create` on the table of the record's type. `data` is the record the
caller's pointer refers to and `held` the positions of `table.data` that hold
that same pointer (none for a record the table does not hold): the defaults,
the hook and `SetKey` write through the pointer, and `append` stores it.
`key` is the key that `generateUniqueKey` draws and `io` the outcome of the
WAL write. -/
def MinDB.Create {R : Type} (m : MinDB) (K : Keyable R) (table : Table R) (data : R)
    (held : List Nat) (key : Str) (io : WriteOutcome) : Result R :=
  match checkUnique K data table.data m.constraints with
  | .panicked => .panicked
  | .violation field => .returned table (some (.constraintViolation field))
  | .pass =>
    match applyDefaults K m.defaults data with
    | none => .panicked
    | some data1 =>
      match runBefore K.BeforeCreate data1 with
      | .error e => .returned { table with data := writeThrough held data1 table.data } (some e)
      | .ok data2 =>
        let data3 := K.SetKey data2 key
        let table0 : Table R := { table with data := writeThrough held data3 table.data }
        match table0.writeWAL ADD (K.String data3) io with
        | (table1, some e) => .returned table1 (some e)
        | (table1, none) =>
          .returned { table1 with data := table1.data ++ [data3] } (runAfter K.AfterCreate data3)

/-- `MinDB.Delete` on the table of the record's type. -/
def MinDB.Delete {R : Type} (K : Keyable R) (table : Table R) (data : R)
    (io : WriteOutcome) : Result R :=
  match runBefore K.BeforeDelete data with
  | .error e => .returned table (some e)
  | .ok data1 =>
    let key := K.GetKey data1
    if hasKey K key table.data then
      let table1 : Table R := { table with data := removeFirst K key table.data }
      match table1.writeWAL DELETE key io with
      | (table2, some e) => .returned table2 (some e)
      | (table2, none) => .returned table2 (runAfter K.AfterDelete data1)
    else .returned table none

/-- `MinDB.Update` on the table of the record's type. -/
def MinDB.Update {R : Type} (K : Keyable R) (table : Table R) (data : R)
    (io : WriteOutcome) : Result R :=
  match runBefore K.BeforeUpdate data with
  | .error e => .returned table (some e)
  | .ok data1 =>
    let key := K.GetKey data1
    if hasKey K key table.data then
      let table1 : Table R := { table with data := replaceFirst K data1 table.data }
      match table1.writeWAL UPDATE (K.String data1) io with
      | (table2, some e) => .returned table2 (some e)
      | (table2, none) => .returned table2 (runAfter K.AfterUpdate data1)
    else .returned table (some .notFound)

/-! ## Sequences of calls -/

/-- One call of the store on a table, with the inputs the environment supplies:
the positions that hold the pointer passed and the generated key (for
`Create`), and the outcome of the WAL write. -/
inductive Call (R : Type) where
  | create (data : R) (held : List Nat) (key : Str) (io : WriteOutcome)
  | update (data : R) (io : WriteOutcome)
  | delete (data : R) (io : WriteOutcome)

/-- Run one call. -/
def MinDB.call {R : Type} (m : MinDB) (K : Keyable R) (table : Table R) : Call R → Result R
  | .create data held key io => m.Create K table data held key io
  | .update data io => MinDB.Update K table data io
  | .delete data io => MinDB.Delete K table data io

/-- Run calls one after the other as long as each returns `nil`; the table
after the last one, or `none` when some call returned an error or panicked. -/
def MinDB.runCalls {R : Type} (m : MinDB) (K : Keyable R) : Table R → List (Call R) → Option (Table R)
  | table, [] => some table
  | table, c :: cs =>
    match m.call K table c with
    | .returned table1 none => m.runCalls K table1 cs
    | _ => none

/-- The keys `generateUniqueKey` drew in a sequence of calls. -/
def generatedKeys {R : Type} : List (Call R) → List Str
  | [] => []
  | .create _ _ key _ :: cs => key :: generatedKeys cs
  | _ :: cs => generatedKeys cs

/-- For each `Create` of a sequence of calls, the positions that held the
pointer passed. -/
def heldPositions {R : Type} : List (Call R) → List (List Nat)
  | [] => []
  | .create _ held _ _ :: cs => held :: heldPositions cs
  | _ :: cs => heldPositions cs

/-- The characters of the text form of a UUID. -/
def isUUIDChar (c : Char) : Bool :=
  c == '-' || c.isDigit || ('a' ≤ c && c ≤ 'f')

/-- The shape of `uuid.New().String()`: 36 characters, hexadecimal digits in
groups of 8, 4, 4, 4 and 12 separated by hyphens. -/
def isUUID (k : Str) : Bool :=
  k.length == 36 && k.all isUUIDChar && k.count '-' == 4
    && k.get? 8 == some '-' && k.get? 13 == some '-'
    && k.get? 18 == some '-' && k.get? 23 == some '-'

/-- The file made of the given lines, each ended by a line feed. -/
def fileOf : List Str → Str
  | [] => []
  | l :: ls => l ++ '\n' :: fileOf ls

/-- The lines of a file as they stand between line feeds, `cur` being the part
of the current line read so far, most recent character first. -/
def rawLinesFrom (cur : Str) : Str → List Str
  | [] => if cur = [] then [] else [cur.reverse]
  | c :: cs => if c = '\n' then cur.reverse :: rawLinesFrom [] cs else rawLinesFrom (c :: cur) cs

/-- The lines of a file as they stand between line feeds. -/
def rawLines (file : Str) : List Str := rawLinesFrom [] file

/-! ## A concrete record type

`Member` has two string fields and keeps its key in `ID`. Its text form is
the two fields, escaped, with a comma between them. -/

/-- A record with a key and a name. -/
structure Member where
  ID : Str
  Name : Str
  deriving DecidableEq, Repr

/-- Escape backslash, line feed, carriage return and comma. -/
def esc : Str → Str
  | [] => []
  | c :: cs =>
    if c = '\\' then '\\' :: '\\' :: esc cs
    else if c = '\n' then '\\' :: 'n' :: esc cs
    else if c = '\r' then '\\' :: 'r' :: esc cs
    else if c = ',' then '\\' :: 'c' :: esc cs
    else c :: esc cs

/-- Undo `esc`; `none` on text that `esc` cannot have made. -/
def unesc : Str → Option Str
  | [] => some []
  | [c] => if c = '\\' ∨ c = '\n' ∨ c = '\r' ∨ c = ',' then none else some [c]
  | c :: d :: cs =>
    if c = '\\' then
      if d = '\\' then (unesc cs).map fun r => '\\' :: r
      else if d = 'n' then (unesc cs).map fun r => '\n' :: r
      else if d = 'r' then (unesc cs).map fun r => '\r' :: r
      else if d = 'c' then (unesc cs).map fun r => ',' :: r
      else none
    else if c = '\n' ∨ c = '\r' ∨ c = ',' then none
    else (unesc (d :: cs)).map fun r => c :: r

/-- `String()` of `Member`. -/
def Member.String (u : Member) : Str := esc u.ID ++ ',' :: esc u.Name

/-- `From(s)` of `Member`, on a blank record. -/
def Member.From (s : Str) : Except Error Member :=
  match cutComma s with
  | none => .error (.user [])
  | some (a, b) =>
    match unesc a, unesc b with
    | some i, some n => .ok { ID := i, Name := n }
    | _, _ => .error (.user [])

/-- The field `ID` of `Member`, declared with the given tag. -/
def Member.fieldID (tag : Str) : Field Member :=
  { Name := ['I', 'D'], Typ := Kind.String, Tag := tag,
    get := fun u => .str u.ID,
    set := fun u v => match v with
      | .str s => some { u with ID := s }
      | _ => none }

/-- The field `Name` of `Member`, declared with the given tag. -/
def Member.fieldName (tag : Str) : Field Member :=
  { Name := ['N', 'a', 'm', 'e'], Typ := Kind.String, Tag := tag,
    get := fun u => .str u.Name,
    set := fun u v => match v with
      | .str s => some { u with Name := s }
      | _ => none }

/-- The record type `Member` with the given tags on `ID` and `Name`, and no
hooks. -/
def memberType (idTag nameTag : Str) : Keyable Member :=
  { GetKey := fun u => u.ID,
    SetKey := fun u key => { u with ID := key },
    String := Member.String,
    From := Member.From,
    fields := [Member.fieldID idTag, Member.fieldName nameTag] }

/-- A record type that refuses every mutation in its "before" hooks. -/
def guardedType : Keyable Member :=
  { memberType [] [] with
    BeforeCreate := some fun _ => .error (.user ['n', 'o']),
    BeforeDelete := some fun _ => .error (.user ['n', 'o']),
    BeforeUpdate := some fun _ => .error (.user ['n', 'o']) }

/-- A generated key. -/
def key1 : Str := "00000000-0000-4000-8000-000000000001".toList

/-- Another generated key. -/
def key2 : Str := "00000000-0000-4000-8000-000000000002".toList

/-- The name "bob". -/
def bob : Str := ['b', 'o', 'b']

/-- The name "eve". -/
def eve : Str := ['e', 'v', 'e']

/-- A name of 65536 letters. -/
def longName : Str := List.replicate 65536 'a'

/-! ## Notions used in the statements -/

/-- Struct fields behave as struct fields: a successful `Set` is read back by
the same field and leaves the other fields of the record as they were. -/
def LawfulFields {R : Type} (K : Keyable R) : Prop :=
  ∀ f ∈ K.fields, ∀ (r r1 : R) (v : Value), f.set r v = some r1 →
    f.get r1 = v ∧ ∀ g ∈ K.fields, g.Name ≠ f.Name → g.get r1 = g.get r

/-- A line that replay passes over: a blank line, a line without a comma, a
line whose op type is none of ADD, UPDATE, DELETE, and an ADD or UPDATE line
whose payload does not decode. -/
def isSkippedLine {R : Type} (K : Keyable R) (line : Str) : Bool :=
  TrimSpace line == [] ||
    match cutComma line with
    | none => true
    | some (opType, payload) =>
      if opType = ADD ∨ opType = UPDATE then
        match K.From payload with
        | .error _ => true
        | .ok _ => false
      else if opType = DELETE then false
      else true

/-- The key an entry concerns: the key of the decoded record for ADD and
UPDATE, the payload for DELETE; `none` for a line that replay passes over. -/
def lineKey {R : Type} (K : Keyable R) (line : Str) : Option Str :=
  if isSkippedLine K line then none
  else
    match cutComma line with
    | none => none
    | some (opType, payload) =>
      if opType = DELETE then some payload
      else
        match K.From payload with
        | .error _ => none
        | .ok d => some (K.GetKey d)

/-- A log in which, replayed onto `data`, every ADD entry brings a key that no
record of the sequence carries at that point and every UPDATE entry addresses
a key that one does. -/
def keyConsistent {R : Type} (K : Keyable R) : List R → List Str → Bool
  | _, [] => true
  | data, line :: rest =>
    (match cutComma line with
      | none => true
      | some (opType, payload) =>
        if opType = ADD then
          match K.From payload with
          | .error _ => true
          | .ok d => !hasKey K (K.GetKey d) data
        else if opType = UPDATE then
          match K.From payload with
          | .error _ => true
          | .ok d => hasKey K (K.GetKey d) data
        else true)
      && keyConsistent K (Table.recoverLine K data line) rest

/-- The state that every successful call keeps: the log is a sequence of full
lines, none of which the scanner would alter, the in-memory sequence is the
replay of those lines, and every stored key is a generated one. -/
def ReplayInvariant {R : Type} (K : Keyable R) (t : Table R) : Prop :=
  ∃ ls : List Str, t.wal = fileOf ls ∧ (∀ l ∈ ls, '\n' ∉ l ∧ dropCR l = l) ∧
    t.data = Table.recoverLines K [] ls ∧ ∀ v ∈ t.data, isUUID (K.GetKey v) = true

/-! ## The query builder (`db/query.go`) -/

/-- What a terminal operation of a query did: it returned a value, returned
an error, or panicked. -/
inductive Outcome (α : Type) where
  | ok (a : α)
  | err (e : Error)
  | panicked

/-- The choices Go leaves open: the permutation `sort.Slice` produces for a
given `less` and slice, and the order in which `range` visits the keys of a
map (given here in order of insertion). -/
structure Env (R : Type) where
  sortSlice : (R → R → Bool) → List R → List R
  rangeOrder : List Str → List Str

/-- The insertion step of Go's `insertionSortLessFunc`: the new element moves
left as long as it is less than the element before it. `sorted` is the part
already sorted, last element first. -/
def insertLeft {R : Type} (less : R → R → Bool) (x : R) : List R → List R
  | [] => [x]
  | y :: ys => if less x y then y :: insertLeft less x ys else x :: y :: ys

/-- Go's `insertionSortLessFunc`, which is what `sort.Slice` runs on a slice
of at most 12 elements. -/
def insertionSort {R : Type} (less : R → R → Bool) (l : List R) : List R :=
  (l.foldl (fun sorted x => insertLeft less x sorted) []).reverse

/-- The choices of a run in which `sort.Slice` is the insertion sort and
`range` visits map keys in order of insertion. -/
def smallEnv (R : Type) : Env R :=
  { sortSlice := insertionSort, rangeOrder := fun keys => keys }

/-- A Go `int` (64 bits) from a mathematical integer: the value modulo 2^64 in
the range from -2^63 to 2^63 - 1. -/
def wrap64 (n : Int) : Int := (n + 2 ^ 63) % 2 ^ 64 - 2 ^ 63

/-- The type assertion `.(int)`: `none` is its panic. -/
def Value.asInt : Value → Option Int
  | .int n => some n
  | _ => none

/-- Go's `reflect.Value.String`: the string itself for a string, and the text
"<T Value>" for another kind. -/
def Value.String : Value → Str
  | .str s => s
  | .int _ => "<int Value>".toList
  | .bool _ => "<bool Value>".toList

/-- The `Join` of a query: the joined table, whose records are of a type of
their own, and the field name `on` to match by. -/
structure Join where
  S : Type
  K : Keyable S
  table : Table S
  onField : Str

/-- The `Query` struct. `blank` is `reflect.New(q.table.typ)`, a record with
every field at its zero value. A comparison of `sortBy` that panics is `none`. -/
structure Query (R : Type) where
  table : Table R
  blank : R
  filter : Option (R → Bool)
  sortBy : Option (R → R → Option Bool)
  limit : Int
  groupBy : Str
  having : Option (R → Bool)
  join : Option Join
  distinct : Bool
  fields : List Str

/-- `MinDB.Query`: a query on the table, with the filter that accepts every
record. -/
def MinDB.Query {R : Type} (table : Table R) (blank : R) : Query R :=
  { table := table, blank := blank, filter := some fun _ => true, sortBy := none,
    limit := 0, groupBy := [], having := none, join := none, distinct := false,
    fields := [] }

/-- The closure `v.IsValid() && v.Interface() == value` of `Where` and
`Having`. -/
def fieldEquals {R : Type} (K : Keyable R) (field : Str) (value : Value) (data : R) : Bool :=
  match K.FieldByName field with
  | none => false
  | some f => f.get data == value

/-- `Query.Where`. -/
def Query.Where {R : Type} (K : Keyable R) (q : Query R) (field : Str) (value : Value) :
    Query R :=
  { q with filter := some (fieldEquals K field value) }

/-- The closure of `OrderBy`: false when the field is invalid, else the
comparison of the two values as `int`. -/
def orderLess {R : Type} (K : Keyable R) (field : Str) (desc : Bool) (i j : R) : Option Bool :=
  match K.FieldByName field with
  | none => some false
  | some f =>
    match (f.get i).asInt, (f.get j).asInt with
    | some a, some b => some (if desc then decide (a > b) else decide (a < b))
    | _, _ => none

/-- `Query.OrderBy`. -/
def Query.OrderBy {R : Type} (K : Keyable R) (q : Query R) (field : Str) (desc : Bool) :
    Query R :=
  { q with sortBy := some (orderLess K field desc) }

/-- `Query.Limit`. -/
def Query.Limit {R : Type} (q : Query R) (limit : Int) : Query R :=
  { q with limit := limit }

/-- `Query.GroupBy`. -/
def Query.GroupBy {R : Type} (q : Query R) (field : Str) : Query R :=
  { q with groupBy := field }

/-- `Query.Having`. -/
def Query.Having {R : Type} (K : Keyable R) (q : Query R) (field : Str) (value : Value) :
    Query R :=
  { q with having := some (fieldEquals K field value) }

/-- `Query.Distinct`. -/
def Query.Distinct {R : Type} (q : Query R) : Query R :=
  { q with distinct := true }

/-- `Query.Select`. -/
def Query.Select {R : Type} (q : Query R) (fields : List Str) : Query R :=
  { q with fields := fields }

/-- `Query.In`. -/
def Query.In {R : Type} (K : Keyable R) (q : Query R) (field : Str) (values : List Value) :
    Query R :=
  { q with filter := some fun data =>
      match K.FieldByName field with
      | none => false
      | some f => values.any fun value => f.get data == value }

/-- `Query.IsNull`. -/
def Query.IsNull {R : Type} (K : Keyable R) (q : Query R) (field : Str) : Query R :=
  { q with filter := some fun data =>
      match K.FieldByName field with
      | none => false
      | some f => (f.get data).IsZero }

/-- `Query.IsNotNull`. -/
def Query.IsNotNull {R : Type} (K : Keyable R) (q : Query R) (field : Str) : Query R :=
  { q with filter := some fun data =>
      match K.FieldByName field with
      | none => false
      | some f => !(f.get data).IsZero }

/-- Go's `strings.ReplaceAll(s, old, new)` for a non-empty `old`. -/
def ReplaceAll (s old new : Str) : Str := new.intercalate (Split s old)

/-- `convertToRegex`: "%" becomes ".*", then "_" becomes ".". -/
def convertToRegex (pattern : Str) : Str :=
  ReplaceAll (ReplaceAll pattern ['%'] ['.', '*']) ['_'] ['.']

/-- The regular expressions that `convertToRegex` makes of letters, digits,
"%" and "_": a sequence of literal characters, "." and ".*". -/
inductive RegexTok where
  | lit (c : Char)
  | any
  | anyStar
  deriving DecidableEq, Repr

/-- `regexp.Compile` on the expressions made of letters, digits, "." and ".*";
`none` for any other expression, which the embedding does not cover. -/
def compileRegex : Str → Option (List RegexTok)
  | [] => some []
  | '.' :: '*' :: rest =>
    match compileRegex rest with
    | none => none
    | some ts => some (.anyStar :: ts)
  | c :: rest =>
    match compileRegex rest with
    | none => none
    | some ts =>
      if c = '.' then some (.any :: ts)
      else if c.isAlphanum then some (.lit c :: ts)
      else none

/-- The texts that may remain after ".*" has matched a beginning of `s`: "."
matches every character but the line feed. -/
def starRests : Str → List Str
  | [] => [[]]
  | x :: xs => (x :: xs) :: (if x = '\n' then [] else starRests xs)

/-- Whether the expression matches a beginning of the text. -/
def matchHere : List RegexTok → Str → Bool
  | [], _ => true
  | .lit c :: ts, s =>
    match s with
    | [] => false
    | x :: xs => x == c && matchHere ts xs
  | .any :: ts, s =>
    match s with
    | [] => false
    | x :: xs => x != '\n' && matchHere ts xs
  | .anyStar :: ts, s => (starRests s).any fun rest => matchHere ts rest

/-- `Regexp.MatchString`: whether the expression matches some part of the
text, starting anywhere in it. -/
def MatchString (re : List RegexTok) (s : Str) : Bool :=
  s.tails.any fun t => matchHere re t

/-- Go's `regexp` package, which the repository imports and does not contain:
`regexp.Compile` of an expression, giving the compiled expression as its
`MatchString`, or an error (`none`). -/
abbrev Regexp := Str → Option (Str → Bool)

/-- The part of `regexp` that the examples run: `compileRegex` and
`MatchString` on the expressions made of letters, digits, "." and ".*". It
refuses every other expression, so it stands for Go's `regexp` on that class
only. -/
def smallRegexp : Regexp := fun expr => (compileRegex expr).map MatchString

/-- `Query.Like`. `compile` is `regexp.Compile`; when it returns an error the
error is logged and the query is returned as it is. -/
def Query.Like {R : Type} (K : Keyable R) (compile : Regexp) (q : Query R)
    (field pattern : Str) : Query R :=
  match compile (convertToRegex pattern) with
  | none => q
  | some matchString =>
    { q with filter := some fun data =>
      match K.FieldByName field with
      | none => false
      | some f => matchString (f.get data).String }

/-! ### `Query.List` -/

/-- The first loop of `List`: the records the filter accepts; a `nil` filter
accepts every record. -/
def filterStage {R : Type} (q : Query R) : List R :=
  q.table.data.filter fun data =>
    match q.filter with
    | none => true
    | some f => f data

/-- Whether every comparison of `less` within the list returns. -/
def comparable {R : Type} (less : R → R → Option Bool) (l : List R) : Bool :=
  l.all fun a => l.all fun b => (less a b).isSome

/-- The sort of `List`. `sort.Slice` compares nothing on fewer than two
elements; on more, a comparison that panics panics the sort (the records of a
table have one type, so either every comparison panics or none does). -/
def sortStage {R : Type} (env : Env R) (q : Query R) (result : List R) : Option (List R) :=
  match q.sortBy with
  | none => some result
  | some less =>
    if result.length < 2 then some result
    else if comparable less result then
      some (env.sortSlice (fun a b => (less a b).getD false) result)
    else none

/-- The limit of `List`: `result[:q.limit]` when the limit is positive and
smaller than the length. -/
def limitStage {R : Type} (q : Query R) (result : List R) : List R :=
  if 0 < q.limit ∧ q.limit < result.length then result.take q.limit.toNat else result

/-- `grouped[key] = append(grouped[key], data)`, the groups being kept in the
order in which their keys were first inserted. -/
def groupInsert {R : Type} (key : Str) (data : R) : List (Str × List R) → List (Str × List R)
  | [] => [(key, [data])]
  | (k, g) :: rest =>
    if k = key then (k, g ++ [data]) :: rest else (k, g) :: groupInsert key data rest

/-- The loop of `List` that fills `grouped`: a record without the field ends
it with "field not found", a field that is not a string panics. -/
def groupLoop {R : Type} (K : Keyable R) (field : Str) :
    List (Str × List R) → List R → Outcome (List (Str × List R))
  | groups, [] => .ok groups
  | groups, data :: rest =>
    match K.FieldByName field with
    | none => .err .fieldNotFound
    | some f =>
      match f.get data with
      | .str key => groupLoop K field (groupInsert key data groups) rest
      | _ => .panicked

/-- The group stored under `key`; empty when there is none. -/
def groupOf {R : Type} (key : Str) (groups : List (Str × List R)) : List R :=
  match groups.find? fun g => g.1 == key with
  | some g => g.2
  | none => []

/-- The loop of `List` over `grouped`, visiting the keys in the given order: a
group is appended when `having` is `nil` or accepts its first member. -/
def havingLoop {R : Type} (having : Option (R → Bool)) (groups : List (Str × List R)) :
    List Str → List R
  | [] => []
  | key :: rest =>
    (match groupOf key groups with
      | [] => []
      | first :: others =>
        if (match having with
            | none => true
            | some h => h first) then first :: others
        else [])
      ++ havingLoop having groups rest

/-- The group stage of `List`. -/
def groupStage {R : Type} (K : Keyable R) (env : Env R) (q : Query R) (result : List R) :
    Outcome (List R) :=
  if q.groupBy = [] then .ok result
  else
    match groupLoop K q.groupBy [] result with
    | .ok groups => .ok (havingLoop q.having groups (env.rangeOrder (groups.map Prod.fst)))
    | .err e => .err e
    | .panicked => .panicked

/-- The loop of the distinct stage: a record is kept when its key has not been
seen. -/
def distinctLoop {R : Type} (K : Keyable R) : List Str → List R → List R
  | _, [] => []
  | seen, data :: rest =>
    if K.GetKey data ∈ seen then distinctLoop K seen rest
    else data :: distinctLoop K (K.GetKey data :: seen) rest

/-- The distinct stage of `List`. -/
def distinctStage {R : Type} (K : Keyable R) (q : Query R) (result : List R) : List R :=
  if q.distinct then distinctLoop K [] result else result

/-- The join stage of `List`: a left record is appended once for every record
of the joined table whose `on` field equals its own, or once for every record
of the joined table when `on` is empty. Reading a field that a record type
lacks panics (`Interface` on the invalid value). -/
def joinStage {R : Type} (K : Keyable R) (q : Query R) (result : List R) : Option (List R) :=
  match q.join with
  | none => some result
  | some j =>
    if j.onField = [] then some (result.flatMap fun data => j.table.data.map fun _ => data)
    else
      match K.FieldByName j.onField, j.K.FieldByName j.onField with
      | some fl, some fr =>
        some (result.flatMap fun data =>
          (j.table.data.filter fun joinData => fl.get data == fr.get joinData).map
            fun _ => data)
      | _, _ => if result.isEmpty || j.table.data.isEmpty then some [] else none

/-- The inner loop of the select stage: the named fields that the record type
has are copied into the blank record. -/
def selectFields {R : Type} (K : Keyable R) (data : R) : List Str → R → Option R
  | [], newData => some newData
  | field :: rest, newData =>
    match K.FieldByName field with
    | none => selectFields K data rest newData
    | some f =>
      match f.set newData (f.get data) with
      | none => none
      | some newData1 => selectFields K data rest newData1

/-- The outer loop of the select stage. -/
def selectLoop {R : Type} (K : Keyable R) (q : Query R) : List R → Option (List R)
  | [] => some []
  | data :: rest =>
    match selectFields K data q.fields q.blank, selectLoop K q rest with
    | some newData, some selected => some (newData :: selected)
    | _, _ => none

/-- The select stage of `List`. -/
def selectStage {R : Type} (K : Keyable R) (q : Query R) (result : List R) : Option (List R) :=
  if q.fields = [] then some result else selectLoop K q result

/-- `Query.List`: filter, sort, limit, group and having, distinct, join,
select. -/
def Query.List {R : Type} (K : Keyable R) (env : Env R) (q : Query R) : Outcome (List R) :=
  match sortStage env q (filterStage q) with
  | none => .panicked
  | some sorted =>
    match groupStage K env q (limitStage q sorted) with
    | .err e => .err e
    | .panicked => .panicked
    | .ok grouped =>
      match joinStage K q (distinctStage K q grouped) with
      | none => .panicked
      | some joined =>
        match selectStage K q joined with
        | none => .panicked
        | some selected => .ok selected

/-! ### Aggregates -/

/-- The loop of `aggregate`: a record without the field ends it with "field
not found", a field that is not an `int` panics. The running result is `nil`
(`none`) until the first record. -/
def aggregateLoop {R : Type} (K : Keyable R) (field : Str) (fn : Option Int → Int → Int) :
    Option Int → List R → Outcome (Option Int)
  | result, [] => .ok result
  | result, data :: rest =>
    match K.FieldByName field with
    | none => .err .fieldNotFound
    | some f =>
      match (f.get data).asInt with
      | none => .panicked
      | some v => aggregateLoop K field fn (some (fn result v)) rest

/-- The function `aggregate`. -/
def aggregate {R : Type} (K : Keyable R) (env : Env R) (q : Query R) (field : Str)
    (fn : Option Int → Int → Int) : Outcome (Option Int) :=
  match q.List K env with
  | .err e => .err e
  | .panicked => .panicked
  | .ok results => aggregateLoop K field fn none results

/-- `Query.Sum`. The final `res.(int)` panics when `aggregate` returned `nil`. -/
def Query.Sum {R : Type} (K : Keyable R) (env : Env R) (q : Query R) (field : Str) :
    Outcome Int :=
  match aggregate K env q field (fun sum v =>
      match sum with
      | none => v
      | some s => wrap64 (s + v)) with
  | .err e => .err e
  | .panicked => .panicked
  | .ok none => .panicked
  | .ok (some res) => .ok res

/-- `Query.Max`: `nil` (`none`) when no record was aggregated. -/
def Query.Max {R : Type} (K : Keyable R) (env : Env R) (q : Query R) (field : Str) :
    Outcome (Option Int) :=
  aggregate K env q field fun max v =>
    match max with
    | none => v
    | some m => if v > m then v else m

/-- `Query.Min`: `nil` (`none`) when no record was aggregated. -/
def Query.Min {R : Type} (K : Keyable R) (env : Env R) (q : Query R) (field : Str) :
    Outcome (Option Int) :=
  aggregate K env q field fun min v =>
    match min with
    | none => v
    | some m => if v < m then v else m

/-- The loop of `Query.Avg`, summing into an `int`. -/
def avgLoop {R : Type} (K : Keyable R) (field : Str) : Int → List R → Outcome Int
  | sum, [] => .ok sum
  | sum, data :: rest =>
    match K.FieldByName field with
    | none => .err .fieldNotFound
    | some f =>
      match (f.get data).asInt with
      | none => .panicked
      | some v => avgLoop K field (wrap64 (sum + v)) rest

/-- `Query.Avg`. The value returned is `float64(sum) / float64(len(results))`;
the embedding gives the two operands of that division. -/
def Query.Avg {R : Type} (K : Keyable R) (env : Env R) (q : Query R) (field : Str) :
    Outcome (Int × Nat) :=
  match q.List K env with
  | .err e => .err e
  | .panicked => .panicked
  | .ok results =>
    match avgLoop K field 0 results with
    | .err e => .err e
    | .panicked => .panicked
    | .ok sum => .ok (sum, results.length)

/-! ### Bulk update and delete -/

/-- The variadic `conditionFields ...interface{}`: field names and values in
turn. -/
abbrev ConditionFields := List Value

/-- The closure that `Update` and `Delete` build from the condition list: the
record must hold each named field with the given value. The name is obtained
by the type assertion `.(string)`, which panics (`none`) on another value. -/
def condFilter {R : Type} (K : Keyable R) : ConditionFields → R → Option Bool
  | [], _ => some true
  | [_], _ => none
  | cond :: condValue :: rest, data =>
    match cond with
    | .str condField =>
      match K.FieldByName condField with
      | none => some false
      | some f => if f.get data ≠ condValue then some false else condFilter K rest data
    | _ => none

/-- The filter that `Update` and `Delete` apply: the one made of the condition
list when that is not empty, else the filter of the query; calling a `nil`
filter panics (`none`). -/
def bulkFilter {R : Type} (K : Keyable R) (q : Query R)
    (conditionFields : ConditionFields) (data : R) : Option Bool :=
  if conditionFields = [] then
    match q.filter with
    | none => none
    | some f => some (f data)
  else condFilter K conditionFields data

/-- The loop of `Query.Update` from its `n`-th WAL write on: `done` are the
records already visited, as they now stand. `Set` changes the stored record
in place, before the WAL write. -/
def updateLoop {R : Type} (K : Keyable R) (filter : R → Option Bool) (field : Str)
    (value : Value) (io : Nat → WriteOutcome) : Nat → Str → List R → List R → Result R
  | _, wal, done, [] => .returned { wal := wal, data := done } none
  | n, wal, done, data :: rest =>
    match filter data with
    | none => .panicked
    | some false => updateLoop K filter field value io n wal (done ++ [data]) rest
    | some true =>
      match K.FieldByName field with
      | none => .panicked
      | some f =>
        match f.set data value with
        | none => .panicked
        | some data1 =>
          match ({ wal := wal, data := [] } : Table R).writeWAL UPDATE (K.String data1) (io n) with
          | (t1, some e) => .returned { wal := t1.wal, data := done ++ data1 :: rest } (some e)
          | (t1, none) =>
            updateLoop K filter field value io (n + 1) t1.wal (done ++ [data1]) rest

/-- `Query.Update` on the query's table. `io n` is the outcome of the `n`-th
WAL write of the call. `q.table.data[0]` panics on an empty table. -/
def Query.Update {R : Type} (K : Keyable R) (q : Query R) (field : Str) (value : Value)
    (conditionFields : ConditionFields) (io : Nat → WriteOutcome) : Result R :=
  match q.table.data with
  | [] => .panicked
  | _ :: _ =>
    if conditionFields ≠ [] ∧ conditionFields.length % 2 ≠ 0 then
      .returned q.table (some .conditionPairs)
    else
      updateLoop K (bulkFilter K q conditionFields) field value io 0 q.table.wal [] q.table.data

/-- The loop of `Query.Delete` from its `n`-th WAL write on: `newData` are the
records kept so far. A failed write returns before `table.data` is assigned. -/
def deleteLoop {R : Type} (K : Keyable R) (filter : R → Option Bool)
    (io : Nat → WriteOutcome) (old : List R) : Nat → Str → List R → List R → Result R
  | _, wal, newData, [] => .returned { wal := wal, data := newData } none
  | n, wal, newData, data :: rest =>
    match filter data with
    | none => .panicked
    | some false => deleteLoop K filter io old n wal (newData ++ [data]) rest
    | some true =>
      match ({ wal := wal, data := [] } : Table R).writeWAL DELETE (K.GetKey data) (io n) with
      | (t1, some e) => .returned { wal := t1.wal, data := old } (some e)
      | (t1, none) => deleteLoop K filter io old (n + 1) t1.wal newData rest

/-- `Query.Delete` on the query's table. -/
def Query.Delete {R : Type} (K : Keyable R) (q : Query R)
    (conditionFields : ConditionFields) (io : Nat → WriteOutcome) : Result R :=
  match q.table.data with
  | [] => .panicked
  | _ :: _ =>
    if conditionFields ≠ [] ∧ conditionFields.length % 2 ≠ 0 then
      .returned q.table (some .conditionPairs)
    else
      deleteLoop K (bulkFilter K q conditionFields) io q.table.data 0 q.table.wal []
        q.table.data

/-! ### A record type with an integer field -/

/-- The `User` of `main.go`: a key, a name and an age. -/
structure User where
  ID : Str
  Name : Str
  Age : Int
  deriving DecidableEq, Repr

/-- A text form of `User`: the escaped key and name and the age in decimal,
with commas between them. -/
def User.String (u : User) : Str :=
  esc u.ID ++ ',' :: esc u.Name ++ ',' :: (toString u.Age).toList

/-- `From(s)` of `User`, on a blank record. -/
def User.From (s : Str) : Except Error User :=
  match cutComma s with
  | none => .error (.user [])
  | some (a, rest) =>
    match cutComma rest with
    | none => .error (.user [])
    | some (b, c) =>
      match unesc a, unesc b, Atoi c with
      | some i, some n, some age => .ok { ID := i, Name := n, Age := age }
      | _, _, _ => .error (.user [])

/-- The field `ID` of `User`. -/
def User.fieldID : Field User :=
  { Name := ['I', 'D'], Typ := Kind.String, Tag := uniqueWord,
    get := fun u => .str u.ID,
    set := fun u v => match v with
      | .str s => some { u with ID := s }
      | _ => none }

/-- The field `Name` of `User`. -/
def User.fieldName : Field User :=
  { Name := ['N', 'a', 'm', 'e'], Typ := Kind.String, Tag := uniqueWord,
    get := fun u => .str u.Name,
    set := fun u v => match v with
      | .str s => some { u with Name := s }
      | _ => none }

/-- The field `Age` of `User`. -/
def User.fieldAge : Field User :=
  { Name := ['A', 'g', 'e'], Typ := Kind.Int, Tag := "default 18".toList,
    get := fun u => .int u.Age,
    set := fun u v => match v with
      | .int n => some { u with Age := n }
      | _ => none }

/-- The record type `User`, with the tags of `main.go`, and no hooks. -/
def userType : Keyable User :=
  { GetKey := fun u => u.ID,
    SetKey := fun u key => { u with ID := key },
    String := User.String,
    From := User.From,
    fields := [User.fieldID, User.fieldName, User.fieldAge] }

/-- The five users of the query example, aged 18, 25, 30, 45 and 60. -/
def fiveUsers : List User :=
  [{ ID := ['1'], Name := "Alice".toList, Age := 18 },
   { ID := ['2'], Name := "Bob".toList, Age := 25 },
   { ID := ['3'], Name := "Carol".toList, Age := 30 },
   { ID := ['4'], Name := "Dave".toList, Age := 45 },
   { ID := ['5'], Name := "Erin".toList, Age := 60 }]

/-- The blank `User`. -/
def blankUser : User := { ID := [], Name := [], Age := 0 }

/-- The blank `Member`. -/
def blankMember : Member := { ID := [], Name := [] }

/-! ### Notions used in the statements about queries -/

/-- A condition list made of field/value pairs: the names and values in turn. -/
def flatPairs : List (Str × Value) → ConditionFields
  | [] => []
  | (field, value) :: rest => .str field :: value :: flatPairs rest

/-- Whether a record meets every condition: it has each named field, with the
given value. -/
def meetsAll {R : Type} (K : Keyable R) (pairs : List (Str × Value)) (data : R) : Bool :=
  pairs.all fun p => fieldEquals K p.1 p.2 data

/-- Whether a group passes `having`: it has a first member, and `having` is
`nil` or accepts that member. -/
def firstAccepted {R : Type} (having : Option (R → Bool)) : List R → Bool
  | [] => false
  | first :: _ =>
    match having with
    | none => true
    | some h => h first

/-- Five members with three different names. -/
def fiveMembers : List Member :=
  [{ ID := ['1'], Name := bob }, { ID := ['2'], Name := eve }, { ID := ['3'], Name := bob },
   { ID := ['4'], Name := "ann".toList }, { ID := ['5'], Name := eve }]

/-! ### `Join`, `First` and chained filters -/

/-- `Query.Join`: the joined table is the one the store holds under the given
name, with its record type. -/
def Query.Join {R : Type} (q : Query R) (S : Type) (KS : Keyable S) (joinTable : Table S)
    (onField : Str) : Query R :=
  { q with join := some { S := S, K := KS, table := joinTable, onField := onField } }

/-- `Query.First`: the first record of the table, in table order, that the
filter accepts (a `nil` filter accepts every record), decoded from its text
form into `out`, taken to be a blank record; "not found" when there is none. -/
def Query.First {R : Type} (K : Keyable R) (q : Query R) : Outcome R :=
  match q.table.data.find? fun data =>
      match q.filter with
      | none => true
      | some f => f data with
  | none => .err .notFound
  | some data =>
    match K.From (K.String data) with
    | .ok out => .ok out
    | .error e => .err e

/-- `Query.Count`. -/
def Query.Count {R : Type} (K : Keyable R) (env : Env R) (q : Query R) : Outcome Nat :=
  match q.List K env with
  | .ok results => .ok results.length
  | .err e => .err e
  | .panicked => .panicked

/-- A call of one of the builder methods that set the filter. -/
inductive FilterCall where
  | Where (field : Str) (value : Value)
  | In (field : Str) (values : ConditionFields)
  | IsNull (field : Str)
  | IsNotNull (field : Str)
  | Like (field : Str) (pattern : Str)

/-- The query after a filter call; `none` for a `Like` whose pattern the
embedding does not cover. -/
def Query.applyFilterCall {R : Type} (K : Keyable R) (compile : Regexp) (q : Query R) :
    FilterCall → Query R
  | .Where field value => q.Where K field value
  | .In field values => q.In K field values
  | .IsNull field => q.IsNull K field
  | .IsNotNull field => q.IsNotNull K field
  | .Like field pattern => q.Like K compile field pattern

/-- Whether the pattern of a filter call compiles: the expression made from
the pattern of a `Like` is accepted by `regexp.Compile`; the other calls have
no pattern. -/
def FilterCall.compiles (compile : Regexp) : FilterCall → Bool
  | .Like _ pattern => (compile (convertToRegex pattern)).isSome
  | _ => true

/-- Three members of a second table, two of them named "bob". -/
def clubMembers : List Member :=
  [{ ID := ['a'], Name := bob }, { ID := ['b'], Name := "ann".toList },
   { ID := ['c'], Name := bob }]

/-! ## Theorems -/

/-! ### Strings and the scanner -/

theorem byteLen_append (a b : Str) : byteLen (a ++ b) = byteLen a + byteLen b := by
  simp [byteLen]

theorem byteLen_reverse (a : Str) : byteLen a.reverse = byteLen a := by
  induction a with
  | nil => rfl
  | cons c cs ih =>
    simp only [List.reverse_cons, byteLen_append, ih]
    simp [byteLen]; omega

theorem byteLen_cons (c : Char) (a : Str) : byteLen (c :: a) = c.utf8Size + byteLen a := by
  simp [byteLen]

theorem scanFrom_line (l : Str) (h : '\n' ∉ l) (cur rest : Str) :
    scanFrom cur (l ++ '\n' :: rest) =
      if MaxScanTokenSize ≤ byteLen cur + byteLen l then []
      else dropCR (cur.reverse ++ l) :: scanFrom [] rest := by
  induction l generalizing cur with
  | nil => simp [scanFrom, byteLen]
  | cons c cs ih =>
    have hc : c ≠ '\n' := fun e => h (by simp [e])
    have hcs : '\n' ∉ cs := fun e => h (by simp [e])
    have e : scanFrom cur (c :: cs ++ '\n' :: rest) = scanFrom (c :: cur) (cs ++ '\n' :: rest) := by
      simp [scanFrom, hc]
    rw [e, ih hcs]
    simp [byteLen_cons, Nat.add_assoc, Nat.add_comm, Nat.add_left_comm]

theorem scanLines_line (l : Str) (h : '\n' ∉ l) (rest : Str) :
    scanLines (l ++ '\n' :: rest) =
      if MaxScanTokenSize ≤ byteLen l then [] else dropCR l :: scanLines rest := by
  simp [scanLines, scanFrom_line l h, byteLen]

theorem scanLines_fileOf (ls : List Str) (hnl : ∀ l ∈ ls, '\n' ∉ l)
    (hlen : ∀ l ∈ ls, byteLen l < MaxScanTokenSize) :
    scanLines (fileOf ls) = ls.map dropCR := by
  induction ls with
  | nil => rfl
  | cons l ls ih =>
    have h1 := hlen l (by simp)
    simp only [fileOf, List.map_cons]
    rw [scanLines_line l (hnl l (by simp)), if_neg (by omega), ih]
    · intro x hx; exact hnl x (by simp [hx])
    · intro x hx; exact hlen x (by simp [hx])

/-! ### `MinDB.Create`, `MinDB.Update`, `MinDB.Delete`: single calls -/

theorem writeThrough_nil {R : Type} (data : R) (l : List R) : writeThrough [] data l = l := rfl

/-- C6, amended. When `Create` returns `nil` for a record the table does not
hold (no position of the sequence holds the pointer passed), the in-memory
sequence is the previous one, every record of it unchanged and in its place,
with one record appended at its end. That record is the caller's record with
the defaults applied, as the before-hook left it, with the generated key set
by `SetKey` (so, `SetKey` and `GetKey` being a setter and getter pair, its key
is the generated key whatever key the caller had put), and the log is the
previous log followed by the one line "ADD," + the text form of the stored
record + "\n". -/
theorem Create_success_appends {R : Type} (m : MinDB) (K : Keyable R) (table t1 : Table R)
    (data : R) (key : Str) (io : WriteOutcome)
    (hkey : ∀ r k, K.GetKey (K.SetKey r k) = k)
    (h : m.Create K table data [] key io = .returned t1 none) :
    ∃ data1 data2 : R, applyDefaults K m.defaults data = some data1 ∧
      runBefore K.BeforeCreate data1 = .ok data2 ∧
      t1.data = table.data ++ [K.SetKey data2 key] ∧
      K.GetKey (K.SetKey data2 key) = key ∧
      t1.wal = table.wal ++ (ADD ++ [','] ++ K.String (K.SetKey data2 key) ++ ['\n']) := by
  unfold MinDB.Create at h
  split at h
  · cases h
  · cases h
  · split at h
    · cases h
    · rename_i data1 hd
      split at h
      · cases h
      · rename_i data2 hb
        cases io with
        | ok =>
          simp only [Table.writeWAL, writeThrough_nil, Result.returned.injEq] at h
          obtain ⟨h1, _⟩ := h
          subst h1
          exact ⟨data1, data2, hd, hb, rfl, hkey _ _, rfl⟩
        | writeFailed w c => simp [Table.writeWAL] at h
        | syncFailed c => simp [Table.writeWAL] at h

/-- Create_success_appends at a concrete call: a `Member` that came with the
key "eve" is stored under the generated key. -/
theorem Create_success_appends_witness :
    ∃ data1 data2 : Member,
      applyDefaults (memberType [] []) MinDB.empty.defaults { ID := eve, Name := bob } =
        some data1 ∧
      runBefore (memberType [] []).BeforeCreate data1 = .ok data2 ∧
      [{ ID := key1, Name := bob }] =
        ([] : List Member) ++ [(memberType [] []).SetKey data2 key1] ∧
      (memberType [] []).GetKey ((memberType [] []).SetKey data2 key1) = key1 ∧
      walLine ADD (Member.String { ID := key1, Name := bob }) =
        [] ++ (ADD ++ [','] ++
          (memberType [] []).String ((memberType [] []).SetKey data2 key1) ++ ['\n']) :=
  Create_success_appends MinDB.empty (memberType [] []) { wal := [], data := [] }
    { wal := walLine ADD (Member.String { ID := key1, Name := bob }),
      data := [{ ID := key1, Name := bob }] }
    { ID := eve, Name := bob } key1 .ok (fun _ _ => rfl) rfl

/-- C6, as stated, fails when the record passed is one the table already
holds. A `Member` is created and the same pointer is passed to `Create` once
more: both calls return `nil`, and after the second the record stored by the
first carries the second key, so the sequence is not the previous one with a
record appended. -/
theorem Create_rewrites_held_record :
    MinDB.empty.Create (memberType [] []) { wal := [], data := [] }
        { ID := [], Name := bob } [] key1 .ok =
      .returned { wal := walLine ADD (Member.String { ID := key1, Name := bob }),
                  data := [{ ID := key1, Name := bob }] } none ∧
    MinDB.empty.Create (memberType [] [])
        { wal := walLine ADD (Member.String { ID := key1, Name := bob }),
          data := [{ ID := key1, Name := bob }] }
        { ID := key1, Name := bob } [0] key2 .ok =
      .returned { wal := walLine ADD (Member.String { ID := key1, Name := bob }) ++
                    walLine ADD (Member.String { ID := key2, Name := bob }),
                  data := [{ ID := key2, Name := bob }, { ID := key2, Name := bob }] } none ∧
    ¬ ∃ stored : Member,
      [({ ID := key2, Name := bob } : Member), { ID := key2, Name := bob }] =
        [{ ID := key1, Name := bob }] ++ [stored] := by
  refine ⟨rfl, rfl, ?_⟩
  rintro ⟨stored, h⟩
  have h1 := (List.cons.inj h).1
  exact absurd (congrArg Member.ID h1) (by decide)

/-- C7. For a record whose key (as the store reads it, after the before-hook
has run without error) is carried by no record of the table: `Delete` returns
`nil`, `Update` returns the not-found error, and both leave the in-memory
sequence and the log as they were. -/
theorem absent_key_no_effect {R : Type} (K : Keyable R) (table : Table R) (data data1 : R)
    (io : WriteOutcome) :
    (runBefore K.BeforeDelete data = .ok data1 → hasKey K (K.GetKey data1) table.data = false →
      MinDB.Delete K table data io = .returned table none) ∧
    (runBefore K.BeforeUpdate data = .ok data1 → hasKey K (K.GetKey data1) table.data = false →
      MinDB.Update K table data io = .returned table (some .notFound)) := by
  constructor
  · intro hb hk
    simp [MinDB.Delete, hb, hk]
  · intro hb hk
    simp [MinDB.Update, hb, hk]

/-- Absent_key_no_effect on a table holding one record, for a record with
another key. -/
theorem absent_key_no_effect_witness :
    MinDB.Delete (memberType [] [])
        { wal := walLine ADD (Member.String { ID := key1, Name := bob }),
          data := [{ ID := key1, Name := bob }] }
        { ID := key2, Name := eve } .ok =
      .returned { wal := walLine ADD (Member.String { ID := key1, Name := bob }),
                  data := [{ ID := key1, Name := bob }] } none ∧
    MinDB.Update (memberType [] [])
        { wal := walLine ADD (Member.String { ID := key1, Name := bob }),
          data := [{ ID := key1, Name := bob }] }
        { ID := key2, Name := eve } .ok =
      .returned { wal := walLine ADD (Member.String { ID := key1, Name := bob }),
                  data := [{ ID := key1, Name := bob }] } (some .notFound) :=
  ⟨(absent_key_no_effect (memberType [] []) _ { ID := key2, Name := eve }
      { ID := key2, Name := eve } .ok).1 rfl (by decide),
   (absent_key_no_effect (memberType [] []) _ { ID := key2, Name := eve }
      { ID := key2, Name := eve } .ok).2 rfl (by decide)⟩

/-- C8, amended. When the before-hook of a call returns an error, the call
returns that error and the table (log and in-memory sequence) is as it was,
for `Create` when the record passed is not one the table already holds. For
`Create` the hook runs on the record after the uniqueness check has passed and
the defaults have been applied. -/
theorem before_hook_error_aborts {R : Type} (m : MinDB) (K : Keyable R) (table : Table R)
    (data : R) (key : Str) (io : WriteOutcome) (h : R → Except Error R) (e : Error) :
    (∀ data1, checkUnique K data table.data m.constraints = .pass →
        applyDefaults K m.defaults data = some data1 →
        K.BeforeCreate = some h → h data1 = .error e →
        m.Create K table data [] key io = .returned table (some e)) ∧
    (K.BeforeDelete = some h → h data = .error e →
        MinDB.Delete K table data io = .returned table (some e)) ∧
    (K.BeforeUpdate = some h → h data = .error e →
        MinDB.Update K table data io = .returned table (some e)) := by
  refine ⟨?_, ?_, ?_⟩
  · intro data1 hc hd hh he
    simp [MinDB.Create, hc, hd, hh, he, runBefore, writeThrough_nil]
  · intro hh he
    simp [MinDB.Delete, hh, he, runBefore]
  · intro hh he
    simp [MinDB.Update, hh, he, runBefore]

/-- Before_hook_error_aborts for the type whose before-hooks refuse, on a
table holding the record the calls name. -/
theorem before_hook_error_aborts_witness :
    MinDB.empty.Create guardedType { wal := [], data := [{ ID := key1, Name := bob }] }
        { ID := key1, Name := eve } [] key2 .ok =
      .returned { wal := [], data := [{ ID := key1, Name := bob }] } (some (.user ['n', 'o'])) ∧
    MinDB.Delete guardedType { wal := [], data := [{ ID := key1, Name := bob }] }
        { ID := key1, Name := eve } .ok =
      .returned { wal := [], data := [{ ID := key1, Name := bob }] } (some (.user ['n', 'o'])) ∧
    MinDB.Update guardedType { wal := [], data := [{ ID := key1, Name := bob }] }
        { ID := key1, Name := eve } .ok =
      .returned { wal := [], data := [{ ID := key1, Name := bob }] } (some (.user ['n', 'o'])) :=
  ⟨(before_hook_error_aborts MinDB.empty guardedType _ { ID := key1, Name := eve } key2 .ok
      (fun _ => .error (.user ['n', 'o'])) (.user ['n', 'o'])).1 { ID := key1, Name := eve }
      rfl rfl rfl rfl,
   (before_hook_error_aborts MinDB.empty guardedType _ { ID := key1, Name := eve } key2 .ok
      (fun _ => .error (.user ['n', 'o'])) (.user ['n', 'o'])).2.1 rfl rfl,
   (before_hook_error_aborts MinDB.empty guardedType _ { ID := key1, Name := eve } key2 .ok
      (fun _ => .error (.user ['n', 'o'])) (.user ['n', 'o'])).2.2 rfl rfl⟩

/-- C8, as stated, fails for `Create` on a record the table already holds:
with `Name` declared `default anon` and a before-hook that refuses, the
table holds a record with an empty name and that same pointer is passed to
`Create`. The default is written through the pointer before the hook runs,
so the call returns the hook's error and the stored record is now named
"anon". -/
theorem before_hook_error_after_defaults :
    MinDB.empty.AutoCreate (memberType [] "default anon".toList) =
      some { constraints := [], defaults := [(['N', 'a', 'm', 'e'], .str "anon".toList)] } ∧
    MinDB.Create { constraints := [], defaults := [(['N', 'a', 'm', 'e'], .str "anon".toList)] }
        { memberType [] "default anon".toList with
          BeforeCreate := some fun _ => .error (.user ['n', 'o']) }
        { wal := walLine ADD (Member.String { ID := key1, Name := [] }),
          data := [{ ID := key1, Name := [] }] }
        { ID := key1, Name := [] } [0] key2 .ok =
      .returned { wal := walLine ADD (Member.String { ID := key1, Name := [] }),
                  data := [{ ID := key1, Name := "anon".toList }] }
        (some (.user ['n', 'o'])) ∧
    [({ ID := key1, Name := "anon".toList } : Member)] ≠ [{ ID := key1, Name := [] }] :=
  ⟨rfl, rfl, by decide⟩

/-! ### Registration and the uniqueness check -/

theorem mem_addConstraint (c name : Str) (cs : List Str) :
    c ∈ addConstraint name cs ↔ c ∈ cs ∨ c = name := by
  unfold addConstraint
  split
  · constructor
    · exact Or.inl
    · rintro (h | h)
      · exact h
      · subst h; assumption
  · simp

theorem autoCreateField_constraints {R : Type} (m m1 : MinDB) (f : Field R)
    (h : autoCreateField m f = some m1) :
    ∀ c ∈ m1.constraints, c ∈ m.constraints ∨ c = f.Name := by
  have key : m1.constraints =
      if Contains f.Tag uniqueWord then addConstraint f.Name m.constraints
      else m.constraints := by
    unfold autoCreateField at h
    by_cases hu : Contains f.Tag uniqueWord = true
    all_goals
      simp only [hu, if_true, if_false, Bool.false_eq_true] at h ⊢
      repeat' split at h
      all_goals first
        | cases h; rfl
        | cases h
  intro c hc
  rw [key] at hc
  split at hc
  · exact (mem_addConstraint c f.Name m.constraints).1 hc
  · exact Or.inl hc

theorem autoCreateFields_constraints {R : Type} (fs : List (Field R)) (m m1 : MinDB)
    (h : autoCreateFields m fs = some m1) :
    ∀ c ∈ m1.constraints, c ∈ m.constraints ∨ ∃ f ∈ fs, f.Name = c := by
  induction fs generalizing m with
  | nil =>
    simp only [autoCreateFields, Option.some.injEq] at h
    subst h
    intro c hc; exact Or.inl hc
  | cons f fs ih =>
    unfold autoCreateFields at h
    split at h
    · cases h
    · rename_i m2 h2
      intro c hc
      rcases ih m2 h c hc with h3 | ⟨g, hg, hgc⟩
      · rcases autoCreateField_constraints m m2 f h2 c h3 with h4 | h4
        · exact Or.inl h4
        · exact Or.inr ⟨f, by simp, h4.symm⟩
      · exact Or.inr ⟨g, by simp [hg], hgc⟩

theorem FieldByName_isSome_of_mem {R : Type} (K : Keyable R) (f : Field R) (hf : f ∈ K.fields) :
    (K.FieldByName f.Name).isSome = true := by
  unfold Keyable.FieldByName
  rw [List.find?_isSome]
  exact ⟨f, hf, by simp⟩

/-- Every field name that registration puts in the constraint set is a field
of the record type. -/
theorem registered_constraints_are_fields {R : Type} (K : Keyable R) (m : MinDB)
    (h : MinDB.empty.AutoCreate K = some m) :
    ∀ c ∈ m.constraints, (K.FieldByName c).isSome = true := by
  intro c hc
  rcases autoCreateFields_constraints K.fields MinDB.empty m h c hc with h1 | ⟨f, hf, hfc⟩
  · simp [MinDB.empty] at h1
  · subst hfc
    exact FieldByName_isSome_of_mem K f hf

theorem checkUnique_collision {R : Type} (K : Keyable R) (r : R) (existing : List R)
    (cs : List Str) (hall : ∀ c ∈ cs, (K.FieldByName c).isSome = true)
    (F : Str) (hF : F ∈ cs) (fld : Field R) (hfld : K.FieldByName F = some fld)
    (e : R) (he : e ∈ existing) (hcol : fld.get e = fld.get r) :
    ∃ G, G ∈ cs ∧ checkUnique K r existing cs = .violation G ∧
      ∃ g e1, K.FieldByName G = some g ∧ e1 ∈ existing ∧ g.get e1 = g.get r := by
  induction cs with
  | nil => simp at hF
  | cons c cs ih =>
    have hc := hall c (by simp)
    obtain ⟨g, hg⟩ := Option.isSome_iff_exists.1 hc
    by_cases hany : existing.any (fun e1 => g.get e1 == g.get r) = true
    · refine ⟨c, by simp, ?_, ?_⟩
      · simp only [checkUnique, hg, hany, if_true]
      · obtain ⟨e1, he1, h1⟩ := List.any_eq_true.1 hany
        exact ⟨g, e1, hg, he1, by simpa using h1⟩
    · have hFc : F ∈ cs := by
        rcases List.mem_cons.1 hF with h1 | h1
        · subst h1
          rw [hfld] at hg
          cases hg
          exact absurd (List.any_eq_true.2 ⟨e, he, by simp [hcol]⟩) hany
        · exact h1
      obtain ⟨G, hG, hchk, hw⟩ := ih (fun c1 h1 => hall c1 (by simp [h1])) hFc
      refine ⟨G, by simp [hG], ?_, hw⟩
      simp only [checkUnique, hg, hany, hchk]
      simp

/-- C3. On a table with a registered unique field `F`, creating a record whose
`F` equals the `F` of a stored record returns the constraint-violation error
naming a unique field on which the record collides with a stored one, and
leaves the log and the in-memory sequence as they were, whether or not the
table already holds the record passed. -/
theorem Create_unique_collision {R : Type} (m : MinDB) (K : Keyable R) (table : Table R)
    (r : R) (held : List Nat) (key : Str) (io : WriteOutcome)
    (hreg : MinDB.empty.AutoCreate K = some m)
    (F : Str) (hF : F ∈ m.constraints) (fld : Field R) (hfld : K.FieldByName F = some fld)
    (e : R) (he : e ∈ table.data) (hcol : fld.get e = fld.get r) :
    ∃ G, G ∈ m.constraints ∧
      m.Create K table r held key io = .returned table (some (.constraintViolation G)) ∧
      ∃ g e1, K.FieldByName G = some g ∧ e1 ∈ table.data ∧ g.get e1 = g.get r := by
  obtain ⟨G, hG, hchk, hw⟩ := checkUnique_collision K r table.data m.constraints
    (registered_constraints_are_fields K m hreg) F hF fld hfld e he hcol
  exact ⟨G, hG, by simp [MinDB.Create, hchk], hw⟩

/-- Create_unique_collision for `Member` with `Name` declared unique: a second
"bob" is refused with the error naming `Name`. -/
theorem Create_unique_collision_witness :
    ∃ G, G ∈ [['N', 'a', 'm', 'e']] ∧
      MinDB.Create { constraints := [['N', 'a', 'm', 'e']], defaults := [] }
          (memberType [] uniqueWord)
          { wal := walLine ADD (Member.String { ID := key1, Name := bob }),
            data := [{ ID := key1, Name := bob }] }
          { ID := [], Name := bob } [] key2 .ok =
        .returned { wal := walLine ADD (Member.String { ID := key1, Name := bob }),
                    data := [{ ID := key1, Name := bob }] }
          (some (.constraintViolation G)) ∧
      ∃ g e1, (memberType [] uniqueWord).FieldByName G = some g ∧
        e1 ∈ [({ ID := key1, Name := bob } : Member)] ∧
        g.get e1 = g.get { ID := [], Name := bob } :=
  Create_unique_collision { constraints := [['N', 'a', 'm', 'e']], defaults := [] }
    (memberType [] uniqueWord)
    { wal := walLine ADD (Member.String { ID := key1, Name := bob }),
      data := [{ ID := key1, Name := bob }] }
    { ID := [], Name := bob } [] key2 .ok rfl
    ['N', 'a', 'm', 'e'] (List.mem_singleton.2 rfl) (Member.fieldName uniqueWord) rfl
    { ID := key1, Name := bob } (List.mem_singleton.2 rfl) rfl

/-- C2. `Delete` and `Update` change the in-memory sequence before they write
the log: when the write fails they return the I/O error, yet the record is
already removed, respectively replaced. `Create` of a record the table does
not hold writes first, and a failed write leaves the sequence as it was. -/
theorem failed_write_Delete_Update_change_memory :
    MinDB.Delete (memberType [] [])
        { wal := walLine ADD (Member.String { ID := key1, Name := bob }),
          data := [{ ID := key1, Name := bob }] }
        { ID := key1, Name := bob } (.writeFailed 0 5) =
      .returned { wal := walLine ADD (Member.String { ID := key1, Name := bob }), data := [] }
        (some (.io 5)) ∧
    MinDB.Update (memberType [] [])
        { wal := walLine ADD (Member.String { ID := key1, Name := bob }),
          data := [{ ID := key1, Name := bob }] }
        { ID := key1, Name := eve } (.writeFailed 0 5) =
      .returned { wal := walLine ADD (Member.String { ID := key1, Name := bob }),
                  data := [{ ID := key1, Name := eve }] }
        (some (.io 5)) ∧
    MinDB.empty.Create (memberType [] [])
        { wal := walLine ADD (Member.String { ID := key1, Name := bob }),
          data := [{ ID := key1, Name := bob }] }
        { ID := [], Name := eve } [] key2 (.writeFailed 0 5) =
      .returned { wal := walLine ADD (Member.String { ID := key1, Name := bob }),
                  data := [{ ID := key1, Name := bob }] }
        (some (.io 5)) := by
  refine ⟨?_, ?_, ?_⟩ <;> simp [MinDB.Delete, MinDB.Update, MinDB.Create, Table.writeWAL,
    runBefore, hasKey, removeFirst, replaceFirst, memberType, checkUnique, applyDefaults,
    MinDB.empty, writeThrough_nil]

/-- C4. With `Name` declared `unique default anon`, two records created with
an empty `Name` are both accepted (the uniqueness check compares the empty
name, the default is filled in afterwards) and the table then holds two
records named "anon". -/
theorem unique_default_field_duplicates :
    MinDB.empty.AutoCreate (memberType [] "unique default anon".toList) =
      some { constraints := [['N', 'a', 'm', 'e']],
             defaults := [(['N', 'a', 'm', 'e'], .str "anon".toList)] } ∧
    MinDB.runCalls { constraints := [['N', 'a', 'm', 'e']],
                     defaults := [(['N', 'a', 'm', 'e'], .str "anon".toList)] }
        (memberType [] "unique default anon".toList) { wal := [], data := [] }
        [.create { ID := [], Name := [] } [] key1 .ok,
         .create { ID := [], Name := [] } [] key2 .ok] =
      some { wal := walLine ADD (Member.String { ID := key1, Name := "anon".toList }) ++
                    walLine ADD (Member.String { ID := key2, Name := "anon".toList }),
             data := [{ ID := key1, Name := "anon".toList },
                      { ID := key2, Name := "anon".toList }] } :=
  ⟨rfl, rfl⟩

/-! ### Defaults -/

theorem setDefault_keys_nodup (name : Str) (v : Value) (ds : List (Str × Value))
    (h : (ds.map Prod.fst).Nodup) : ((setDefault name v ds).map Prod.fst).Nodup := by
  unfold setDefault
  split
  · have e : (ds.map fun d => if d.1 = name then (name, v) else d).map Prod.fst
        = ds.map Prod.fst := by
      rw [List.map_map]
      apply List.map_congr_left
      intro d _
      simp only [Function.comp]
      split
      · rename_i h1; exact h1.symm
      · rfl
    rw [e]; exact h
  · rename_i hany
    rw [List.map_append, List.nodup_append]
    refine ⟨h, by simp, ?_⟩
    intro a ha hb
    simp only [List.map_cons, List.map_nil, List.mem_singleton] at hb
    subst hb
    apply hany
    obtain ⟨d, hd, hda⟩ := List.mem_map.1 ha
    exact List.any_eq_true.2 ⟨d, hd, by simp [hda]⟩

theorem autoCreateField_defaults {R : Type} (m m1 : MinDB) (f : Field R)
    (h : autoCreateField m f = some m1) :
    m1.defaults = m.defaults ∨ ∃ v, m1.defaults = setDefault f.Name v m.defaults := by
  unfold autoCreateField at h
  by_cases hu : Contains f.Tag uniqueWord = true
  all_goals
    simp only [hu, if_true, if_false, Bool.false_eq_true] at h
    repeat' split at h
    all_goals first
      | cases h; exact Or.inl rfl
      | cases h; exact Or.inr ⟨_, rfl⟩
      | cases h

theorem autoCreateFields_defaults_nodup {R : Type} (fs : List (Field R)) (m m1 : MinDB)
    (h : autoCreateFields m fs = some m1) (hm : (m.defaults.map Prod.fst).Nodup) :
    (m1.defaults.map Prod.fst).Nodup := by
  induction fs generalizing m with
  | nil =>
    simp only [autoCreateFields, Option.some.injEq] at h
    subst h; exact hm
  | cons f fs ih =>
    unfold autoCreateFields at h
    split at h
    · cases h
    · rename_i m2 h2
      apply ih m2 h
      rcases autoCreateField_defaults m m2 f h2 with e | ⟨v, e⟩
      · rw [e]; exact hm
      · rw [e]; exact setDefault_keys_nodup _ _ _ hm

/-- Registration leaves at most one default per field name. -/
theorem registered_defaults_nodup {R : Type} (K : Keyable R) (m : MinDB)
    (h : MinDB.empty.AutoCreate K = some m) : (m.defaults.map Prod.fst).Nodup :=
  autoCreateFields_defaults_nodup K.fields MinDB.empty m h (by simp [MinDB.empty])

theorem FieldByName_some {R : Type} (K : Keyable R) (name : Str) (f : Field R)
    (h : K.FieldByName name = some f) : f ∈ K.fields ∧ f.Name = name := by
  unfold Keyable.FieldByName at h
  exact ⟨List.mem_of_find?_eq_some h, by simpa using List.find?_some h⟩

theorem applyDefaults_frame {R : Type} (K : Keyable R) (hlaw : LawfulFields K)
    (fld : Field R) (hmem : fld ∈ K.fields) (ds : List (Str × Value))
    (hF : fld.Name ∉ ds.map Prod.fst) (r r1 : R) (h : applyDefaults K ds r = some r1) :
    fld.get r1 = fld.get r := by
  induction ds generalizing r with
  | nil =>
    simp only [applyDefaults, Option.some.injEq] at h
    subst h; rfl
  | cons d rest ih =>
    obtain ⟨g, dv⟩ := d
    rw [List.map_cons, List.mem_cons, not_or] at hF
    obtain ⟨hg, hrest⟩ := hF
    unfold applyDefaults at h
    split at h
    · exact ih hrest r h
    · rename_i gf hgf
      obtain ⟨hgmem, hgname⟩ := FieldByName_some K g gf hgf
      split at h
      · split at h
        · cases h
        · rename_i r2 hset
          rw [ih hrest r2 h]
          exact (hlaw gf hgmem r r2 dv hset).2 fld hmem (by rw [hgname]; exact hg)
      · exact ih hrest r h

theorem applyDefaults_field {R : Type} (K : Keyable R) (hlaw : LawfulFields K)
    (F : Str) (fld : Field R) (hfld : K.FieldByName F = some fld)
    (ds : List (Str × Value)) (hnd : (ds.map Prod.fst).Nodup) (d : Value)
    (hd : (F, d) ∈ ds) (r r1 : R) (h : applyDefaults K ds r = some r1) :
    fld.get r1 = if (fld.get r).IsZero then d else fld.get r := by
  obtain ⟨hmem, hname⟩ := FieldByName_some K F fld hfld
  induction ds generalizing r with
  | nil => simp at hd
  | cons d0 rest ih =>
    obtain ⟨g, dv⟩ := d0
    simp only [List.map_cons, List.nodup_cons] at hnd
    obtain ⟨hg, hnd1⟩ := hnd
    by_cases hgF : g = F
    · subst hgF
      have hdv : dv = d := by
        rcases List.mem_cons.1 hd with h1 | h1
        · cases h1; rfl
        · exact absurd (List.mem_map.2 ⟨(g, d), h1, rfl⟩) hg
      subst hdv
      have hrest : fld.Name ∉ rest.map Prod.fst := by rw [hname]; exact hg
      unfold applyDefaults at h
      simp only [hfld] at h
      split at h
      · rename_i hz
        split at h
        · cases h
        · rename_i r2 hset
          rw [applyDefaults_frame K hlaw fld hmem rest hrest r2 r1 h,
            (hlaw fld hmem r r2 dv hset).1, if_pos hz]
      · rename_i hz
        rw [applyDefaults_frame K hlaw fld hmem rest hrest r r1 h, if_neg hz]
    · have hd1 : (F, d) ∈ rest := by
        rcases List.mem_cons.1 hd with h1 | h1
        · cases h1; exact absurd rfl hgF
        · exact h1
      unfold applyDefaults at h
      split at h
      · exact ih hnd1 hd1 r h
      · rename_i gf hgf
        obtain ⟨hgmem, hgname⟩ := FieldByName_some K g gf hgf
        split at h
        · split at h
          · cases h
          · rename_i r2 hset
            have e : fld.get r2 = fld.get r :=
              (hlaw gf hgmem r r2 dv hset).2 fld hmem (by rw [hgname, hname]; exact fun e => hgF e.symm)
            rw [ih hnd1 hd1 r2 h, e]
        · exact ih hnd1 hd1 r h

theorem memberType_lawful (idTag nameTag : Str) : LawfulFields (memberType idTag nameTag) := by
  intro f hf r r1 v hset
  simp only [memberType, List.mem_cons, List.mem_singleton, List.not_mem_nil, or_false] at hf
  rcases hf with rfl | rfl
  · cases v with
    | str s =>
      simp only [Member.fieldID, Option.some.injEq] at hset
      subst hset
      refine ⟨rfl, ?_⟩
      intro g hg hne
      simp only [memberType, List.mem_cons, List.mem_singleton, List.not_mem_nil, or_false] at hg
      rcases hg with rfl | rfl
      · exact absurd rfl hne
      · rfl
    | int n => simp [Member.fieldID] at hset
    | bool b => simp [Member.fieldID] at hset
  · cases v with
    | str s =>
      simp only [Member.fieldName, Option.some.injEq] at hset
      subst hset
      refine ⟨rfl, ?_⟩
      intro g hg hne
      simp only [memberType, List.mem_cons, List.mem_singleton, List.not_mem_nil, or_false] at hg
      rcases hg with rfl | rfl
      · rfl
      · exact absurd rfl hne
    | int n => simp [Member.fieldName] at hset
    | bool b => simp [Member.fieldName] at hset

/-- C5, as stated, fails for the field that holds the key: with `ID` declared
`default anon`, a record created with an empty `ID` is stored with the
generated key in `ID`, not with the default. -/
theorem key_field_default_overwritten :
    MinDB.empty.AutoCreate (memberType "default anon".toList []) =
      some { constraints := [], defaults := [(['I', 'D'], .str "anon".toList)] } ∧
    (memberType "default anon".toList []).FieldByName ['I', 'D'] =
      some (Member.fieldID "default anon".toList) ∧
    ((Member.fieldID "default anon".toList).get { ID := [], Name := bob }).IsZero = true ∧
    MinDB.Create { constraints := [], defaults := [(['I', 'D'], .str "anon".toList)] }
        (memberType "default anon".toList []) { wal := [], data := [] }
        { ID := [], Name := bob } [] key1 .ok =
      .returned { wal := walLine ADD (Member.String { ID := key1, Name := bob }),
                  data := [{ ID := key1, Name := bob }] } none ∧
    (Member.fieldID "default anon".toList).get { ID := key1, Name := bob } ≠
      .str "anon".toList :=
  ⟨rfl, rfl, rfl, rfl, by decide⟩

/-- C5, amended. On a table with a registered default `d` for a field `F` that
neither the before-hook nor `SetKey` changes (`F` is not the field that holds
the key), a `Create` that returns `nil` stores the record with `F` equal to
`d` when the incoming `F` held its zero value, and equal to the incoming `F`
otherwise. The stored record is the one appended at the end of the sequence;
the positions that already held the pointer passed, if any, show it too. -/
theorem Create_applies_default {R : Type} (m : MinDB) (K : Keyable R) (table t1 : Table R)
    (r : R) (held : List Nat) (key : Str) (io : WriteOutcome)
    (hlaw : LawfulFields K)
    (hreg : MinDB.empty.AutoCreate K = some m)
    (F : Str) (d : Value) (hd : (F, d) ∈ m.defaults)
    (fld : Field R) (hfld : K.FieldByName F = some fld)
    (hhook : ∀ h a b, K.BeforeCreate = some h → h a = .ok b → fld.get b = fld.get a)
    (hsk : ∀ a k, fld.get (K.SetKey a k) = fld.get a)
    (h : m.Create K table r held key io = .returned t1 none) :
    ∃ stored : R, t1.data = writeThrough held stored table.data ++ [stored] ∧
      fld.get stored = if (fld.get r).IsZero then d else fld.get r := by
  unfold MinDB.Create at h
  split at h
  · cases h
  · cases h
  · split at h
    · cases h
    · rename_i data1 hdef
      have e1 := applyDefaults_field K hlaw F fld hfld m.defaults
        (registered_defaults_nodup K m hreg) d hd r data1 hdef
      split at h
      · cases h
      · rename_i data2 hb
        have e2 : fld.get data2 = fld.get data1 := by
          unfold runBefore at hb
          split at hb
          · cases hb; rfl
          · rename_i hk hhk
            exact hhook hk data1 data2 hhk hb
        cases io with
        | ok =>
          simp only [Table.writeWAL, Result.returned.injEq] at h
          obtain ⟨h1, _⟩ := h
          subst h1
          exact ⟨K.SetKey data2 key, rfl, by rw [hsk, e2, e1]⟩
        | writeFailed w c => simp [Table.writeWAL] at h
        | syncFailed c => simp [Table.writeWAL] at h

/-- Create_applies_default for `Member` with `Name` declared `default anon`: a
record created without a name is stored as "anon". -/
theorem Create_applies_default_witness :
    ∃ stored : Member,
      [{ ID := key1, Name := "anon".toList }] =
        writeThrough [] stored ([] : List Member) ++ [stored] ∧
      (Member.fieldName "default anon".toList).get stored =
        if ((Member.fieldName "default anon".toList).get { ID := [], Name := [] }).IsZero
        then .str "anon".toList
        else (Member.fieldName "default anon".toList).get { ID := [], Name := [] } :=
  Create_applies_default
    { constraints := [], defaults := [(['N', 'a', 'm', 'e'], .str "anon".toList)] }
    (memberType [] "default anon".toList) { wal := [], data := [] }
    { wal := walLine ADD (Member.String { ID := key1, Name := "anon".toList }),
      data := [{ ID := key1, Name := "anon".toList }] }
    { ID := [], Name := [] } [] key1 .ok
    (memberType_lawful _ _) rfl ['N', 'a', 'm', 'e'] (.str "anon".toList)
    (List.mem_singleton.2 rfl) (Member.fieldName "default anon".toList) rfl
    (fun h _ _ hh => by cases hh) (fun _ _ => rfl) rfl

/-! ### Replay of scanned lines -/

theorem recoverLine_skipped {R : Type} (K : Keyable R) (data : List R) (line : Str)
    (h : isSkippedLine K line = true) : Table.recoverLine K data line = data := by
  unfold isSkippedLine at h
  unfold Table.recoverLine SplitN2
  by_cases hb : TrimSpace line = []
  · simp [hb]
  · simp only [hb, if_false]
    rw [Bool.or_eq_true] at h
    have h : (match cutComma line with
      | none => true
      | some (opType, payload) =>
        if opType = ADD ∨ opType = UPDATE then
          match K.From payload with
          | .error _ => true
          | .ok _ => false
        else if opType = DELETE then false
        else true) = true := by
      rcases h with h | h
      · exact absurd (by simpa using h) hb
      · exact h
    cases hc : cutComma line with
    | none => rfl
    | some p =>
      obtain ⟨opType, payload⟩ := p
      simp only [hc] at h ⊢
      by_cases h1 : opType = ADD
      · simp only [h1, true_or, if_true] at h ⊢
        cases hf : K.From payload with
        | error e => rfl
        | ok d => simp [hf] at h
      · by_cases h2 : opType = UPDATE
        · simp only [h2, or_true, if_true] at h ⊢
          simp only [show ¬ UPDATE = ADD by decide, if_false, if_true]
          cases hf : K.From payload with
          | error e => rfl
          | ok d => simp [hf] at h
        · simp only [h1, h2, or_self, if_false] at h ⊢
          by_cases h3 : opType = DELETE
          · simp [h3] at h
          · simp [h3]

theorem recoverLines_filter {R : Type} (K : Keyable R) (lines : List Str) (data : List R) :
    Table.recoverLines K data lines =
      Table.recoverLines K data (lines.filter fun l => !isSkippedLine K l) := by
  induction lines generalizing data with
  | nil => rfl
  | cons l ls ih =>
    by_cases h : isSkippedLine K l = true
    · rw [List.filter_cons_of_neg (by simp [h])]
      simp only [Table.recoverLines, List.foldl_cons, recoverLine_skipped K data l h]
      exact ih data
    · rw [List.filter_cons_of_pos (by simp [h])]
      simp only [Table.recoverLines, List.foldl_cons]
      exact ih _

/-- `Recover` is a total function of the log. Of the lines that its scan
delivers, the blank ones, those without a comma, those with an op type other
than ADD, UPDATE, DELETE and the ADD or UPDATE ones whose payload does not
decode have no effect: the result is that of replaying the remaining lines
alone, and replay goes on after such a line with the sequence as it stood
before it. -/
theorem replay_skips_bad_lines {R : Type} (K : Keyable R) :
    (∀ t : Table R, (Table.Recover K t).data =
        Table.recoverLines K t.data ((scanLines t.wal).filter fun l => !isSkippedLine K l)) ∧
    (∀ (lines : List Str) (data : List R), Table.recoverLines K data lines =
        Table.recoverLines K data (lines.filter fun l => !isSkippedLine K l)) ∧
    (∀ (before after : List Str) (bad : Str) (data : List R), isSkippedLine K bad = true →
        Table.recoverLines K data (before ++ bad :: after) =
          Table.recoverLines K (Table.recoverLines K data before) after) := by
  refine ⟨fun t => recoverLines_filter K _ _, fun lines data => recoverLines_filter K _ _, ?_⟩
  intro before after bad data h
  simp only [Table.recoverLines, List.foldl_append, List.foldl_cons]
  rw [recoverLine_skipped K _ bad h]

/-- Replay_skips_bad_lines on scanned lines with a line that has no comma
between an ADD and a DELETE. -/
theorem replay_skips_bad_lines_witness :
    isSkippedLine (memberType [] []) "garbage".toList = true ∧
    Table.recoverLines (memberType [] []) []
        (["ADD,k,bob".toList] ++ "garbage".toList :: ["DELETE,k".toList]) =
      Table.recoverLines (memberType [] [])
        (Table.recoverLines (memberType [] []) [] ["ADD,k,bob".toList]) ["DELETE,k".toList] :=
  ⟨rfl, (replay_skips_bad_lines (memberType [] [])).2.2 ["ADD,k,bob".toList]
    ["DELETE,k".toList] "garbage".toList [] rfl⟩

/-! ### Later entries win -/

theorem entry_cases {R : Type} (K : Keyable R) (l : Str) (h : isSkippedLine K l = false) :
    (∃ p d, cutComma l = some (ADD, p) ∧ K.From p = .ok d ∧ lineKey K l = some (K.GetKey d) ∧
      ∀ data, Table.recoverLine K data l = data ++ [d]) ∨
    (∃ p d, cutComma l = some (UPDATE, p) ∧ K.From p = .ok d ∧
      lineKey K l = some (K.GetKey d) ∧
      ∀ data, Table.recoverLine K data l = replaceFirst K d data) ∨
    (∃ p, cutComma l = some (DELETE, p) ∧ lineKey K l = some p ∧
      ∀ data, Table.recoverLine K data l = removeFirst K p data) := by
  have h0 := h
  unfold isSkippedLine at h
  rw [Bool.or_eq_false_iff] at h
  obtain ⟨hb, h⟩ := h
  have hb : TrimSpace l ≠ [] := by simpa using hb
  cases hc : cutComma l with
  | none => simp [hc] at h
  | some q =>
    obtain ⟨opType, p⟩ := q
    simp only [hc] at h
    by_cases h1 : opType = ADD
    · subst h1
      simp only [true_or, if_true] at h
      cases hf : K.From p with
      | error e => simp [hf] at h
      | ok d =>
        refine Or.inl ⟨p, d, rfl, hf, ?_, ?_⟩
        · simp [lineKey, h0, hc, hf, show ADD ≠ DELETE by decide]
        · intro data
          simp [Table.recoverLine, SplitN2, hb, hc, hf]
    · by_cases h2 : opType = UPDATE
      · subst h2
        simp only [or_true, if_true] at h
        cases hf : K.From p with
        | error e => simp [hf] at h
        | ok d =>
          refine Or.inr (Or.inl ⟨p, d, rfl, hf, ?_, ?_⟩)
          · simp [lineKey, h0, hc, hf, show UPDATE ≠ DELETE by decide]
          · intro data
            simp [Table.recoverLine, SplitN2, hb, hc, hf, show UPDATE ≠ ADD by decide]
      · simp only [h1, h2, or_self, if_false] at h
        by_cases h3 : opType = DELETE
        · subst h3
          refine Or.inr (Or.inr ⟨p, rfl, ?_, ?_⟩)
          · simp [lineKey, h0, hc]
          · intro data
            simp [Table.recoverLine, SplitN2, hb, hc, show DELETE ≠ ADD by decide,
              show DELETE ≠ UPDATE by decide]
        · simp [h3] at h

theorem hasKey_eq_true {R : Type} (K : Keyable R) (k : Str) (data : List R) :
    hasKey K k data = true ↔ k ∈ data.map K.GetKey := by
  simp only [hasKey, List.any_eq_true, beq_iff_eq, List.mem_map]

theorem lookup_eq_none {R : Type} (K : Keyable R) (k : Str) (data : List R) :
    lookup K k data = none ↔ k ∉ data.map K.GetKey := by
  simp only [lookup, List.find?_eq_none, beq_iff_eq, List.mem_map, not_exists, not_and]

theorem lookup_append_new {R : Type} (K : Keyable R) (d : R) (data : List R)
    (h : K.GetKey d ∉ data.map K.GetKey) : lookup K (K.GetKey d) (data ++ [d]) = some d := by
  have h1 := (lookup_eq_none K (K.GetKey d) data).2 h
  unfold lookup at h1 ⊢
  rw [List.find?_append, h1]
  simp

theorem lookup_append_other {R : Type} (K : Keyable R) (k : Str) (d : R) (data : List R)
    (h : K.GetKey d ≠ k) : lookup K k (data ++ [d]) = lookup K k data := by
  unfold lookup
  rw [List.find?_append]
  cases List.find? (fun v => K.GetKey v == k) data with
  | none => simp [h]
  | some v => rfl

theorem keys_replaceFirst {R : Type} (K : Keyable R) (d : R) (data : List R) :
    (replaceFirst K d data).map K.GetKey = data.map K.GetKey := by
  induction data with
  | nil => rfl
  | cons v vs ih =>
    unfold replaceFirst
    split
    · rename_i h; simp [h]
    · simp [ih]

theorem lookup_replaceFirst_same {R : Type} (K : Keyable R) (d : R) (data : List R)
    (h : K.GetKey d ∈ data.map K.GetKey) :
    lookup K (K.GetKey d) (replaceFirst K d data) = some d := by
  induction data with
  | nil => simp at h
  | cons v vs ih =>
    unfold replaceFirst
    split
    · simp [lookup]
    · rename_i hv
      have h1 : K.GetKey d ∈ vs.map K.GetKey := by
        rw [List.map_cons, List.mem_cons] at h
        rcases h with h2 | h2
        · exact absurd h2.symm hv
        · exact h2
      have := ih h1
      unfold lookup at this ⊢
      rw [List.find?_cons_of_neg _ (by simpa using hv)]
      exact this

theorem lookup_replaceFirst_other {R : Type} (K : Keyable R) (k : Str) (d : R)
    (data : List R) (h : K.GetKey d ≠ k) :
    lookup K k (replaceFirst K d data) = lookup K k data := by
  induction data with
  | nil => rfl
  | cons v vs ih =>
    unfold replaceFirst
    split
    · rename_i hv
      unfold lookup
      rw [List.find?_cons_of_neg _ (by simpa using h),
        List.find?_cons_of_neg _ (by simpa [hv] using h)]
    · unfold lookup at ih ⊢
      by_cases hk : K.GetKey v = k
      · rw [List.find?_cons_of_pos _ (by simpa using hk),
          List.find?_cons_of_pos _ (by simpa using hk)]
      · rw [List.find?_cons_of_neg _ (by simpa using hk),
          List.find?_cons_of_neg _ (by simpa using hk)]
        exact ih

theorem keys_removeFirst {R : Type} (K : Keyable R) (k : Str) (data : List R) :
    (removeFirst K k data).map K.GetKey = (data.map K.GetKey).erase k := by
  induction data with
  | nil => rfl
  | cons v vs ih =>
    unfold removeFirst
    split
    · rename_i h; simp [h]
    · rename_i h
      rw [List.map_cons, List.map_cons, List.erase_cons_tail (by simpa using h), ih]

theorem lookup_removeFirst_other {R : Type} (K : Keyable R) (k key : Str)
    (data : List R) (h : key ≠ k) :
    lookup K k (removeFirst K key data) = lookup K k data := by
  induction data with
  | nil => rfl
  | cons v vs ih =>
    unfold removeFirst
    split
    · rename_i hv
      unfold lookup
      rw [List.find?_cons_of_neg _ (by simpa [hv] using h)]
    · unfold lookup at ih ⊢
      by_cases hk : K.GetKey v = k
      · rw [List.find?_cons_of_pos _ (by simpa using hk),
          List.find?_cons_of_pos _ (by simpa using hk)]
      · rw [List.find?_cons_of_neg _ (by simpa using hk),
          List.find?_cons_of_neg _ (by simpa using hk)]
        exact ih

theorem cut_op_ne {a b p q : Str} (h : a ≠ b) :
    (some (a, p) : Option (Str × Str)) ≠ some (b, q) := by
  intro e
  cases e
  exact h rfl

theorem replay_keeps_lookup {R : Type} (K : Keyable R) (k : Str) (lines : List Str)
    (data : List R) (hwf : ∀ l ∈ lines, isSkippedLine K l = false)
    (hafter : ∀ l ∈ lines, lineKey K l ≠ some k) :
    lookup K k (Table.recoverLines K data lines) = lookup K k data := by
  induction lines generalizing data with
  | nil => rfl
  | cons l ls ih =>
    have hl := hafter l (by simp)
    have ih1 := fun data1 => ih data1 (fun x hx => hwf x (by simp [hx]))
      (fun x hx => hafter x (by simp [hx]))
    simp only [Table.recoverLines, List.foldl_cons] at ih1 ⊢
    rw [ih1]
    rcases entry_cases K l (hwf l (by simp)) with ⟨p, d, _, _, hk, hr⟩ | ⟨p, d, _, _, hk, hr⟩ |
      ⟨p, _, hk, hr⟩
    · rw [hr, lookup_append_other K k d data (fun e => hl (by rw [hk, e]))]
    · rw [hr, lookup_replaceFirst_other K k d data (fun e => hl (by rw [hk, e]))]
    · rw [hr, lookup_removeFirst_other K k p data (fun e => hl (by rw [hk, e]))]

theorem replay_keys_nodup {R : Type} (K : Keyable R) (lines : List Str) (data : List R)
    (hwf : ∀ l ∈ lines, isSkippedLine K l = false)
    (hnd : (data.map K.GetKey).Nodup) (hcons : keyConsistent K data lines = true) :
    ((Table.recoverLines K data lines).map K.GetKey).Nodup := by
  induction lines generalizing data with
  | nil => exact hnd
  | cons l ls ih =>
    unfold keyConsistent at hcons
    rw [Bool.and_eq_true] at hcons
    obtain ⟨hhead, htail⟩ := hcons
    simp only [Table.recoverLines, List.foldl_cons]
    apply ih _ (fun x hx => hwf x (by simp [hx])) _ htail
    rcases entry_cases K l (hwf l (by simp)) with ⟨p, d, hc, hf, _, hr⟩ | ⟨p, d, _, _, _, hr⟩ |
      ⟨p, _, _, hr⟩
    · rw [hr, List.map_append, List.nodup_append]
      simp only [hc, hf, if_true, Bool.not_eq_true'] at hhead
      have hab : K.GetKey d ∉ data.map K.GetKey := by
        intro hm
        rw [(hasKey_eq_true K _ data).2 hm] at hhead
        cases hhead
      refine ⟨hnd, by simp, ?_⟩
      intro a ha hb
      simp only [List.map_cons, List.map_nil, List.mem_singleton] at hb
      subst hb
      exact hab ha
    · rw [hr, keys_replaceFirst]; exact hnd
    · rw [hr, keys_removeFirst]; exact hnd.erase _

theorem keyConsistent_append {R : Type} (K : Keyable R) (a b : List Str) (data : List R)
    (h : keyConsistent K data (a ++ b) = true) :
    keyConsistent K data a = true ∧ keyConsistent K (Table.recoverLines K data a) b = true := by
  induction a generalizing data with
  | nil => exact ⟨rfl, h⟩
  | cons l ls ih =>
    rw [List.cons_append] at h
    unfold keyConsistent at h
    rw [Bool.and_eq_true] at h
    obtain ⟨hhead, htail⟩ := h
    obtain ⟨h1, h2⟩ := ih _ htail
    refine ⟨?_, ?_⟩
    · unfold keyConsistent
      rw [Bool.and_eq_true]
      exact ⟨hhead, h1⟩
    · simpa only [Table.recoverLines, List.foldl_cons] using h2

/-- C10, amended. Take a log whose scanned lines are all well-formed, decodable
entries and in which every ADD brings a key that no record of the sequence
carries at that point and every UPDATE addresses a key that one does. If the
last entry that concerns `k` is an ADD or UPDATE with payload `p`, then after
`Recover` the first record whose key is `k` is the record decoded from `p`; if
it is a DELETE, no record carries `k`. -/
theorem last_entry_wins {R : Type} (K : Keyable R) (wal : Str) (before after : List Str)
    (line : Str) (k : Str)
    (hlog : scanLines wal = before ++ line :: after)
    (hwf : ∀ l ∈ before ++ line :: after, isSkippedLine K l = false)
    (hcons : keyConsistent K [] (before ++ line :: after) = true)
    (hline : lineKey K line = some k)
    (hafter : ∀ l ∈ after, lineKey K l ≠ some k) :
    (∀ p d, cutComma line = some (ADD, p) ∨ cutComma line = some (UPDATE, p) →
        K.From p = .ok d → lookup K k (openTable K wal).data = some d) ∧
    (cutComma line = some (DELETE, k) → lookup K k (openTable K wal).data = none) := by
  have hwfb : ∀ l ∈ before, isSkippedLine K l = false := fun l hl => hwf l (by simp [hl])
  have hwfa : ∀ l ∈ after, isSkippedLine K l = false := fun l hl => hwf l (by simp [hl])
  obtain ⟨hcb, hcl⟩ := keyConsistent_append K before (line :: after) [] hcons
  have hnd := replay_keys_nodup K before [] hwfb (by simp) hcb
  have hdata : (openTable K wal).data =
      Table.recoverLines K
        (Table.recoverLine K (Table.recoverLines K [] before) line) after := by
    simp only [openTable, Table.Recover, hlog, Table.recoverLines, List.foldl_append,
      List.foldl_cons]
  rw [hdata, replay_keeps_lookup K k after _ hwfa hafter]
  unfold keyConsistent at hcl
  rw [Bool.and_eq_true] at hcl
  obtain ⟨hhead, _⟩ := hcl
  rcases entry_cases K line (hwf line (by simp)) with ⟨q, e, hc, hf, hk, hr⟩ |
    ⟨q, e, hc, hf, hk, hr⟩ | ⟨q, hc, hk, hr⟩
  · rw [hline] at hk
    cases hk
    refine ⟨?_, ?_⟩
    · intro p d hp hd
      rw [hc] at hp
      have hpq : q = p := by
        rcases hp with hp | hp
        · cases hp; rfl
        · exact absurd hp (cut_op_ne (by decide))
      subst hpq
      rw [hf] at hd
      cases hd
      rw [hr]
      apply lookup_append_new
      intro hm
      simp only [hc, hf, if_true, (hasKey_eq_true K _ _).2 hm] at hhead
      cases hhead
    · intro hd
      rw [hc] at hd
      exact absurd hd (cut_op_ne (by decide))
  · rw [hline] at hk
    cases hk
    refine ⟨?_, ?_⟩
    · intro p d hp hd
      rw [hc] at hp
      have hpq : q = p := by
        rcases hp with hp | hp
        · exact absurd hp (cut_op_ne (by decide))
        · cases hp; rfl
      subst hpq
      rw [hf] at hd
      cases hd
      rw [hr]
      apply lookup_replaceFirst_same
      simp only [hc, hf, show UPDATE ≠ ADD by decide, if_false, if_true] at hhead
      exact (hasKey_eq_true K _ _).1 hhead
    · intro hd
      rw [hc] at hd
      exact absurd hd (cut_op_ne (by decide))
  · rw [hline] at hk
    cases hk
    refine ⟨?_, ?_⟩
    · intro p d hp hd
      rw [hc] at hp
      rcases hp with hp | hp
      · exact absurd hp (cut_op_ne (by decide))
      · exact absurd hp (cut_op_ne (by decide))
    · intro _
      rw [hr, lookup_eq_none, keys_removeFirst]
      exact fun hm => ((hnd.mem_erase_iff).1 hm).1 rfl

/-- Last_entry_wins on the log "ADD,k,ann", "UPDATE,k,bob": the record with
key "k" is the one decoded from the UPDATE. -/
theorem last_entry_wins_witness :
    lookup (memberType [] []) ['k']
      (openTable (memberType [] []) "ADD,k,ann\nUPDATE,k,bob\n".toList).data =
    some { ID := ['k'], Name := bob } :=
  (last_entry_wins (memberType [] []) "ADD,k,ann\nUPDATE,k,bob\n".toList
    ["ADD,k,ann".toList] [] "UPDATE,k,bob".toList ['k'] rfl
    (by intro l hl
        simp only [List.singleton_append, List.mem_cons, List.mem_singleton,
          List.not_mem_nil, or_false] at hl
        rcases hl with rfl | rfl <;> rfl)
    rfl rfl (by intro l hl; cases hl)).1 "k,bob".toList { ID := ['k'], Name := bob }
    (Or.inr rfl) rfl

/-- C10, as stated, fails on a log that adds a key twice, and on a log that
updates a key it never added. After "ADD,k,ann", "ADD,k,bob" the last entry
for "k" is the second ADD, yet the first record with key "k" is the one of the
first ADD. After "UPDATE,k,bob" alone no record carries "k". -/
theorem last_entry_does_not_always_win :
    (scanLines "ADD,k,ann\nADD,k,bob\n".toList = ["ADD,k,ann".toList, "ADD,k,bob".toList] ∧
      isSkippedLine (memberType [] []) "ADD,k,ann".toList = false ∧
      isSkippedLine (memberType [] []) "ADD,k,bob".toList = false ∧
      lineKey (memberType [] []) "ADD,k,bob".toList = some ['k'] ∧
      cutComma "ADD,k,bob".toList = some (ADD, "k,bob".toList) ∧
      (memberType [] []).From "k,bob".toList = .ok { ID := ['k'], Name := bob } ∧
      lookup (memberType [] []) ['k']
          (openTable (memberType [] []) "ADD,k,ann\nADD,k,bob\n".toList).data =
        some { ID := ['k'], Name := "ann".toList } ∧
      ({ ID := ['k'], Name := "ann".toList } : Member) ≠ { ID := ['k'], Name := bob }) ∧
    (scanLines "UPDATE,k,bob\n".toList = ["UPDATE,k,bob".toList] ∧
      isSkippedLine (memberType [] []) "UPDATE,k,bob".toList = false ∧
      lineKey (memberType [] []) "UPDATE,k,bob".toList = some ['k'] ∧
      cutComma "UPDATE,k,bob".toList = some (UPDATE, "k,bob".toList) ∧
      (memberType [] []).From "k,bob".toList = .ok { ID := ['k'], Name := bob } ∧
      lookup (memberType [] []) ['k']
          (openTable (memberType [] []) "UPDATE,k,bob\n".toList).data = none) :=
  ⟨⟨rfl, rfl, rfl, rfl, rfl, rfl, rfl, by decide⟩, ⟨rfl, rfl, rfl, rfl, rfl, rfl⟩⟩

/-! ### Lines written by `writeWAL`, read back -/

theorem cutComma_op (op p : Str) (h : ',' ∉ op) : cutComma (op ++ ',' :: p) = some (op, p) := by
  induction op with
  | nil => simp [cutComma]
  | cons c cs ih =>
    have hc : c ≠ ',' := fun e => h (by simp [e])
    have hcs : ',' ∉ cs := fun e => h (by simp [e])
    simp [cutComma, hc, ih hcs]

theorem dropWhile_ne_nil_of_mem {α : Type} (p : α → Bool) (l : List α) (a : α) (ha : a ∈ l)
    (hp : p a = false) : l.dropWhile p ≠ [] := by
  induction l with
  | nil => cases ha
  | cons x xs ih =>
    by_cases hx : p x = true
    · rw [List.dropWhile_cons_of_pos hx]
      rcases List.mem_cons.1 ha with h1 | h1
      · subst h1; rw [hp] at hx; cases hx
      · exact ih h1
    · rw [List.dropWhile_cons_of_neg hx]
      exact List.cons_ne_nil _ _

theorem TrimSpace_ne_nil (c : Char) (s : Str) (h : isSpace c = false) :
    TrimSpace (c :: s) ≠ [] := by
  unfold TrimSpace
  rw [List.dropWhile_cons_of_neg (by simp [h])]
  intro e
  have e1 : List.dropWhile isSpace (c :: s).reverse = [] := by
    simpa using congrArg List.reverse e
  exact dropWhile_ne_nil_of_mem isSpace _ c (by simp) h e1

theorem recoverLine_ADD {R : Type} (K : Keyable R) (data : List R) (p : Str) :
    Table.recoverLine K data (ADD ++ ',' :: p) =
      match K.From p with
      | .error _ => data
      | .ok d => data ++ [d] := by
  have h1 : TrimSpace (ADD ++ ',' :: p) ≠ [] := TrimSpace_ne_nil 'A' _ (by decide)
  have h2 : cutComma (ADD ++ ',' :: p) = some (ADD, p) := cutComma_op ADD p (by decide)
  simp only [Table.recoverLine, SplitN2, h1, h2, if_false, if_true]

theorem recoverLine_UPDATE {R : Type} (K : Keyable R) (data : List R) (p : Str) :
    Table.recoverLine K data (UPDATE ++ ',' :: p) =
      match K.From p with
      | .error _ => data
      | .ok d => replaceFirst K d data := by
  have h1 : TrimSpace (UPDATE ++ ',' :: p) ≠ [] := TrimSpace_ne_nil 'U' _ (by decide)
  have h2 : cutComma (UPDATE ++ ',' :: p) = some (UPDATE, p) := cutComma_op UPDATE p (by decide)
  simp only [Table.recoverLine, SplitN2, h1, h2, if_false, if_true,
    show UPDATE ≠ ADD by decide]

theorem recoverLine_DELETE {R : Type} (K : Keyable R) (data : List R) (p : Str) :
    Table.recoverLine K data (DELETE ++ ',' :: p) = removeFirst K p data := by
  have h1 : TrimSpace (DELETE ++ ',' :: p) ≠ [] := TrimSpace_ne_nil 'D' _ (by decide)
  have h2 : cutComma (DELETE ++ ',' :: p) = some (DELETE, p) := cutComma_op DELETE p (by decide)
  simp only [Table.recoverLine, SplitN2, h1, h2, if_false, if_true,
    show DELETE ≠ ADD by decide, show DELETE ≠ UPDATE by decide]

theorem written_line_unaltered (op p : Str) (hop : '\n' ∉ op) (hp : '\n' ∉ p)
    (hcr : p.getLast? ≠ some '\r') :
    '\n' ∉ op ++ ',' :: p ∧ dropCR (op ++ ',' :: p) = op ++ ',' :: p := by
  constructor
  · simp only [List.mem_append, List.mem_cons, not_or]
    exact ⟨hop, by decide, hp⟩
  · unfold dropCR
    rw [if_neg]
    rw [List.getLast?_append, List.getLast?_cons]
    cases hl : p.getLast? with
    | none => simp
    | some c =>
      rw [hl] at hcr
      simpa using hcr

theorem fileOf_append (a b : List Str) : fileOf (a ++ b) = fileOf a ++ fileOf b := by
  induction a with
  | nil => rfl
  | cons l ls ih => simp [fileOf, ih]

theorem fileOf_snoc (a : List Str) (op p : Str) :
    fileOf (a ++ [op ++ ',' :: p]) = fileOf a ++ walLine op p := by
  rw [fileOf_append]
  simp [fileOf, walLine]

theorem recoverLines_snoc {R : Type} (K : Keyable R) (ls : List Str) (l : Str) :
    Table.recoverLines K [] (ls ++ [l]) =
      Table.recoverLine K (Table.recoverLines K [] ls) l := by
  simp [Table.recoverLines, List.foldl_append]

theorem isUUID_clean (k : Str) (h : isUUID k = true) :
    '\n' ∉ k ∧ k.getLast? ≠ some '\r' := by
  simp only [isUUID, Bool.and_eq_true] at h
  obtain ⟨⟨⟨⟨⟨⟨_, hall⟩, _⟩, _⟩, _⟩, _⟩, _⟩ := h
  rw [List.all_eq_true] at hall
  constructor
  · intro hm
    have := hall _ hm
    revert this
    decide
  · intro hl
    have := hall _ (List.mem_of_getLast?_eq_some hl)
    revert this
    decide

theorem mem_removeFirst {R : Type} (K : Keyable R) (k : Str) (data : List R) (v : R)
    (h : v ∈ removeFirst K k data) : v ∈ data := by
  induction data with
  | nil => cases h
  | cons x xs ih =>
    unfold removeFirst at h
    split at h
    · exact List.mem_cons_of_mem _ h
    · rcases List.mem_cons.1 h with h1 | h1
      · rw [h1]; exact List.mem_cons_self _ _
      · exact List.mem_cons_of_mem _ (ih h1)

theorem mem_replaceFirst {R : Type} (K : Keyable R) (d : R) (data : List R) (v : R)
    (h : v ∈ replaceFirst K d data) : v = d ∨ v ∈ data := by
  induction data with
  | nil => cases h
  | cons x xs ih =>
    unfold replaceFirst at h
    split at h
    · rcases List.mem_cons.1 h with h1 | h1
      · exact Or.inl h1
      · exact Or.inr (List.mem_cons_of_mem _ h1)
    · rcases List.mem_cons.1 h with h1 | h1
      · rw [h1]; exact Or.inr (List.mem_cons_self _ _)
      · rcases ih h1 with h2 | h2
        · exact Or.inl h2
        · exact Or.inr (List.mem_cons_of_mem _ h2)

/-! ### Replay of the log written by successful calls -/

theorem rawLinesFrom_line (l : Str) (h : '\n' ∉ l) (cur rest : Str) :
    rawLinesFrom cur (l ++ '\n' :: rest) = (cur.reverse ++ l) :: rawLinesFrom [] rest := by
  induction l generalizing cur with
  | nil => simp [rawLinesFrom]
  | cons c cs ih =>
    have hc : c ≠ '\n' := fun e => h (by simp [e])
    have hcs : '\n' ∉ cs := fun e => h (by simp [e])
    have e : rawLinesFrom cur (c :: cs ++ '\n' :: rest) =
        rawLinesFrom (c :: cur) (cs ++ '\n' :: rest) := by
      simp [rawLinesFrom, hc]
    rw [e, ih hcs]
    simp

theorem rawLines_fileOf (ls : List Str) (hnl : ∀ l ∈ ls, '\n' ∉ l) :
    rawLines (fileOf ls) = ls := by
  induction ls with
  | nil => rfl
  | cons l ls ih =>
    have ih1 := ih (fun x hx => hnl x (by simp [hx]))
    unfold rawLines at ih1 ⊢
    simp only [fileOf]
    rw [rawLinesFrom_line l (hnl l (by simp)), ih1]
    simp

theorem invariant_empty {R : Type} (K : Keyable R) :
    ReplayInvariant K ({ wal := [], data := [] } : Table R) :=
  ⟨[], rfl, by simp, rfl, by simp⟩

theorem invariant_step {R : Type} (m : MinDB) (K : Keyable R) (t t1 : Table R) (c : Call R)
    (hrt : ∀ r, K.From (K.String r) = .ok r)
    (hnl : ∀ r, '\n' ∉ K.String r ∧ (K.String r).getLast? ≠ some '\r')
    (hkey : ∀ r k, K.GetKey (K.SetKey r k) = k)
    (hgen : ∀ k ∈ generatedKeys [c], isUUID k = true)
    (hheld : ∀ h ∈ heldPositions [c], h = [])
    (hinv : ReplayInvariant K t)
    (hcall : m.call K t c = .returned t1 none) : ReplayInvariant K t1 := by
  obtain ⟨ls, hwal, hls, hdata, hkeys⟩ := hinv
  cases c with
  | create data held key io =>
    have hk : isUUID key = true := hgen key (by simp [generatedKeys])
    have hh : held = [] := hheld held (by simp [heldPositions])
    subst hh
    simp only [MinDB.call, MinDB.Create, writeThrough_nil] at hcall
    split at hcall
    · cases hcall
    · cases hcall
    · split at hcall
      · cases hcall
      · split at hcall
        · cases hcall
        · rename_i data2 _
          cases io with
          | writeFailed w c => simp [Table.writeWAL] at hcall
          | syncFailed c => simp [Table.writeWAL] at hcall
          | ok =>
            simp only [Table.writeWAL, Result.returned.injEq] at hcall
            obtain ⟨h1, _⟩ := hcall
            subst h1
            refine ⟨ls ++ [ADD ++ ',' :: K.String (K.SetKey data2 key)], ?_, ?_, ?_, ?_⟩
            · simp only [fileOf_snoc, hwal]
            · intro l hl
              rcases List.mem_append.1 hl with h2 | h2
              · exact hls l h2
              · rw [List.mem_singleton] at h2
                subst h2
                exact written_line_unaltered ADD _ (by decide) (hnl _).1 (hnl _).2
            · simp only [recoverLines_snoc, recoverLine_ADD, hrt, hdata]
            · intro v hv
              rcases List.mem_append.1 hv with h2 | h2
              · exact hkeys v h2
              · rw [List.mem_singleton] at h2
                subst h2
                rw [hkey]; exact hk
  | delete data io =>
    simp only [MinDB.call, MinDB.Delete] at hcall
    split at hcall
    · cases hcall
    · rename_i data1 _
      split at hcall
      · rename_i hhas
        cases io with
        | writeFailed w c => simp [Table.writeWAL] at hcall
        | syncFailed c => simp [Table.writeWAL] at hcall
        | ok =>
          simp only [Table.writeWAL, Result.returned.injEq] at hcall
          obtain ⟨h1, _⟩ := hcall
          subst h1
          obtain ⟨v, hv, hvk⟩ := List.mem_map.1 ((hasKey_eq_true K _ _).1 hhas)
          have hclean := isUUID_clean _ (hkeys v hv)
          rw [hvk] at hclean
          refine ⟨ls ++ [DELETE ++ ',' :: K.GetKey data1], ?_, ?_, ?_, ?_⟩
          · simp only [fileOf_snoc, hwal]
          · intro l hl
            rcases List.mem_append.1 hl with h2 | h2
            · exact hls l h2
            · rw [List.mem_singleton] at h2
              subst h2
              exact written_line_unaltered DELETE _ (by decide) hclean.1 hclean.2
          · simp only [recoverLines_snoc, recoverLine_DELETE, hdata]
          · intro w hw
            exact hkeys w (mem_removeFirst K _ _ w hw)
      · simp only [Result.returned.injEq] at hcall
        obtain ⟨h1, _⟩ := hcall
        subst h1
        exact ⟨ls, hwal, hls, hdata, hkeys⟩
  | update data io =>
    simp only [MinDB.call, MinDB.Update] at hcall
    split at hcall
    · cases hcall
    · rename_i data1 _
      split at hcall
      · rename_i hhas
        cases io with
        | writeFailed w c => simp [Table.writeWAL] at hcall
        | syncFailed c => simp [Table.writeWAL] at hcall
        | ok =>
          simp only [Table.writeWAL, Result.returned.injEq] at hcall
          obtain ⟨h1, _⟩ := hcall
          subst h1
          obtain ⟨v, hv, hvk⟩ := List.mem_map.1 ((hasKey_eq_true K _ _).1 hhas)
          refine ⟨ls ++ [UPDATE ++ ',' :: K.String data1], ?_, ?_, ?_, ?_⟩
          · simp only [fileOf_snoc, hwal]
          · intro l hl
            rcases List.mem_append.1 hl with h2 | h2
            · exact hls l h2
            · rw [List.mem_singleton] at h2
              subst h2
              exact written_line_unaltered UPDATE _ (by decide) (hnl _).1 (hnl _).2
          · simp only [recoverLines_snoc, recoverLine_UPDATE, hrt, hdata]
          · intro w hw
            rcases mem_replaceFirst K _ _ w hw with h2 | h2
            · rw [h2, ← hvk]; exact hkeys v hv
            · exact hkeys w h2
      · simp at hcall

theorem invariant_run {R : Type} (m : MinDB) (K : Keyable R) (calls : List (Call R))
    (t t1 : Table R)
    (hrt : ∀ r, K.From (K.String r) = .ok r)
    (hnl : ∀ r, '\n' ∉ K.String r ∧ (K.String r).getLast? ≠ some '\r')
    (hkey : ∀ r k, K.GetKey (K.SetKey r k) = k)
    (hgen : ∀ k ∈ generatedKeys calls, isUUID k = true)
    (hheld : ∀ h ∈ heldPositions calls, h = [])
    (hinv : ReplayInvariant K t)
    (hrun : m.runCalls K t calls = some t1) : ReplayInvariant K t1 := by
  induction calls generalizing t with
  | nil =>
    simp only [MinDB.runCalls, Option.some.injEq] at hrun
    subst hrun; exact hinv
  | cons c cs ih =>
    unfold MinDB.runCalls at hrun
    split at hrun
    · rename_i t2 hc
      have hg1 : ∀ k ∈ generatedKeys [c], isUUID k = true := by
        intro k hk
        apply hgen
        cases c <;> simp_all [generatedKeys]
      have hg2 : ∀ k ∈ generatedKeys cs, isUUID k = true := by
        intro k hk
        apply hgen
        cases c <;> simp_all [generatedKeys]
      have hh1 : ∀ h ∈ heldPositions [c], h = [] := by
        intro h hh
        apply hheld
        cases c <;> simp_all [heldPositions]
      have hh2 : ∀ h ∈ heldPositions cs, h = [] := by
        intro h hh
        apply hheld
        cases c <;> simp_all [heldPositions]
      exact ih t2 hg2 hh2 (invariant_step m K t t2 c hrt hnl hkey hg1 hh1 hinv hc) hrun
    · cases hrun

/-- Replay of a log that the scanner reads to its end. When the record
encoding round-trips, has no line feed and does not end in a carriage return,
keys are set and read back by `SetKey` and `GetKey`, generated keys are UUID
strings and no `Create` is passed a record the table already holds: after any
sequence of calls that all return `nil`, starting from an empty log, if every
line of the log fits the scanner's buffer then `Recover` rebuilds from the log
exactly the in-memory sequence, and does so again when the log is replayed
once more. -/
theorem replay_matches_memory {R : Type} (m : MinDB) (K : Keyable R) (calls : List (Call R))
    (t1 : Table R)
    (hrt : ∀ r, K.From (K.String r) = .ok r)
    (hnl : ∀ r, '\n' ∉ K.String r ∧ (K.String r).getLast? ≠ some '\r')
    (hkey : ∀ r k, K.GetKey (K.SetKey r k) = k)
    (hgen : ∀ k ∈ generatedKeys calls, isUUID k = true)
    (hheld : ∀ h ∈ heldPositions calls, h = [])
    (hrun : m.runCalls K { wal := [], data := [] } calls = some t1)
    (hlen : ∀ l ∈ rawLines t1.wal, byteLen l < MaxScanTokenSize) :
    (openTable K t1.wal).data = t1.data ∧
      (openTable K (openTable K t1.wal).wal).data = t1.data := by
  obtain ⟨ls, hwal, hls, hdata, _⟩ :=
    invariant_run m K calls _ t1 hrt hnl hkey hgen hheld (invariant_empty K) hrun
  have hraw : rawLines t1.wal = ls := by
    rw [hwal]; exact rawLines_fileOf ls (fun l hl => (hls l hl).1)
  rw [hraw] at hlen
  have hscan : scanLines t1.wal = ls := by
    rw [hwal, scanLines_fileOf ls (fun l hl => (hls l hl).1) hlen]
    conv => rhs; rw [← List.map_id ls]
    exact List.map_congr_left (fun l hl => (hls l hl).2)
  have h1 : (openTable K t1.wal).data = t1.data := by
    simp only [openTable, Table.Recover, hscan, hdata]
  exact ⟨h1, h1⟩

/-! ### The text form of `Member` -/

theorem esc_clean (s : Str) : ∀ c ∈ esc s, c ≠ '\n' ∧ c ≠ '\r' ∧ c ≠ ',' := by
  induction s with
  | nil => intro c hc; cases hc
  | cons x xs ih =>
    intro c hc
    unfold esc at hc
    split at hc
    · simp only [List.mem_cons] at hc
      rcases hc with h | h | h
      · subst h; decide
      · subst h; decide
      · exact ih c h
    · split at hc
      · simp only [List.mem_cons] at hc
        rcases hc with h | h | h
        · subst h; decide
        · subst h; decide
        · exact ih c h
      · split at hc
        · simp only [List.mem_cons] at hc
          rcases hc with h | h | h
          · subst h; decide
          · subst h; decide
          · exact ih c h
        · split at hc
          · simp only [List.mem_cons] at hc
            rcases hc with h | h | h
            · subst h; decide
            · subst h; decide
            · exact ih c h
          · rename_i h1 h2 h3 h4
            simp only [List.mem_cons] at hc
            rcases hc with h | h
            · subst h; exact ⟨h2, h3, h4⟩
            · exact ih c h

theorem unesc_esc (s : Str) : unesc (esc s) = some s := by
  induction s with
  | nil => rfl
  | cons x xs ih =>
    unfold esc
    split
    · rename_i h; subst h
      simp [unesc, ih]
    · split
      · rename_i h; subst h
        simp [unesc, ih]
      · split
        · rename_i h; subst h
          simp [unesc, ih]
        · split
          · rename_i h; subst h
            simp [unesc, ih]
          · rename_i h1 h2 h3 h4
            cases he : esc xs with
            | nil =>
              rw [he] at ih
              simp only [unesc, Option.some.injEq] at ih
              subst ih
              simp [unesc, h1, h2, h3, h4]
            | cons d ds =>
              rw [he] at ih
              simp [unesc, h1, h2, h3, h4, ih]

theorem Member_roundtrip (idTag nameTag : Str) (r : Member) :
    (memberType idTag nameTag).From ((memberType idTag nameTag).String r) = .ok r := by
  have hc : ',' ∉ esc r.ID := fun h => (esc_clean r.ID _ h).2.2 rfl
  simp only [memberType, Member.From, Member.String, cutComma_op _ _ hc, unesc_esc]

theorem Member_String_clean (idTag nameTag : Str) (r : Member) :
    '\n' ∉ (memberType idTag nameTag).String r ∧
      ((memberType idTag nameTag).String r).getLast? ≠ some '\r' := by
  have h : ∀ c ∈ Member.String r, c ≠ '\n' ∧ c ≠ '\r' := by
    intro c hc
    simp only [Member.String, List.mem_append, List.mem_cons] at hc
    rcases hc with h | h | h
    · exact ⟨(esc_clean _ c h).1, (esc_clean _ c h).2.1⟩
    · subst h; decide
    · exact ⟨(esc_clean _ c h).1, (esc_clean _ c h).2.1⟩
  exact ⟨fun hm => (h _ hm).1 rfl, fun hl => (h _ (List.mem_of_getLast?_eq_some hl)).2 rfl⟩

theorem length_le_byteLen (s : Str) : s.length ≤ byteLen s := by
  induction s with
  | nil => simp [byteLen]
  | cons c cs ih =>
    rw [byteLen_cons, List.length_cons]
    have := Char.utf8Size_pos c
    omega

theorem length_le_length_esc (s : Str) : s.length ≤ (esc s).length := by
  induction s with
  | nil => simp [esc]
  | cons c cs ih =>
    unfold esc
    repeat' split
    all_goals simp only [List.length_cons]; omega

theorem long_line_too_long (a : Str) :
    MaxScanTokenSize ≤ byteLen (ADD ++ ',' :: (esc a ++ ',' :: esc longName)) := by
  have h1 := length_le_byteLen (esc longName)
  have h2 := length_le_length_esc longName
  have h3 : longName.length = 65536 := List.length_replicate _ _
  simp only [byteLen_append, byteLen_cons, MaxScanTokenSize]
  omega

/-- C1, at a record whose line in the log does not fit the scanner's buffer.
The encoding of `Member` round-trips and has no newline and the two keys
differ; a `Member` with a name of 65536 letters and then one named "bob" are
created, neither held by the table before (both calls return `nil`); the
in-memory sequence holds both records, and the replay of the log holds none:
the scanner stops at the first line and `Recover` never reads its error. -/
theorem long_record_lost_on_replay :
    (∀ r, (memberType [] []).From ((memberType [] []).String r) = .ok r) ∧
    (∀ r, '\n' ∉ (memberType [] []).String r ∧
      ((memberType [] []).String r).getLast? ≠ some '\r') ∧
    [key1, key2].Nodup ∧
    MinDB.empty.runCalls (memberType [] []) { wal := [], data := [] }
        [.create { ID := [], Name := longName } [] key1 .ok,
         .create { ID := [], Name := bob } [] key2 .ok] =
      some { wal := walLine ADD (Member.String { ID := key1, Name := longName }) ++
                    walLine ADD (Member.String { ID := key2, Name := bob }),
             data := [{ ID := key1, Name := longName }, { ID := key2, Name := bob }] } ∧
    (openTable (memberType [] [])
        (walLine ADD (Member.String { ID := key1, Name := longName }) ++
          walLine ADD (Member.String { ID := key2, Name := bob }))).data = [] := by
  refine ⟨Member_roundtrip [] [], Member_String_clean [] [], by decide, ?_, ?_⟩
  · simp [MinDB.runCalls, MinDB.call, MinDB.Create, MinDB.empty, checkUnique, applyDefaults,
      runBefore, runAfter, Table.writeWAL, memberType, writeThrough_nil]
  · have hnl : '\n' ∉ ADD ++ ',' :: (esc key1 ++ ',' :: esc longName) := by
      have := (Member_String_clean [] [] { ID := key1, Name := longName }).1
      simp only [List.mem_append, List.mem_cons, not_or]
      simp only [memberType, Member.String, List.mem_append, List.mem_cons, not_or] at this
      exact ⟨by decide, by decide, this⟩
    have hscan : scanLines (walLine ADD (Member.String { ID := key1, Name := longName }) ++
        walLine ADD (Member.String { ID := key2, Name := bob })) = [] := by
      have e : walLine ADD (Member.String { ID := key1, Name := longName }) ++
          walLine ADD (Member.String { ID := key2, Name := bob }) =
          (ADD ++ ',' :: (esc key1 ++ ',' :: esc longName)) ++
            '\n' :: walLine ADD (Member.String { ID := key2, Name := bob }) := by
        simp [walLine, Member.String]
      rw [e, scanLines_line _ hnl, if_pos (long_line_too_long key1)]
    simp only [openTable, Table.Recover, hscan, Table.recoverLines, List.foldl_nil]

/-- Replay_matches_memory on a run of `Member` calls: two records created,
one renamed, one deleted. -/
theorem replay_matches_memory_witness :
    (openTable (memberType [] [])
        (walLine ADD (Member.String { ID := key1, Name := bob }) ++
          walLine ADD (Member.String { ID := key2, Name := eve }) ++
          walLine UPDATE (Member.String { ID := key2, Name := bob }) ++
          walLine DELETE key1)).data = [{ ID := key2, Name := bob }] ∧
    (openTable (memberType [] [])
        (openTable (memberType [] [])
          (walLine ADD (Member.String { ID := key1, Name := bob }) ++
            walLine ADD (Member.String { ID := key2, Name := eve }) ++
            walLine UPDATE (Member.String { ID := key2, Name := bob }) ++
            walLine DELETE key1)).wal).data = [{ ID := key2, Name := bob }] :=
  replay_matches_memory MinDB.empty (memberType [] [])
    [.create { ID := [], Name := bob } [] key1 .ok,
     .create { ID := [], Name := eve } [] key2 .ok,
     .update { ID := key2, Name := bob } .ok,
     .delete { ID := key1, Name := [] } .ok]
    { wal := walLine ADD (Member.String { ID := key1, Name := bob }) ++
        walLine ADD (Member.String { ID := key2, Name := eve }) ++
        walLine UPDATE (Member.String { ID := key2, Name := bob }) ++
        walLine DELETE key1,
      data := [{ ID := key2, Name := bob }] }
    (Member_roundtrip [] []) (Member_String_clean [] []) (fun _ _ => rfl)
    (by decide) (by decide) rfl (by decide)

/-! ### Replay of a log file with bad lines -/

theorem scanned_filter {R : Type} (K : Keyable R) (lines : List Str) :
    (lines.filter fun l => !isSkippedLine K (dropCR l)).map dropCR =
      (lines.map dropCR).filter fun l => !isSkippedLine K l := by
  rw [List.filter_map]
  rfl

theorem Recover_fileOf {R : Type} (K : Keyable R) (lines : List Str) (data : List R)
    (hnl : ∀ l ∈ lines, '\n' ∉ l) (hlen : ∀ l ∈ lines, byteLen l < MaxScanTokenSize) :
    (Table.Recover K { wal := fileOf lines, data := data }).data =
      Table.recoverLines K data (lines.map dropCR) := by
  simp only [Table.Recover, scanLines_fileOf lines hnl hlen]

/-- Bad lines in a log that the scanner reads to its end. For every log whose
lines each fit the scanner's buffer: `Recover` is total and yields the same
in-memory sequence as on the log without its blank lines, its lines without a comma,
its lines with an op type other than ADD, UPDATE, DELETE and its ADD or
UPDATE lines whose payload does not decode (each line taken as the scanner
delivers it, without a carriage return at its end); and replay goes on after
such a line, with the sequence as it stood before it. -/
theorem Recover_skips_bad_lines {R : Type} (K : Keyable R) (lines : List Str) (data : List R)
    (hnl : ∀ l ∈ lines, '\n' ∉ l) (hlen : ∀ l ∈ lines, byteLen l < MaxScanTokenSize) :
    (Table.Recover K { wal := fileOf lines, data := data }).data =
      (Table.Recover K
        { wal := fileOf (lines.filter fun l => !isSkippedLine K (dropCR l)),
          data := data }).data ∧
    ∀ before bad after, lines = before ++ bad :: after →
      isSkippedLine K (dropCR bad) = true →
      (Table.Recover K { wal := fileOf lines, data := data }).data =
        (Table.Recover K
          { wal := fileOf after,
            data := (Table.Recover K { wal := fileOf before, data := data }).data }).data := by
  constructor
  · rw [Recover_fileOf K lines data hnl hlen,
      Recover_fileOf K _ data (fun l hl => hnl l (List.mem_filter.1 hl).1)
        (fun l hl => hlen l (List.mem_filter.1 hl).1),
      scanned_filter]
    exact recoverLines_filter K _ _
  · intro before bad after hsplit hbad
    subst hsplit
    rw [Recover_fileOf K _ data hnl hlen,
      Recover_fileOf K before data (fun l hl => hnl l (by simp [hl]))
        (fun l hl => hlen l (by simp [hl])),
      Recover_fileOf K after _ (fun l hl => hnl l (by simp [hl]))
        (fun l hl => hlen l (by simp [hl]))]
    simp only [List.map_append, List.map_cons, Table.recoverLines, List.foldl_append,
      List.foldl_cons]
    rw [recoverLine_skipped K _ _ hbad]

/-- Recover_skips_bad_lines on the log "ADD,k,bob", "garbage", "DELETE,k". -/
theorem Recover_skips_bad_lines_witness :
    (Table.Recover (memberType [] [])
        { wal := fileOf ["ADD,k,bob".toList, "garbage".toList, "DELETE,k".toList],
          data := [] }).data =
      (Table.Recover (memberType [] [])
        { wal := fileOf (["ADD,k,bob".toList, "garbage".toList, "DELETE,k".toList].filter
            fun l => !isSkippedLine (memberType [] []) (dropCR l)),
          data := [] }).data ∧
    ∀ before bad after,
      ["ADD,k,bob".toList, "garbage".toList, "DELETE,k".toList] = before ++ bad :: after →
      isSkippedLine (memberType [] []) (dropCR bad) = true →
      (Table.Recover (memberType [] [])
          { wal := fileOf ["ADD,k,bob".toList, "garbage".toList, "DELETE,k".toList],
            data := [] }).data =
        (Table.Recover (memberType [] [])
          { wal := fileOf after,
            data := (Table.Recover (memberType [] [])
              { wal := fileOf before, data := [] }).data }).data :=
  Recover_skips_bad_lines (memberType [] [])
    ["ADD,k,bob".toList, "garbage".toList, "DELETE,k".toList] [] (by decide) (by decide)

theorem cutComma_none (s : Str) (h : ',' ∉ s) : cutComma s = none := by
  induction s with
  | nil => rfl
  | cons c cs ih =>
    have hc : c ≠ ',' := fun e => h (by simp [e])
    have hcs : ',' ∉ cs := fun e => h (by simp [e])
    simp [cutComma, hc, ih hcs]

/-- C9, at a log with a bad line that does not fit the scanner's buffer: the
line of 65536 letters has no comma; with it in front, `Recover` replays
nothing of the log, because the scanner stops there and its error is never
read; without it, the ADD behind it is replayed. -/
theorem long_bad_line_stops_replay :
    cutComma longName = none ∧
    (Table.Recover (memberType [] [])
        { wal := fileOf [longName, "ADD,k,bob".toList], data := [] }).data = [] ∧
    (Table.Recover (memberType [] [])
        { wal := fileOf ["ADD,k,bob".toList], data := [] }).data =
      [{ ID := ['k'], Name := bob }] := by
  have hmem : ∀ c ∈ longName, c = 'a' := fun c hc => List.eq_of_mem_replicate hc
  refine ⟨cutComma_none _ (fun h => absurd (hmem _ h) (by decide)), ?_, rfl⟩
  have hscan : scanLines (fileOf [longName, "ADD,k,bob".toList]) = [] := by
    have hlong : MaxScanTokenSize ≤ byteLen longName := by
      have h1 := length_le_byteLen longName
      have h3 : longName.length = 65536 := List.length_replicate _ _
      simp only [MaxScanTokenSize]
      omega
    simp only [fileOf]
    rw [scanLines_line _ (fun h => absurd (hmem _ h) (by decide)), if_pos hlong]
  simp only [Table.Recover, hscan, Table.recoverLines, List.foldl_nil]

/-! ### The line written by `writeWAL`, as the scan of `Recover` reads it -/

theorem scanLines_fileOf_length_le (ls : List Str) (hnl : ∀ l ∈ ls, '\n' ∉ l) :
    (scanLines (fileOf ls)).length ≤ ls.length := by
  induction ls with
  | nil => simp [fileOf, scanLines, scanFrom]
  | cons l ls ih =>
    have ih1 := ih (fun x hx => hnl x (by simp [hx]))
    simp only [fileOf]
    rw [scanLines_line l (hnl l (by simp))]
    split
    · simp
    · simp only [List.length_cons]; omega

theorem all_delivered_fit (ls : List Str) (hnl : ∀ l ∈ ls, '\n' ∉ l)
    (h : (scanLines (fileOf ls)).length = ls.length) :
    ∀ l ∈ ls, byteLen l < MaxScanTokenSize := by
  induction ls with
  | nil => intro l hl; cases hl
  | cons l ls ih =>
    simp only [fileOf] at h
    rw [scanLines_line l (hnl l (by simp))] at h
    split at h
    · simp at h
    · rename_i hfit
      simp only [List.length_cons, Nat.add_right_cancel_iff] at h
      intro x hx
      rcases List.mem_cons.1 hx with e | e
      · subst e; omega
      · exact ih (fun y hy => hnl y (by simp [hy])) h x e

/-- C11, amended. For every op type among ADD, UPDATE, DELETE and every payload
that has no line feed and does not end in a carriage return: when `writeWAL`
appends the line to a log made of complete lines (empty, or ending in a line
feed) and the scan of `Recover` delivers every line of the resulting log (as
many lines as the log holds), the scan delivers the earlier lines and then
this line, and the split at the first comma gives back exactly the op type and
exactly the payload, whatever commas the payload holds. -/
theorem writeWAL_line_read_back {R : Type} (t : Table R) (ls : List Str) (op p : Str)
    (hop : op = ADD ∨ op = UPDATE ∨ op = DELETE)
    (hwal : t.wal = fileOf ls) (hnl : ∀ l ∈ ls, '\n' ∉ l)
    (hp : '\n' ∉ p) (hcr : p.getLast? ≠ some '\r')
    (hscan : (scanLines (t.writeWAL op p .ok).1.wal).length = ls.length + 1) :
    scanLines (t.writeWAL op p .ok).1.wal = scanLines t.wal ++ [op ++ ',' :: p] ∧
      SplitN2 (op ++ ',' :: p) = [op, p] := by
  have hopnl : '\n' ∉ op ∧ ',' ∉ op := by
    rcases hop with h | h | h <;> subst h <;> exact ⟨by decide, by decide⟩
  obtain ⟨h1, h2⟩ := written_line_unaltered op p hopnl.1 hp hcr
  have e : (t.writeWAL op p .ok).1.wal = fileOf (ls ++ [op ++ ',' :: p]) := by
    simp only [Table.writeWAL, hwal, fileOf_snoc]
  have hnl1 : ∀ l ∈ ls ++ [op ++ ',' :: p], '\n' ∉ l := by
    intro l hl
    rcases List.mem_append.1 hl with h | h
    · exact hnl l h
    · rw [List.mem_singleton] at h; subst h; exact h1
  have hfit : ∀ l ∈ ls ++ [op ++ ',' :: p], byteLen l < MaxScanTokenSize := by
    apply all_delivered_fit _ hnl1
    rw [← e, hscan, List.length_append, List.length_singleton]
  constructor
  · rw [e, hwal, scanLines_fileOf ls hnl (fun l hl => hfit l (List.mem_append_left _ hl)),
      scanLines_fileOf _ hnl1 hfit]
    simp only [List.map_append, List.map_cons, List.map_nil, h2]
  · simp only [SplitN2, cutComma_op op p hopnl.2]

/-- WriteWAL_line_read_back for an UPDATE whose payload starts with a comma and
holds two more, written after an ADD line. -/
theorem writeWAL_line_read_back_witness :
    scanLines ((({ wal := fileOf ["ADD,k,bob".toList], data := [] } : Table Member).writeWAL
        UPDATE ",a,b,".toList .ok).1.wal) =
      scanLines (fileOf ["ADD,k,bob".toList]) ++ [UPDATE ++ ',' :: ",a,b,".toList] ∧
    SplitN2 (UPDATE ++ ',' :: ",a,b,".toList) = [UPDATE, ",a,b,".toList] :=
  writeWAL_line_read_back { wal := fileOf ["ADD,k,bob".toList], data := [] }
    ["ADD,k,bob".toList] UPDATE ",a,b,".toList (Or.inr (Or.inl rfl)) rfl (by decide)
    (by decide) (by decide) (by decide)

/-- C11, as stated, fails for a payload that ends in a carriage return: it holds
no line feed, its line is written to an empty log and delivered by the scan,
and the payload read back lacks its last character, because the line scan
drops a carriage return at the end of a line. -/
theorem writeWAL_line_not_always_read_back :
    '\n' ∉ "x\r".toList ∧
    scanLines ((({ wal := [], data := [] } : Table Member).writeWAL ADD
      "x\r".toList .ok).1.wal) = ["ADD,x".toList] ∧
    SplitN2 "ADD,x".toList = [ADD, "x".toList] ∧ "x".toList ≠ "x\r".toList :=
  ⟨by decide, rfl, rfl, by decide⟩

/-! ### `OrderBy(f, true).Limit(n)` -/

theorem pairwise_of_short {α : Type} (r : α → α → Prop) (l : List α) (h : l.length < 2) :
    l.Pairwise r := by
  cases l with
  | nil => exact List.Pairwise.nil
  | cons a t =>
    cases t with
    | nil => exact List.pairwise_singleton _ _
    | cons b u => simp only [List.length_cons] at h; omega

theorem orderLess_int {R : Type} (K : Keyable R) (fname : Str) (fld : Field R)
    (hfld : K.FieldByName fname = some fld) (desc : Bool) (a b : R) (x y : Int)
    (ha : fld.get a = .int x) (hb : fld.get b = .int y) :
    orderLess K fname desc a b = some (if desc then decide (x > y) else decide (x < y)) := by
  simp [orderLess, hfld, ha, hb, Value.asInt]

theorem comparable_int {R : Type} (K : Keyable R) (fname : Str) (fld : Field R)
    (hfld : K.FieldByName fname = some fld) (desc : Bool) (l : List R)
    (hint : ∀ r ∈ l, ∃ n, fld.get r = .int n) :
    comparable (orderLess K fname desc) l = true := by
  unfold comparable
  rw [List.all_eq_true]
  intro a ha
  rw [List.all_eq_true]
  intro b hb
  obtain ⟨x, hx⟩ := hint a ha
  obtain ⟨y, hy⟩ := hint b hb
  rw [orderLess_int K fname fld hfld desc a b x y hx hy]
  rfl

/-- C12. On a table whose records carry the integer field `f`, for every
filter and every `n > 0`, when `sort.Slice` leaves a permutation in which no
record is less than one before it: `OrderBy(f, true).Limit(n)` lists exactly
min(n, number of records passing the filter) records, all of the table and
all passing the filter, in non-increasing order of `f`, and the passing
records left out all have an `f` at most that of every listed record. -/
theorem orderBy_desc_limit {R : Type} (K : Keyable R) (env : Env R) (table : Table R)
    (blank : R) (filter : R → Bool) (fname : Str) (fld : Field R) (n : Int)
    (hfld : K.FieldByName fname = some fld)
    (hint : ∀ r ∈ table.data, ∃ x, fld.get r = .int x)
    (hn : 0 < n)
    (hsort : (env.sortSlice (fun a b => (orderLess K fname true a b).getD false)
        (table.data.filter filter)).Perm (table.data.filter filter) ∧
      (env.sortSlice (fun a b => (orderLess K fname true a b).getD false)
        (table.data.filter filter)).Pairwise
          fun a b => (orderLess K fname true b a).getD false = false) :
    ∃ out dropped : List R,
      Query.List K env
        (Query.Limit (Query.OrderBy K { MinDB.Query table blank with filter := some filter }
          fname true) n) = .ok out ∧
      (out.length : Int) = min n ((table.data.filter filter).length : Int) ∧
      (∀ r ∈ out, r ∈ table.data ∧ filter r = true) ∧
      out.Pairwise (fun a b => ((fld.get a).asInt.getD 0) ≥ ((fld.get b).asInt.getD 0)) ∧
      (out ++ dropped).Perm (table.data.filter filter) ∧
      ∀ d ∈ dropped, ∀ r ∈ out, ((fld.get d).asInt.getD 0) ≤ ((fld.get r).asInt.getD 0) := by
  let base := table.data.filter filter
  let less := fun a b => (orderLess K fname true a b).getD false
  have hbase : ∀ r ∈ base, r ∈ table.data ∧ filter r = true := fun r hr =>
    List.mem_filter.1 hr
  have hintb : ∀ r ∈ base, ∃ x, fld.get r = .int x := fun r hr => hint r (hbase r hr).1
  -- the sorted list
  obtain ⟨sorted, hstage, hperm, hpw⟩ : ∃ sorted : List R,
      sortStage env (Query.Limit (Query.OrderBy K
        { MinDB.Query table blank with filter := some filter } fname true) n) base =
        some sorted ∧ sorted.Perm base ∧ sorted.Pairwise fun a b => less b a = false := by
    by_cases hlen : base.length < 2
    · refine ⟨base, ?_, List.Perm.refl _, ?_⟩
      · simp only [sortStage, Query.Limit, Query.OrderBy]
        rw [if_pos hlen]
      · exact pairwise_of_short _ base hlen
    · refine ⟨env.sortSlice less base, ?_, hsort.1, hsort.2⟩
      simp only [sortStage, Query.Limit, Query.OrderBy]
      rw [if_neg hlen, if_pos (comparable_int K fname fld hfld true base hintb)]
  have hkey : ∀ a b, a ∈ sorted → b ∈ sorted → less b a = false →
      ((fld.get a).asInt.getD 0) ≥ ((fld.get b).asInt.getD 0) := by
    intro a b ha hb h
    obtain ⟨x, hx⟩ := hintb a (hperm.subset ha)
    obtain ⟨y, hy⟩ := hintb b (hperm.subset hb)
    simp only [less, orderLess_int K fname fld hfld true b a y x hy hx, if_true,
      Option.getD_some, decide_eq_false_iff_not, not_lt] at h
    simp only [hx, hy, Value.asInt, Option.getD_some]
    omega
  refine ⟨sorted.take n.toNat, sorted.drop n.toNat, ?_, ?_, ?_, ?_, ?_, ?_⟩
  · have hlim : limitStage (Query.Limit (Query.OrderBy K
        { MinDB.Query table blank with filter := some filter } fname true) n) sorted =
        sorted.take n.toNat := by
      simp only [limitStage, Query.Limit]
      split
      · rfl
      · rename_i h
        rw [List.take_of_length_le]
        have : ¬ n < (sorted.length : Int) := fun h1 => h ⟨hn, h1⟩
        omega
    have hfs : filterStage (Query.Limit (Query.OrderBy K
        { MinDB.Query table blank with filter := some filter } fname true) n) = base := by
      simp only [filterStage, Query.Limit, Query.OrderBy, MinDB.Query]
    simp only [Query.List, hfs, hstage, hlim]
    simp [groupStage, distinctStage, joinStage, selectStage, Query.Limit, Query.OrderBy,
      MinDB.Query]
  · have hb : base.length = (table.data.filter filter).length := rfl
    rw [List.length_take, hperm.length_eq]
    omega
  · intro r hr
    exact hbase r (hperm.subset (List.mem_of_mem_take hr))
  · have h1 : (sorted.take n.toNat).Pairwise fun a b => less b a = false :=
      hpw.sublist (List.take_sublist _ _)
    exact h1.imp_of_mem fun {a b} ha hb h =>
      hkey a b (List.mem_of_mem_take ha) (List.mem_of_mem_take hb) h
  · rw [List.take_append_drop]; exact hperm
  · intro d hd r hr
    have h2 : (sorted.take n.toNat ++ sorted.drop n.toNat).Pairwise
        fun a b => less b a = false := by
      rw [List.take_append_drop]; exact hpw
    have h3 := (List.pairwise_append.1 h2).2.2 r hr d hd
    exact hkey r d (List.mem_of_mem_take hr) (List.mem_of_mem_drop hd) h3

/-- OrderBy_desc_limit on the five users aged 18, 25, 30, 45, 60 with the
filter `Age >= 18` and `n = 2`: the result is the users aged 60 and 45. -/
theorem orderBy_desc_limit_witness :
    Query.List userType (smallEnv User)
        (Query.Limit (Query.OrderBy userType
          { MinDB.Query { wal := [], data := fiveUsers } blankUser with
            filter := some fun u => decide (18 ≤ u.Age) } "Age".toList true) 2) =
      .ok [{ ID := ['5'], Name := "Erin".toList, Age := 60 },
           { ID := ['4'], Name := "Dave".toList, Age := 45 }] ∧
    ∃ out dropped : List User,
      Query.List userType (smallEnv User)
        (Query.Limit (Query.OrderBy userType
          { MinDB.Query { wal := [], data := fiveUsers } blankUser with
            filter := some fun u => decide (18 ≤ u.Age) } "Age".toList true) 2) = .ok out ∧
      (out.length : Int) = min 2 ((fiveUsers.filter fun u => decide (18 ≤ u.Age)).length : Int) ∧
      (∀ r ∈ out, r ∈ fiveUsers ∧ decide (18 ≤ r.Age) = true) ∧
      out.Pairwise (fun a b =>
        ((User.fieldAge.get a).asInt.getD 0) ≥ ((User.fieldAge.get b).asInt.getD 0)) ∧
      (out ++ dropped).Perm (fiveUsers.filter fun u => decide (18 ≤ u.Age)) ∧
      ∀ d ∈ dropped, ∀ r ∈ out,
        ((User.fieldAge.get d).asInt.getD 0) ≤ ((User.fieldAge.get r).asInt.getD 0) :=
  ⟨rfl, orderBy_desc_limit userType (smallEnv User) { wal := [], data := fiveUsers } blankUser
    (fun u => decide (18 ≤ u.Age)) "Age".toList User.fieldAge 2 rfl
    (fun r _ => ⟨r.Age, rfl⟩) (by decide) ⟨by decide, by decide⟩⟩

/-! ### Aggregates -/

theorem wrap64_of_range (n : Int) (h1 : -(2 ^ 63) ≤ n) (h2 : n < 2 ^ 63) : wrap64 n = n := by
  unfold wrap64
  norm_num at h1 h2 ⊢
  omega

theorem wrap64_add_left (a b : Int) : wrap64 (wrap64 a + b) = wrap64 (a + b) := by
  unfold wrap64
  norm_num
  omega

theorem sumLoop_some {R : Type} (K : Keyable R) (field : Str) (fld : Field R)
    (hfld : K.FieldByName field = some fld) (results : List R)
    (hint : ∀ r ∈ results, ∃ x, fld.get r = .int x) (acc : Int) :
    aggregateLoop K field (fun sum v =>
        match sum with
        | none => v
        | some s => wrap64 (s + v)) (some acc) results =
      .ok (some (if results.isEmpty then acc
        else wrap64 (acc + (results.map fun r => (fld.get r).asInt.getD 0).sum))) := by
  induction results generalizing acc with
  | nil => rfl
  | cons r rest ih =>
    obtain ⟨x, hx⟩ := hint r (by simp)
    have ih1 := ih (fun r1 h1 => hint r1 (by simp [h1])) (wrap64 (acc + x))
    simp only [aggregateLoop, hfld, hx, Value.asInt, ih1]
    cases rest with
    | nil => simp [hx, Value.asInt]
    | cons r2 rest2 =>
      simp only [List.isEmpty_cons, Bool.false_eq_true, if_false, List.map_cons,
        List.sum_cons, hx, Value.asInt, Option.getD_some]
      rw [wrap64_add_left, Int.add_assoc]

/-- When `List` returns at least one record and every returned record carries
the integer field, `Sum` returns the sum of the field over those records as a
Go `int`: the value itself for one record, and the sum modulo 2^64 for more. -/
theorem Sum_of_matches {R : Type} (K : Keyable R) (env : Env R) (q : Query R) (field : Str)
    (fld : Field R) (hfld : K.FieldByName field = some fld) (first : R) (rest : List R)
    (hlist : q.List K env = .ok (first :: rest))
    (hint : ∀ r ∈ first :: rest, ∃ x, fld.get r = .int x) :
    q.Sum K env field =
      .ok (if rest.isEmpty then (fld.get first).asInt.getD 0
        else wrap64 (((first :: rest).map fun r => (fld.get r).asInt.getD 0).sum)) := by
  obtain ⟨x, hx⟩ := hint first (by simp)
  have h := sumLoop_some K field fld hfld rest (fun r h1 => hint r (by simp [h1])) x
  simp only [Query.Sum, aggregate, hlist, aggregateLoop, hfld, hx, Value.asInt, h]
  cases rest with
  | nil => simp
  | cons r2 rest2 => simp [hx, Value.asInt]

/-- Sum_of_matches on the five users: the sum of the ages is 178. -/
theorem Sum_of_matches_witness :
    Query.Sum userType (smallEnv User)
        (MinDB.Query { wal := [], data := fiveUsers } blankUser) "Age".toList =
      .ok (if fiveUsers.tail.isEmpty
        then (User.fieldAge.get { ID := ['1'], Name := "Alice".toList, Age := 18 }).asInt.getD 0
        else wrap64 ((fiveUsers.map fun r => (User.fieldAge.get r).asInt.getD 0).sum)) :=
  Sum_of_matches userType (smallEnv User)
    (MinDB.Query { wal := [], data := fiveUsers } blankUser) "Age".toList User.fieldAge rfl
    { ID := ['1'], Name := "Alice".toList, Age := 18 } fiveUsers.tail rfl
    (fun r _ => ⟨r.Age, rfl⟩)

/-- C13. `Sum` panics when no record matches: `aggregate` then returns `nil`,
and `res.(int)` is a type assertion on `nil`. On the five users, `Sum("Age")`
is 178 over all of them, and panics under a filter that none of them passes,
where `List` returns the empty list without error. -/
theorem Sum_of_no_match_panics :
    Query.Sum userType (smallEnv User)
        (MinDB.Query { wal := [], data := fiveUsers } blankUser) "Age".toList = .ok 178 ∧
    Query.List userType (smallEnv User)
        (Query.Where userType (MinDB.Query { wal := [], data := fiveUsers } blankUser)
          "Age".toList (.int 99)) = .ok [] ∧
    Query.Sum userType (smallEnv User)
        (Query.Where userType (MinDB.Query { wal := [], data := fiveUsers } blankUser)
          "Age".toList (.int 99)) "Age".toList = .panicked :=
  ⟨rfl, rfl, rfl⟩

theorem aggregateLoop_missing {R : Type} (K : Keyable R) (field : Str)
    (hfld : K.FieldByName field = none) (fn : Option Int → Int → Int) (acc : Option Int)
    (first : R) (rest : List R) :
    aggregateLoop K field fn acc (first :: rest) = .err .fieldNotFound := by
  simp only [aggregateLoop, hfld]

/-- C19, amended. For every query whose `List` returns at least one record and
every field name that the record type does not have, `Sum`, `Avg`, `Max` and
`Min` on that name fail with "field not found". -/
theorem aggregate_missing_field {R : Type} (K : Keyable R) (env : Env R) (q : Query R)
    (field : Str) (first : R) (rest : List R)
    (hlist : q.List K env = .ok (first :: rest))
    (hfld : K.FieldByName field = none) :
    q.Sum K env field = .err .fieldNotFound ∧ q.Avg K env field = .err .fieldNotFound ∧
      q.Max K env field = .err .fieldNotFound ∧ q.Min K env field = .err .fieldNotFound := by
  refine ⟨?_, ?_, ?_, ?_⟩
  · simp only [Query.Sum, aggregate, hlist, aggregateLoop_missing K field hfld]
  · simp only [Query.Avg, hlist, avgLoop, hfld]
  · simp only [Query.Max, aggregate, hlist, aggregateLoop_missing K field hfld]
  · simp only [Query.Min, aggregate, hlist, aggregateLoop_missing K field hfld]

/-- Aggregate_missing_field on the five users and the name "Height". -/
theorem aggregate_missing_field_witness :
    Query.Sum userType (smallEnv User)
        (MinDB.Query { wal := [], data := fiveUsers } blankUser) "Height".toList =
      .err .fieldNotFound ∧
    Query.Avg userType (smallEnv User)
        (MinDB.Query { wal := [], data := fiveUsers } blankUser) "Height".toList =
      .err .fieldNotFound ∧
    Query.Max userType (smallEnv User)
        (MinDB.Query { wal := [], data := fiveUsers } blankUser) "Height".toList =
      .err .fieldNotFound ∧
    Query.Min userType (smallEnv User)
        (MinDB.Query { wal := [], data := fiveUsers } blankUser) "Height".toList =
      .err .fieldNotFound :=
  aggregate_missing_field userType (smallEnv User)
    (MinDB.Query { wal := [], data := fiveUsers } blankUser) "Height".toList
    { ID := ['1'], Name := "Alice".toList, Age := 18 } fiveUsers.tail rfl rfl

/-- C19, as stated, fails for a query that matches no record: the field is
looked up once per returned record, so with none returned `Max` and `Min`
return `nil` without error and `Avg` returns the quotient of 0 by 0 without
error (`Sum` panics). -/
theorem aggregate_missing_field_no_match :
    userType.FieldByName "Height".toList = none ∧
    Query.Max userType (smallEnv User)
        (Query.Where userType (MinDB.Query { wal := [], data := fiveUsers } blankUser)
          "Age".toList (.int 99)) "Height".toList = .ok none ∧
    Query.Min userType (smallEnv User)
        (Query.Where userType (MinDB.Query { wal := [], data := fiveUsers } blankUser)
          "Age".toList (.int 99)) "Height".toList = .ok none ∧
    Query.Avg userType (smallEnv User)
        (Query.Where userType (MinDB.Query { wal := [], data := fiveUsers } blankUser)
          "Age".toList (.int 99)) "Height".toList = .ok (0, 0) ∧
    Query.Sum userType (smallEnv User)
        (Query.Where userType (MinDB.Query { wal := [], data := fiveUsers } blankUser)
          "Age".toList (.int 99)) "Height".toList = .panicked :=
  ⟨rfl, rfl, rfl, rfl, rfl⟩

/-! ### Bulk update and delete -/

theorem condFilter_flatPairs {R : Type} (K : Keyable R) (pairs : List (Str × Value)) (data : R) :
    condFilter K (flatPairs pairs) data = some (meetsAll K pairs data) := by
  induction pairs with
  | nil => rfl
  | cons p rest ih =>
    obtain ⟨field, value⟩ := p
    simp only [flatPairs, condFilter, meetsAll, List.all_cons, fieldEquals]
    cases hf : K.FieldByName field with
    | none => simp
    | some f =>
      by_cases hv : f.get data = value
      · simp only [hv, ne_eq, not_true_eq_false, if_false, beq_self_eq_true, Bool.true_and]
        exact ih
      · have hb : (f.get data == value) = false := by
          rw [beq_eq_false_iff_ne]; exact hv
        simp only [ne_eq, hv, not_false_eq_true, if_true, hb, Bool.false_and]

theorem flatPairs_ne_nil (pairs : List (Str × Value)) (h : pairs ≠ []) :
    flatPairs pairs ≠ [] := by
  cases pairs with
  | nil => exact absurd rfl h
  | cons p rest =>
    obtain ⟨field, value⟩ := p
    exact List.cons_ne_nil _ _

theorem flatPairs_length_even (pairs : List (Str × Value)) :
    (flatPairs pairs).length % 2 = 0 := by
  induction pairs with
  | nil => rfl
  | cons p rest ih =>
    obtain ⟨field, value⟩ := p
    simp only [flatPairs, List.length_cons]
    omega

theorem bulkFilter_flatPairs {R : Type} (K : Keyable R) (q : Query R)
    (pairs : List (Str × Value)) (h : pairs ≠ []) (data : R) :
    bulkFilter K q (flatPairs pairs) data = some (meetsAll K pairs data) := by
  simp only [bulkFilter, flatPairs_ne_nil pairs h, if_false, condFilter_flatPairs]

theorem deleteLoop_ok {R : Type} (K : Keyable R) (filter : R → Option Bool) (p : R → Bool)
    (hf : ∀ r, filter r = some (p r)) (old : List R) (rest : List R) (n : Nat) (wal : Str)
    (newData : List R) :
    deleteLoop K filter (fun _ => .ok) old n wal newData rest =
      .returned
        { wal := wal ++ (rest.filter p).flatMap fun r => walLine DELETE (K.GetKey r),
          data := newData ++ rest.filter fun r => !p r } none := by
  induction rest generalizing n wal newData with
  | nil => simp [deleteLoop]
  | cons r rest ih =>
    unfold deleteLoop
    rw [hf r]
    cases hp : p r with
    | false =>
      simp only [ih, hp]
      simp [List.filter_cons, hp]
    | true =>
      simp only [Table.writeWAL, ih]
      simp [List.filter_cons, hp, List.flatMap_cons]

/-- C16. On a table holding at least one record, with a non-empty condition
list of field/value pairs and every WAL write succeeding, `Query.Delete`
returns `nil`; the in-memory sequence is then the records that fail at least
one condition, as they were and in their order, and the log has grown by the
lines "DELETE," + key of the removed records, in table order, and by nothing
else. -/
theorem bulk_delete_removes_matching {R : Type} (K : Keyable R) (q : Query R)
    (pairs : List (Str × Value)) (hpairs : pairs ≠ []) (hdata : q.table.data ≠ []) :
    Query.Delete K q (flatPairs pairs) (fun _ => .ok) =
      .returned
        { wal := q.table.wal ++
            (q.table.data.filter (meetsAll K pairs)).flatMap fun r =>
              walLine DELETE (K.GetKey r),
          data := q.table.data.filter fun r => !meetsAll K pairs r } none := by
  unfold Query.Delete
  cases hd : q.table.data with
  | nil => exact absurd hd hdata
  | cons first rest =>
    simp only [flatPairs_length_even, ne_eq, not_true_eq_false, and_false, if_false]
    rw [deleteLoop_ok K _ (meetsAll K pairs) (bulkFilter_flatPairs K q pairs hpairs)]
    simp

/-- Bulk_delete_removes_matching on the five users with the condition
`Age = 30`. -/
theorem bulk_delete_removes_matching_witness :
    Query.Delete userType (MinDB.Query { wal := [], data := fiveUsers } blankUser)
        (flatPairs [("Age".toList, .int 30)]) (fun _ => .ok) =
      .returned
        { wal := [] ++
            (fiveUsers.filter (meetsAll userType [("Age".toList, .int 30)])).flatMap fun r =>
              walLine DELETE (userType.GetKey r),
          data := fiveUsers.filter fun r => !meetsAll userType [("Age".toList, .int 30)] r }
        none :=
  bulk_delete_removes_matching userType (MinDB.Query { wal := [], data := fiveUsers } blankUser)
    [("Age".toList, .int 30)] (by decide) (by decide)

/-- C18. On a table holding at least one record, `Query.Update` and
`Query.Delete` with a condition list of odd length return the error
"condition fields must be in pairs" and leave the log and every record as
they were. -/
theorem odd_conditions_rejected {R : Type} (K : Keyable R) (q : Query R) (field : Str)
    (value : Value) (conditionFields : ConditionFields) (io : Nat → WriteOutcome)
    (hdata : q.table.data ≠ []) (hodd : conditionFields.length % 2 = 1) :
    Query.Update K q field value conditionFields io =
        .returned q.table (some .conditionPairs) ∧
    Query.Delete K q conditionFields io = .returned q.table (some .conditionPairs) := by
  have hne : conditionFields ≠ [] := by
    intro h; subst h; simp at hodd
  have hcond : conditionFields ≠ [] ∧ conditionFields.length % 2 ≠ 0 := ⟨hne, by omega⟩
  unfold Query.Update Query.Delete
  cases hd : q.table.data with
  | nil => exact absurd hd hdata
  | cons first rest => simp only [if_pos hcond, and_self]

/-- Odd_conditions_rejected on the five users with the one-element condition
list "Age". -/
theorem odd_conditions_rejected_witness :
    Query.Update userType (MinDB.Query { wal := [], data := fiveUsers } blankUser)
        "Age".toList (.int 7) [.str "Age".toList] (fun _ => .ok) =
      .returned { wal := [], data := fiveUsers } (some .conditionPairs) ∧
    Query.Delete userType (MinDB.Query { wal := [], data := fiveUsers } blankUser)
        [.str "Age".toList] (fun _ => .ok) =
      .returned { wal := [], data := fiveUsers } (some .conditionPairs) :=
  odd_conditions_rejected userType (MinDB.Query { wal := [], data := fiveUsers } blankUser)
    "Age".toList (.int 7) [.str "Age".toList] (fun _ => .ok) (by decide) rfl

theorem updateLoop_ok {R : Type} (K : Keyable R) (filter : R → Option Bool) (p : R → Bool)
    (hf : ∀ r, filter r = some (p r)) (field : Str) (value : Value) (fld : Field R)
    (hfld : K.FieldByName field = some fld) (rest : List R)
    (hset : ∀ r ∈ rest, (fld.set r value).isSome = true) (n : Nat) (wal : Str)
    (done : List R) :
    updateLoop K filter field value (fun _ => .ok) n wal done rest =
      .returned
        { wal := wal ++ (rest.filter p).flatMap fun r =>
            walLine UPDATE (K.String ((fld.set r value).getD r)),
          data := done ++ rest.map fun r => if p r then (fld.set r value).getD r else r }
        none := by
  induction rest generalizing n wal done with
  | nil => simp [updateLoop]
  | cons r rest ih =>
    have ih1 := ih (fun r1 h1 => hset r1 (by simp [h1]))
    unfold updateLoop
    rw [hf r]
    cases hp : p r with
    | false =>
      simp only [ih1, hp]
      simp [List.filter_cons, hp]
    | true =>
      obtain ⟨r1, hr1⟩ := Option.isSome_iff_exists.1 (hset r (by simp))
      simp only [hfld, hr1, Table.writeWAL, ih1]
      simp [List.filter_cons, hp, List.flatMap_cons, hr1]

/-- C17. On a table holding at least one record, for a field `f` of the record
type and a value that `Set` accepts for it, with a non-empty condition list of
field/value pairs and every WAL write succeeding, `Query.Update` returns
`nil`. Record by record, in the same order and number: a record that met every
condition now has `f` equal to the value and its other fields as before, and
a record that failed a condition is as it was. The log has grown by the lines
"UPDATE," + new text form of the updated records, in table order, and by
nothing else. The filter of the query plays no part. -/
theorem bulk_update_sets_field {R : Type} (K : Keyable R) (q : Query R) (field : Str)
    (value : Value) (fld : Field R) (pairs : List (Str × Value))
    (hlaw : LawfulFields K) (hfld : K.FieldByName field = some fld)
    (hset : ∀ r ∈ q.table.data, (fld.set r value).isSome = true)
    (hpairs : pairs ≠ []) (hdata : q.table.data ≠ []) :
    ∃ newData : List R,
      Query.Update K q field value (flatPairs pairs) (fun _ => .ok) =
        .returned
          { wal := q.table.wal ++
              ((q.table.data.zip newData).filter fun p => meetsAll K pairs p.1).flatMap
                fun p => walLine UPDATE (K.String p.2),
            data := newData } none ∧
      List.Forall₂ (fun old new =>
          (meetsAll K pairs old = true →
            fld.get new = value ∧ ∀ g ∈ K.fields, g.Name ≠ fld.Name → g.get new = g.get old) ∧
          (meetsAll K pairs old = false → new = old)) q.table.data newData ∧
      ∀ other : Option (R → Bool),
        Query.Update K { q with filter := other } field value (flatPairs pairs) (fun _ => .ok) =
          Query.Update K q field value (flatPairs pairs) (fun _ => .ok) := by
  have hmem := (FieldByName_some K field fld hfld).1
  have hrun : ∀ q1 : Query R, q1.table = q.table →
      Query.Update K q1 field value (flatPairs pairs) (fun _ => .ok) =
        .returned
          { wal := q.table.wal ++ (q.table.data.filter (meetsAll K pairs)).flatMap fun r =>
              walLine UPDATE (K.String ((fld.set r value).getD r)),
            data := q.table.data.map fun r =>
              if meetsAll K pairs r then (fld.set r value).getD r else r } none := by
    intro q1 hq1
    unfold Query.Update
    rw [hq1]
    cases hd : q.table.data with
    | nil => exact absurd hd hdata
    | cons first rest =>
      simp only [flatPairs_length_even, ne_eq, not_true_eq_false, and_false, if_false]
      rw [updateLoop_ok K _ (meetsAll K pairs) (bulkFilter_flatPairs K q1 pairs hpairs) field
        value fld hfld _ (by rw [← hd]; exact hset)]
      simp
  refine ⟨q.table.data.map fun r =>
    if meetsAll K pairs r then (fld.set r value).getD r else r, ?_, ?_, ?_⟩
  · rw [hrun q rfl]
    congr 2
    congr 1
    generalize q.table.data = l
    induction l with
    | nil => rfl
    | cons r rest ih =>
      by_cases hp : meetsAll K pairs r = true
      · simp only [List.map_cons, List.zip_cons_cons, List.filter_cons, hp, if_true,
          List.flatMap_cons, ih]
      · simp only [List.map_cons, List.zip_cons_cons, List.filter_cons, hp, if_false, ih,
          Bool.false_eq_true]
  · rw [List.forall₂_map_right_iff, List.forall₂_same]
    intro r hr
    constructor
    · intro hp
      obtain ⟨r1, hr1⟩ := Option.isSome_iff_exists.1 (hset r hr)
      simp only [hp, if_true, hr1, Option.getD_some]
      exact hlaw fld hmem r r1 value hr1
    · intro hp
      simp [hp]
  · intro other
    rw [hrun { q with filter := other } rfl, hrun q rfl]

theorem userType_lawful : LawfulFields userType := by
  intro f hf r r1 v hset
  simp only [userType, List.mem_cons, List.mem_singleton, List.not_mem_nil, or_false] at hf
  rcases hf with rfl | rfl | rfl
  · cases v with
    | str s =>
      simp only [User.fieldID, Option.some.injEq] at hset
      subst hset
      refine ⟨rfl, ?_⟩
      intro g hg hne
      simp only [userType, List.mem_cons, List.mem_singleton, List.not_mem_nil, or_false] at hg
      rcases hg with rfl | rfl | rfl
      · exact absurd rfl hne
      · rfl
      · rfl
    | int n => simp [User.fieldID] at hset
    | bool b => simp [User.fieldID] at hset
  · cases v with
    | str s =>
      simp only [User.fieldName, Option.some.injEq] at hset
      subst hset
      refine ⟨rfl, ?_⟩
      intro g hg hne
      simp only [userType, List.mem_cons, List.mem_singleton, List.not_mem_nil, or_false] at hg
      rcases hg with rfl | rfl | rfl
      · rfl
      · exact absurd rfl hne
      · rfl
    | int n => simp [User.fieldName] at hset
    | bool b => simp [User.fieldName] at hset
  · cases v with
    | int n =>
      simp only [User.fieldAge, Option.some.injEq] at hset
      subst hset
      refine ⟨rfl, ?_⟩
      intro g hg hne
      simp only [userType, List.mem_cons, List.mem_singleton, List.not_mem_nil, or_false] at hg
      rcases hg with rfl | rfl | rfl
      · rfl
      · rfl
      · exact absurd rfl hne
    | str s => simp [User.fieldAge] at hset
    | bool b => simp [User.fieldAge] at hset

/-- Bulk_update_sets_field on the five users: `Age` is set to 7 where `Name`
is "Bob". -/
theorem bulk_update_sets_field_witness :
    ∃ newData : List User,
      Query.Update userType (MinDB.Query { wal := [], data := fiveUsers } blankUser)
          "Age".toList (.int 7) (flatPairs [("Name".toList, .str "Bob".toList)])
          (fun _ => .ok) =
        .returned
          { wal := [] ++
              ((fiveUsers.zip newData).filter fun p =>
                meetsAll userType [("Name".toList, .str "Bob".toList)] p.1).flatMap
                fun p => walLine UPDATE (userType.String p.2),
            data := newData } none ∧
      List.Forall₂ (fun old new =>
          (meetsAll userType [("Name".toList, .str "Bob".toList)] old = true →
            User.fieldAge.get new = .int 7 ∧
              ∀ g ∈ userType.fields, g.Name ≠ User.fieldAge.Name → g.get new = g.get old) ∧
          (meetsAll userType [("Name".toList, .str "Bob".toList)] old = false → new = old))
        fiveUsers newData ∧
      ∀ other : Option (User → Bool),
        Query.Update userType
            { MinDB.Query { wal := [], data := fiveUsers } blankUser with filter := other }
            "Age".toList (.int 7) (flatPairs [("Name".toList, .str "Bob".toList)])
            (fun _ => .ok) =
          Query.Update userType (MinDB.Query { wal := [], data := fiveUsers } blankUser)
            "Age".toList (.int 7) (flatPairs [("Name".toList, .str "Bob".toList)])
            (fun _ => .ok) :=
  bulk_update_sets_field userType (MinDB.Query { wal := [], data := fiveUsers } blankUser)
    "Age".toList (.int 7) User.fieldAge [("Name".toList, .str "Bob".toList)]
    userType_lawful rfl (fun _ _ => rfl) (by decide) (by decide)

/-! ### `Like` -/

/-- C15. `Like` matches its pattern anywhere in the value, not against the
whole value: the expression made from the pattern is not anchored and
`MatchString` looks for a match starting at any position. Among the names
"Bob", "Alice", "Jacob", "NBA", the pattern "_ob" selects "Bob" and also the
five-letter "Jacob", and the pattern "A%" selects "Alice" and also "NBA",
which does not start with "A". -/
theorem Like_matches_inside_value :
    convertToRegex "_ob".toList = ".ob".toList ∧
    convertToRegex "A%".toList = "A.*".toList ∧
    (smallRegexp ".ob".toList).isSome = true ∧
    (smallRegexp "A.*".toList).isSome = true ∧
    Query.List (memberType [] []) (smallEnv Member)
        (Query.Like (memberType [] []) smallRegexp
          (MinDB.Query
            { wal := [],
              data := [{ ID := ['1'], Name := "Bob".toList },
                       { ID := ['2'], Name := "Alice".toList },
                       { ID := ['3'], Name := "Jacob".toList },
                       { ID := ['4'], Name := "NBA".toList }] } blankMember)
          "Name".toList "_ob".toList) =
      .ok [{ ID := ['1'], Name := "Bob".toList },
           { ID := ['3'], Name := "Jacob".toList }] ∧
    Query.List (memberType [] []) (smallEnv Member)
        (Query.Like (memberType [] []) smallRegexp
          (MinDB.Query
            { wal := [],
              data := [{ ID := ['1'], Name := "Bob".toList },
                       { ID := ['2'], Name := "Alice".toList },
                       { ID := ['3'], Name := "Jacob".toList },
                       { ID := ['4'], Name := "NBA".toList }] } blankMember)
          "Name".toList "A%".toList) =
      .ok [{ ID := ['2'], Name := "Alice".toList },
           { ID := ['4'], Name := "NBA".toList }] :=
  ⟨rfl, rfl, rfl, rfl, rfl, rfl⟩

/-! ### The distinct stage -/

theorem distinctLoop_sublist {R : Type} (K : Keyable R) (l : List R) (seen : List Str) :
    (distinctLoop K seen l).Sublist l := by
  induction l generalizing seen with
  | nil => exact List.Sublist.refl _
  | cons r rest ih =>
    unfold distinctLoop
    split
    · exact (ih seen).cons _
    · exact (ih _).cons₂ _

theorem distinctLoop_not_seen {R : Type} (K : Keyable R) (l : List R) (seen : List Str) :
    ∀ r ∈ distinctLoop K seen l, K.GetKey r ∉ seen := by
  induction l generalizing seen with
  | nil => intro r hr; cases hr
  | cons x rest ih =>
    intro r hr
    unfold distinctLoop at hr
    split at hr
    · exact ih seen r hr
    · rename_i hx
      rcases List.mem_cons.1 hr with h | h
      · rw [h]; exact hx
      · exact fun hs => ih _ r h (List.mem_cons_of_mem _ hs)

theorem distinctLoop_keys_nodup {R : Type} (K : Keyable R) (l : List R) (seen : List Str) :
    ((distinctLoop K seen l).map K.GetKey).Nodup := by
  induction l generalizing seen with
  | nil => exact List.nodup_nil
  | cons x rest ih =>
    unfold distinctLoop
    split
    · exact ih seen
    · rw [List.map_cons, List.nodup_cons]
      refine ⟨?_, ih _⟩
      intro hm
      obtain ⟨r, hr, hk⟩ := List.mem_map.1 hm
      exact distinctLoop_not_seen K rest _ r hr (by rw [hk]; exact List.mem_cons_self _ _)

theorem distinctLoop_lookup {R : Type} (K : Keyable R) (l : List R) (seen : List Str)
    (k : Str) :
    lookup K k (distinctLoop K seen l) = if k ∈ seen then none else lookup K k l := by
  induction l generalizing seen with
  | nil => simp [distinctLoop, lookup]
  | cons x rest ih =>
    unfold distinctLoop
    by_cases hx : K.GetKey x ∈ seen
    · rw [if_pos hx, ih seen]
      by_cases hk : k ∈ seen
      · simp [hk]
      · have hne : K.GetKey x ≠ k := fun e => hk (e ▸ hx)
        simp only [hk, if_false, lookup]
        rw [List.find?_cons_of_neg _ (by simpa using hne)]
    · rw [if_neg hx]
      by_cases hxk : K.GetKey x = k
      · have hk : k ∉ seen := fun h => hx (hxk ▸ h)
        simp only [hk, if_false, lookup]
        rw [List.find?_cons_of_pos _ (by simpa using hxk),
          List.find?_cons_of_pos _ (by simpa using hxk)]
      · have h1 := ih (K.GetKey x :: seen)
        unfold lookup at h1 ⊢
        rw [List.find?_cons_of_neg _ (by simpa using hxk),
          List.find?_cons_of_neg _ (by simpa using hxk), h1]
        by_cases hk : k ∈ seen
        · simp [hk]
        · have : k ∉ K.GetKey x :: seen := by
            simp only [List.mem_cons, not_or]
            exact ⟨fun e => hxk e.symm, hk⟩
          simp [hk, this]

theorem distinctLoop_of_nodup {R : Type} (K : Keyable R) (l : List R) (seen : List Str)
    (hnd : (l.map K.GetKey).Nodup) (hseen : ∀ r ∈ l, K.GetKey r ∉ seen) :
    distinctLoop K seen l = l := by
  induction l generalizing seen with
  | nil => rfl
  | cons x rest ih =>
    rw [List.map_cons, List.nodup_cons] at hnd
    unfold distinctLoop
    rw [if_neg (hseen x (List.mem_cons_self _ _))]
    congr 1
    apply ih _ hnd.2
    intro r hr hm
    rcases List.mem_cons.1 hm with h | h
    · exact hnd.1 (List.mem_map.2 ⟨r, hr, h⟩)
    · exact hseen r (List.mem_cons_of_mem _ hr) h

/-- C20. For a query with `Distinct` set and no `Join` or `Select`, `List`
returns the list that reaches the distinct stage with, for every key, only the
first record carrying it: the keys of the result are pairwise distinct, the
result is a subsequence of that list, the first record with a given key is
the same in both, and the distinct stage leaves its own output as it is. -/
theorem List_distinct {R : Type} (K : Keyable R) (env : Env R) (q : Query R)
    (sorted input : List R)
    (hdistinct : q.distinct = true) (hjoin : q.join = none) (hfields : q.fields = [])
    (hsort : sortStage env q (filterStage q) = some sorted)
    (hgroup : groupStage K env q (limitStage q sorted) = .ok input) :
    ∃ out : List R, q.List K env = .ok out ∧
      (out.map K.GetKey).Nodup ∧ out.Sublist input ∧
      (∀ k, lookup K k out = lookup K k input) ∧
      distinctStage K q out = out := by
  refine ⟨distinctLoop K [] input, ?_, distinctLoop_keys_nodup K input [],
    distinctLoop_sublist K input [], ?_, ?_⟩
  · simp [Query.List, hsort, hgroup, distinctStage, hdistinct, joinStage, hjoin, selectStage,
      hfields]
  · intro k
    rw [distinctLoop_lookup]
    simp
  · simp only [distinctStage, hdistinct, if_true]
    exact distinctLoop_of_nodup K _ [] (distinctLoop_keys_nodup K input [])
      (fun r _ h => by cases h)

/-- List_distinct on a table in which the key "1" is carried by two records:
the first of them is listed, the second is not. -/
theorem List_distinct_witness :
    ∃ out : List Member,
      Query.List (memberType [] []) (smallEnv Member)
        (Query.Distinct (MinDB.Query
          { wal := [],
            data := [{ ID := ['1'], Name := bob }, { ID := ['2'], Name := eve },
                     { ID := ['1'], Name := eve }] } blankMember)) = .ok out ∧
      (out.map (memberType [] []).GetKey).Nodup ∧
      out.Sublist [{ ID := ['1'], Name := bob }, { ID := ['2'], Name := eve },
                   { ID := ['1'], Name := eve }] ∧
      (∀ k, lookup (memberType [] []) k out =
        lookup (memberType [] []) k
          [{ ID := ['1'], Name := bob }, { ID := ['2'], Name := eve },
           { ID := ['1'], Name := eve }]) ∧
      distinctStage (memberType [] [])
        (Query.Distinct (MinDB.Query
          { wal := [],
            data := [{ ID := ['1'], Name := bob }, { ID := ['2'], Name := eve },
                     { ID := ['1'], Name := eve }] } blankMember)) out = out :=
  List_distinct (memberType [] []) (smallEnv Member) _
    [{ ID := ['1'], Name := bob }, { ID := ['2'], Name := eve }, { ID := ['1'], Name := eve }]
    [{ ID := ['1'], Name := bob }, { ID := ['2'], Name := eve }, { ID := ['1'], Name := eve }]
    rfl rfl rfl rfl rfl

/-! ### The group stage -/

theorem groupOf_groupInsert {R : Type} (key : Str) (data : R) (groups : List (Str × List R))
    (k : Str) :
    groupOf k (groupInsert key data groups) =
      if k = key then groupOf k groups ++ [data] else groupOf k groups := by
  induction groups with
  | nil =>
    by_cases h : k = key
    · subst h; simp [groupInsert, groupOf]
    · have h1 : ¬ key = k := fun e => h e.symm
      simp [groupInsert, groupOf, h, h1]
  | cons g rest ih =>
    obtain ⟨k0, g0⟩ := g
    unfold groupInsert
    by_cases hk0 : k0 = key
    · subst hk0
      rw [if_pos rfl]
      by_cases h : k = k0
      · subst h; simp [groupOf]
      · have h1 : ¬ k0 = k := fun e => h e.symm
        simp [groupOf, h, h1]
    · rw [if_neg hk0]
      by_cases h0 : k0 = k
      · subst h0
        simp [groupOf, hk0]
      · have e1 : groupOf k ((k0, g0) :: groupInsert key data rest) =
            groupOf k (groupInsert key data rest) := by
          simp [groupOf, h0]
        have e2 : groupOf k ((k0, g0) :: rest) = groupOf k rest := by
          simp [groupOf, h0]
        rw [e1, e2, ih]

theorem keys_groupInsert {R : Type} (key : Str) (data : R) (groups : List (Str × List R)) :
    (groupInsert key data groups).map Prod.fst =
      if key ∈ groups.map Prod.fst then groups.map Prod.fst
      else groups.map Prod.fst ++ [key] := by
  induction groups with
  | nil => rfl
  | cons g rest ih =>
    obtain ⟨k0, g0⟩ := g
    unfold groupInsert
    by_cases hk0 : k0 = key
    · subst hk0
      simp
    · have h1 : ¬ key = k0 := fun e => hk0 e.symm
      rw [if_neg hk0, List.map_cons, ih]
      by_cases hm : key ∈ rest.map Prod.fst
      · rw [if_pos hm, if_pos (by rw [List.map_cons]; exact List.mem_cons_of_mem _ hm)]
        rfl
      · rw [if_neg hm, if_neg (by
          rw [List.map_cons, List.mem_cons, not_or]; exact ⟨h1, hm⟩)]
        rfl

theorem groupLoop_spec {R : Type} (K : Keyable R) (field : Str) (fld : Field R)
    (hfld : K.FieldByName field = some fld) (l : List R)
    (hstr : ∀ r ∈ l, ∃ s, fld.get r = .str s) (groups : List (Str × List R))
    (hnd : (groups.map Prod.fst).Nodup) :
    ∃ final, groupLoop K field groups l = .ok final ∧ (final.map Prod.fst).Nodup ∧
      (∀ k, k ∈ final.map Prod.fst ↔
        k ∈ groups.map Prod.fst ∨ ∃ r ∈ l, fld.get r = .str k) ∧
      ∀ k, groupOf k final = groupOf k groups ++ l.filter fun r => fld.get r == .str k := by
  induction l generalizing groups with
  | nil => exact ⟨groups, rfl, hnd, by simp, by simp⟩
  | cons r rest ih =>
    obtain ⟨s, hs⟩ := hstr r (List.mem_cons_self _ _)
    have hnd1 : ((groupInsert s r groups).map Prod.fst).Nodup := by
      rw [keys_groupInsert]
      split
      · exact hnd
      · rename_i hm
        rw [List.nodup_append]
        refine ⟨hnd, List.nodup_singleton _, ?_⟩
        intro a ha hb
        rw [List.mem_singleton] at hb
        exact hm (hb ▸ ha)
    obtain ⟨final, h1, h2, h3, h4⟩ :=
      ih (fun x hx => hstr x (List.mem_cons_of_mem _ hx)) (groupInsert s r groups) hnd1
    refine ⟨final, ?_, h2, ?_, ?_⟩
    · simp only [groupLoop, hfld, hs, h1]
    · intro k
      rw [h3 k, keys_groupInsert]
      constructor
      · rintro (h | ⟨x, hx, hxk⟩)
        · split at h
          · exact Or.inl h
          · rcases List.mem_append.1 h with h5 | h5
            · exact Or.inl h5
            · rw [List.mem_singleton] at h5
              exact Or.inr ⟨r, List.mem_cons_self _ _, by rw [hs, h5]⟩
        · exact Or.inr ⟨x, List.mem_cons_of_mem _ hx, hxk⟩
      · rintro (h | ⟨x, hx, hxk⟩)
        · left
          split
          · exact h
          · exact List.mem_append_left _ h
        · rcases List.mem_cons.1 hx with h5 | h5
          · subst h5
            rw [hs] at hxk
            cases hxk
            left
            split
            · assumption
            · exact List.mem_append_right _ (List.mem_singleton.2 rfl)
          · exact Or.inr ⟨x, h5, hxk⟩
    · intro k
      rw [h4 k, groupOf_groupInsert]
      by_cases hk : k = s
      · subst hk
        simp [List.filter_cons, hs]
      · have h6 : ¬ s = k := fun e => hk e.symm
        simp [List.filter_cons, hs, hk, h6]

theorem havingLoop_eq {R : Type} (having : Option (R → Bool)) (groups : List (Str × List R))
    (order : List Str) :
    havingLoop having groups order =
      (order.filter fun k => firstAccepted having (groupOf k groups)).flatMap
        fun k => groupOf k groups := by
  induction order with
  | nil => rfl
  | cons k rest ih =>
    unfold havingLoop
    rw [ih]
    cases hg : groupOf k groups with
    | nil => simp [List.filter_cons, firstAccepted, hg]
    | cons first others =>
      cases having with
      | none => simp [List.filter_cons, firstAccepted, hg]
      | some h =>
        by_cases hh : h first = true
        · simp [List.filter_cons, firstAccepted, hg, hh]
        · simp [List.filter_cons, firstAccepted, hg, hh]

theorem flatMap_groups_perm {R : Type} (fld : Field R) (ks : List Str) (l : List R)
    (hnd : ks.Nodup) (hcov : ∀ r ∈ l, ∃ k ∈ ks, fld.get r = .str k) :
    (ks.flatMap fun k => l.filter fun r => fld.get r == .str k).Perm l := by
  induction ks generalizing l with
  | nil =>
    cases l with
    | nil => exact List.Perm.refl _
    | cons r rest =>
      obtain ⟨k, hk, _⟩ := hcov r (List.mem_cons_self _ _)
      cases hk
  | cons k ks ih =>
    rw [List.nodup_cons] at hnd
    have hrest : (ks.flatMap fun k1 => l.filter fun r => fld.get r == .str k1) =
        ks.flatMap fun k1 =>
          (l.filter fun r => !(fld.get r == .str k)).filter fun r => fld.get r == .str k1 := by
      apply List.flatMap_congr
      intro k1 hk1
      rw [List.filter_filter]
      apply List.filter_congr
      intro r _
      by_cases h : fld.get r = .str k1
      · have hne : fld.get r ≠ .str k := by
          rw [h]
          intro e
          cases e
          exact hnd.1 hk1
        simp [h, hne]
        intro e
        cases e
        exact hnd.1 hk1
      · simp [h]
    rw [List.flatMap_cons, hrest]
    have ih1 := ih (l.filter fun r => !(fld.get r == .str k)) hnd.2 (by
      intro r hr
      obtain ⟨hr1, hr2⟩ := List.mem_filter.1 hr
      obtain ⟨k1, hk1, hrk⟩ := hcov r hr1
      rcases List.mem_cons.1 hk1 with h | h
      · subst h
        simp [hrk] at hr2
      · exact ⟨k1, h, hrk⟩)
    exact (List.Perm.append_left _ ih1).trans (List.filter_append_perm _ l)

/-- C14, amended. For a query with `GroupBy(g)` on a string field that every
record of the filtered-sorted-limited list carries, and no `Distinct`, `Join`
or `Select`, when `range` visits every key of the map once: `List` returns the
concatenation, in the order `range` visits the keys, of the groups whose
first member passes `having` (all groups when `having` is `nil`), a group
being the records of that list with one value of `g`, in that list's order.
With no `having`, the result is a permutation of that list, of the same
length; that length is the filtered count when the sort has kept every
filtered record and no `Limit` cuts the list. -/
theorem List_groupBy {R : Type} (K : Keyable R) (env : Env R) (q : Query R)
    (sorted : List R) (fld : Field R)
    (hg : q.groupBy ≠ []) (hfld : K.FieldByName q.groupBy = some fld)
    (hdistinct : q.distinct = false) (hjoin : q.join = none) (hfields : q.fields = [])
    (hsort : sortStage env q (filterStage q) = some sorted)
    (hstr : ∀ r ∈ limitStage q sorted, ∃ s, fld.get r = .str s)
    (hrange : ∀ ks, (env.rangeOrder ks).Perm ks) :
    ∃ order : List Str, order.Nodup ∧
      (∀ k, k ∈ order ↔ ∃ r ∈ limitStage q sorted, fld.get r = .str k) ∧
      q.List K env = .ok
        ((order.filter fun k =>
            firstAccepted q.having ((limitStage q sorted).filter fun r => fld.get r == .str k)).flatMap
          fun k => (limitStage q sorted).filter fun r => fld.get r == .str k) ∧
      (q.having = none → ∃ out, q.List K env = .ok out ∧
        out.Perm (limitStage q sorted) ∧ out.length = (limitStage q sorted).length ∧
        (sorted.Perm (filterStage q) → ¬ (0 < q.limit ∧ q.limit < sorted.length) →
          out.length = (filterStage q).length)) := by
  obtain ⟨final, h1, h2, h3, h4⟩ := groupLoop_spec K q.groupBy fld hfld (limitStage q sorted)
    hstr [] List.nodup_nil
  have hgo : ∀ k, groupOf k final =
      (limitStage q sorted).filter fun r => fld.get r == .str k := by
    intro k
    rw [h4 k]
    simp [groupOf]
  have hperm := hrange (final.map Prod.fst)
  have hlist : q.List K env = .ok
      (((env.rangeOrder (final.map Prod.fst)).filter fun k =>
          firstAccepted q.having
            ((limitStage q sorted).filter fun r => fld.get r == .str k)).flatMap
        fun k => (limitStage q sorted).filter fun r => fld.get r == .str k) := by
    have e : groupStage K env q (limitStage q sorted) =
        .ok (havingLoop q.having final (env.rangeOrder (final.map Prod.fst))) := by
      simp only [groupStage, hg, if_false, h1]
    simp only [Query.List, hsort, e, distinctStage, hdistinct, joinStage, hjoin, selectStage,
      hfields, havingLoop_eq, hgo]
    simp only [Bool.false_eq_true, if_false, if_true]
  have hmem : ∀ k, k ∈ env.rangeOrder (final.map Prod.fst) ↔
      ∃ r ∈ limitStage q sorted, fld.get r = .str k := by
    intro k
    rw [hperm.mem_iff, h3 k]
    simp
  refine ⟨env.rangeOrder (final.map Prod.fst), hperm.nodup_iff.2 h2, hmem, hlist, ?_⟩
  intro hhav
  refine ⟨_, hlist, ?_⟩
  have hall : ((env.rangeOrder (final.map Prod.fst)).filter fun k =>
      firstAccepted q.having
        ((limitStage q sorted).filter fun r => fld.get r == .str k)) =
      env.rangeOrder (final.map Prod.fst) := by
    rw [List.filter_eq_self]
    intro k hk
    obtain ⟨r, hr, hrk⟩ := (hmem k).1 hk
    have hin : r ∈ (limitStage q sorted).filter fun r => fld.get r == .str k :=
      List.mem_filter.2 ⟨hr, by simp [hrk]⟩
    cases hf : (limitStage q sorted).filter fun r => fld.get r == .str k with
    | nil => rw [hf] at hin; cases hin
    | cons first others => simp [firstAccepted, hhav]
  rw [hall]
  have hp := flatMap_groups_perm fld (env.rangeOrder (final.map Prod.fst)) (limitStage q sorted)
    (hperm.nodup_iff.2 h2) (by
      intro r hr
      obtain ⟨s, hs⟩ := hstr r hr
      exact ⟨s, (hmem s).2 ⟨r, hr, hs⟩, hs⟩)
  refine ⟨hp, hp.length_eq, ?_⟩
  intro hsorted hcut
  rw [hp.length_eq, limitStage, if_neg hcut, hsorted.length_eq]

/-- List_groupBy on five members with three different names, grouped by
`Name`: the result is the three groups one after the other, five records in
all. -/
theorem List_groupBy_witness :
    Query.List (memberType [] []) (smallEnv Member)
        (Query.GroupBy (MinDB.Query { wal := [], data := fiveMembers } blankMember)
          "Name".toList) =
      .ok [{ ID := ['1'], Name := bob }, { ID := ['3'], Name := bob },
           { ID := ['2'], Name := eve }, { ID := ['5'], Name := eve },
           { ID := ['4'], Name := "ann".toList }] ∧
    ∃ order : List Str, order.Nodup ∧
      (∀ k, k ∈ order ↔
        ∃ r ∈ limitStage (Query.GroupBy
            (MinDB.Query { wal := [], data := fiveMembers } blankMember) "Name".toList)
          fiveMembers, (Member.fieldName []).get r = .str k) ∧
      Query.List (memberType [] []) (smallEnv Member)
          (Query.GroupBy (MinDB.Query { wal := [], data := fiveMembers } blankMember)
            "Name".toList) =
        .ok ((order.filter fun k =>
            firstAccepted
              (Query.GroupBy (MinDB.Query { wal := [], data := fiveMembers } blankMember)
                "Name".toList).having
              ((limitStage (Query.GroupBy
                  (MinDB.Query { wal := [], data := fiveMembers } blankMember) "Name".toList)
                fiveMembers).filter fun r => (Member.fieldName []).get r == .str k)).flatMap
          fun k =>
            (limitStage (Query.GroupBy
                (MinDB.Query { wal := [], data := fiveMembers } blankMember) "Name".toList)
              fiveMembers).filter fun r => (Member.fieldName []).get r == .str k) ∧
      ((Query.GroupBy (MinDB.Query { wal := [], data := fiveMembers } blankMember)
          "Name".toList).having = none →
        ∃ out,
          Query.List (memberType [] []) (smallEnv Member)
            (Query.GroupBy (MinDB.Query { wal := [], data := fiveMembers } blankMember)
              "Name".toList) = .ok out ∧
          out.Perm (limitStage (Query.GroupBy
              (MinDB.Query { wal := [], data := fiveMembers } blankMember) "Name".toList)
            fiveMembers) ∧
          out.length = (limitStage (Query.GroupBy
              (MinDB.Query { wal := [], data := fiveMembers } blankMember) "Name".toList)
            fiveMembers).length ∧
          (fiveMembers.Perm (filterStage (Query.GroupBy
              (MinDB.Query { wal := [], data := fiveMembers } blankMember) "Name".toList)) →
            ¬ (0 < (Query.GroupBy
                  (MinDB.Query { wal := [], data := fiveMembers } blankMember)
                  "Name".toList).limit ∧
                (Query.GroupBy
                  (MinDB.Query { wal := [], data := fiveMembers } blankMember)
                  "Name".toList).limit < fiveMembers.length) →
            out.length = (filterStage (Query.GroupBy
              (MinDB.Query { wal := [], data := fiveMembers } blankMember)
              "Name".toList)).length)) :=
  ⟨rfl, List_groupBy (memberType [] []) (smallEnv Member)
    (Query.GroupBy (MinDB.Query { wal := [], data := fiveMembers } blankMember) "Name".toList)
    fiveMembers (Member.fieldName []) (by decide) rfl rfl rfl rfl rfl
    (fun r _ => ⟨r.Name, rfl⟩) (fun ks => List.Perm.refl ks)⟩

/-- C14, as stated, fails when a `Limit` cuts the list before it is grouped:
five members, all accepted by the filter, grouped by `Name` with `Limit(2)`
and no `Having`; `List` returns the two records of the limited list, not five. -/
theorem groupBy_after_limit_shorter :
    Query.List (memberType [] []) (smallEnv Member)
        (Query.GroupBy
          (Query.Limit (MinDB.Query { wal := [], data := fiveMembers } blankMember) 2)
          "Name".toList) =
      .ok [{ ID := ['1'], Name := bob }, { ID := ['2'], Name := eve }] ∧
    (filterStage (Query.GroupBy
        (Query.Limit (MinDB.Query { wal := [], data := fiveMembers } blankMember) 2)
        "Name".toList)).length = 5 ∧
    (Query.GroupBy
        (Query.Limit (MinDB.Query { wal := [], data := fiveMembers } blankMember) 2)
        "Name".toList).having = none ∧
    ([{ ID := ['1'], Name := bob }, { ID := ['2'], Name := eve }] : List Member).length ≠ 5 :=
  ⟨rfl, rfl, rfl, by decide⟩

/-! ### The join stage -/

theorem map_const_filter {α β : Type} (p : α → Bool) (l : List α) (d : β) :
    (l.filter p).map (fun _ => d) = List.replicate (l.countP p) d := by
  induction l with
  | nil => rfl
  | cons x xs ih =>
    by_cases h : p x = true
    · rw [List.filter_cons_of_pos h, List.map_cons, ih, List.countP_cons_of_pos _ _ h,
        List.replicate_succ]
    · rw [List.filter_cons_of_neg h, ih, List.countP_cons_of_neg _ _ h]

/-- C21. For a query with a join on a non-empty field name that both record
types have, and no `Select`: `List` returns the list that reaches the join
stage with every record repeated, in place, as many times as the joined
table has records whose `on` value equals its own (dropped when there is
none). So the copies of a record are consecutive, the records keep their
order, and every record of the result is a record of the left list. -/
theorem List_join {R : Type} (K : Keyable R) (env : Env R) (q : Query R)
    (sorted grouped : List R) (j : Join) (fl : Field R) (fr : Field j.S)
    (hjoin : q.join = some j) (hon : j.onField ≠ [])
    (hfl : K.FieldByName j.onField = some fl) (hfr : j.K.FieldByName j.onField = some fr)
    (hfields : q.fields = [])
    (hsort : sortStage env q (filterStage q) = some sorted)
    (hgroup : groupStage K env q (limitStage q sorted) = .ok grouped) :
    q.List K env = .ok
        ((distinctStage K q grouped).flatMap fun data =>
          List.replicate (j.table.data.countP fun joinData => fl.get data == fr.get joinData)
            data) ∧
      ∀ r ∈ (distinctStage K q grouped).flatMap fun data =>
          List.replicate (j.table.data.countP fun joinData => fl.get data == fr.get joinData)
            data,
        r ∈ distinctStage K q grouped := by
  constructor
  · have hj : joinStage K q (distinctStage K q grouped) =
        some ((distinctStage K q grouped).flatMap fun data =>
          List.replicate (j.table.data.countP fun joinData => fl.get data == fr.get joinData)
            data) := by
      simp only [joinStage, hjoin, hon, if_false, hfl, hfr, map_const_filter]
    simp only [Query.List, hsort, hgroup, hj, selectStage, hfields, if_true]
  · intro r hr
    obtain ⟨d, hd, hrd⟩ := List.mem_flatMap.1 hr
    rw [(List.mem_replicate.1 hrd).2]
    exact hd

/-- List_join on the five members joined by `Name` with a table that has two
records named "bob", one named "ann" and none named "eve". -/
theorem List_join_witness :
    Query.List (memberType [] []) (smallEnv Member)
        (Query.Join (MinDB.Query { wal := [], data := fiveMembers } blankMember) Member
          (memberType [] []) { wal := [], data := clubMembers } "Name".toList) =
      .ok ((distinctStage (memberType [] [])
          (Query.Join (MinDB.Query { wal := [], data := fiveMembers } blankMember) Member
            (memberType [] []) { wal := [], data := clubMembers } "Name".toList)
          fiveMembers).flatMap fun data =>
        List.replicate
          (clubMembers.countP fun joinData =>
            (Member.fieldName []).get data == (Member.fieldName []).get joinData) data) ∧
    ∀ r ∈ (distinctStage (memberType [] [])
          (Query.Join (MinDB.Query { wal := [], data := fiveMembers } blankMember) Member
            (memberType [] []) { wal := [], data := clubMembers } "Name".toList)
          fiveMembers).flatMap fun data =>
        List.replicate
          (clubMembers.countP fun joinData =>
            (Member.fieldName []).get data == (Member.fieldName []).get joinData) data,
      r ∈ distinctStage (memberType [] [])
        (Query.Join (MinDB.Query { wal := [], data := fiveMembers } blankMember) Member
          (memberType [] []) { wal := [], data := clubMembers } "Name".toList) fiveMembers :=
  List_join (memberType [] []) (smallEnv Member)
    (Query.Join (MinDB.Query { wal := [], data := fiveMembers } blankMember) Member
      (memberType [] []) { wal := [], data := clubMembers } "Name".toList)
    fiveMembers fiveMembers
    { S := Member, K := memberType [] [], table := { wal := [], data := clubMembers },
      onField := "Name".toList }
    (Member.fieldName []) (Member.fieldName []) rfl (by decide) rfl rfl rfl rfl rfl

/-- The result of the join of the witness, written out: each "bob" twice, no
"eve", "ann" once. -/
theorem List_join_example :
    Query.List (memberType [] []) (smallEnv Member)
        (Query.Join (MinDB.Query { wal := [], data := fiveMembers } blankMember) Member
          (memberType [] []) { wal := [], data := clubMembers } "Name".toList) =
      .ok [{ ID := ['1'], Name := bob }, { ID := ['1'], Name := bob },
           { ID := ['3'], Name := bob }, { ID := ['3'], Name := bob },
           { ID := ['4'], Name := "ann".toList }] :=
  rfl

/-! ### `First` -/

/-- C22, as stated, fails with `OrderBy`: `First` does not sort. On the five
users ordered by `Age` descending, `List` starts with the user aged 60 and
`First` gives the user aged 18, the first in table order. -/
theorem First_ignores_OrderBy :
    Query.List userType (smallEnv User)
        (Query.OrderBy userType (MinDB.Query { wal := [], data := fiveUsers } blankUser)
          "Age".toList true) =
      .ok [{ ID := ['5'], Name := "Erin".toList, Age := 60 },
           { ID := ['4'], Name := "Dave".toList, Age := 45 },
           { ID := ['3'], Name := "Carol".toList, Age := 30 },
           { ID := ['2'], Name := "Bob".toList, Age := 25 },
           { ID := ['1'], Name := "Alice".toList, Age := 18 }] ∧
    Query.First userType
        (Query.OrderBy userType (MinDB.Query { wal := [], data := fiveUsers } blankUser)
          "Age".toList true) =
      .ok { ID := ['1'], Name := "Alice".toList, Age := 18 } ∧
    ({ ID := ['1'], Name := "Alice".toList, Age := 18 } : User) ≠
      { ID := ['5'], Name := "Erin".toList, Age := 60 } :=
  ⟨rfl, rfl, by decide⟩

theorem find?_eq_head?_filter {α : Type} (p : α → Bool) (l : List α) :
    l.find? p = (l.filter p).head? := by
  induction l with
  | nil => rfl
  | cons x xs ih =>
    by_cases h : p x = true
    · rw [List.find?_cons_of_pos _ h, List.filter_cons_of_pos h]
      rfl
    · rw [List.find?_cons_of_neg _ h, List.filter_cons_of_neg h, ih]

/-- C22, amended. For a query built only from a filter operation and `Limit`
(no `OrderBy`), on a table whose records decode from their own text form, if
`List` returns a non-empty result then `First` succeeds and fills `out` with
the first element of that result. -/
theorem First_is_head_of_List {R : Type} (K : Keyable R) (env : Env R) (q : Query R)
    (first : R) (rest : List R)
    (hsortBy : q.sortBy = none) (hgroupBy : q.groupBy = []) (hdistinct : q.distinct = false)
    (hjoin : q.join = none) (hfields : q.fields = [])
    (hrt : ∀ r ∈ q.table.data, K.From (K.String r) = .ok r)
    (hlist : q.List K env = .ok (first :: rest)) :
    q.First K = .ok first := by
  have hl : limitStage q (filterStage q) = first :: rest := by
    simp only [Query.List, sortStage, hsortBy, groupStage, hgroupBy, if_true, distinctStage,
      hdistinct, joinStage, hjoin, selectStage, hfields, Bool.false_eq_true, if_false,
      Outcome.ok.injEq] at hlist
    exact hlist
  have hhead : (filterStage q).head? = some first := by
    unfold limitStage at hl
    split at hl
    · rename_i hlim
      have hpos : 0 < q.limit.toNat := by omega
      cases hf : filterStage q with
      | nil => rw [hf] at hl; simp at hl
      | cons a t =>
        rw [hf] at hl
        obtain ⟨n, hn⟩ : ∃ n, q.limit.toNat = n + 1 := ⟨q.limit.toNat - 1, by omega⟩
        rw [hn, List.take_succ_cons] at hl
        cases hl
        rfl
    · rw [hl]; rfl
  have hfind : (q.table.data.find? fun data =>
      match q.filter with
      | none => true
      | some f => f data) = some first := by
    rw [find?_eq_head?_filter]
    exact hhead
  have hmem : first ∈ q.table.data := List.mem_of_find?_eq_some hfind
  simp only [Query.First, hfind, hrt first hmem]

/-- First_is_head_of_List on the five members with `Where(Name, "eve")` and
`Limit(1)`. -/
theorem First_is_head_of_List_witness :
    Query.First (memberType [] [])
        (Query.Limit (Query.Where (memberType [] [])
          (MinDB.Query { wal := [], data := fiveMembers } blankMember)
          "Name".toList (.str eve)) 1) =
      .ok { ID := ['2'], Name := eve } :=
  First_is_head_of_List (memberType [] []) (smallEnv Member)
    (Query.Limit (Query.Where (memberType [] [])
      (MinDB.Query { wal := [], data := fiveMembers } blankMember)
      "Name".toList (.str eve)) 1)
    { ID := ['2'], Name := eve } [] rfl rfl rfl rfl rfl
    (fun r _ => Member_roundtrip [] [] r) rfl

/-! ### Bulk operations on an empty table -/

/-- C23. On a table that holds no records, `Query.Update` and `Query.Delete`
panic whatever the condition list: both start with `q.table.data[0]`, an
index out of range on the empty sequence. -/
theorem bulk_on_empty_table_panics :
    (∀ (field : Str) (value : Value) (conditionFields : ConditionFields)
        (io : Nat → WriteOutcome),
      Query.Update userType (MinDB.Query { wal := [], data := [] } blankUser) field value
        conditionFields io = .panicked) ∧
    (∀ (conditionFields : ConditionFields) (io : Nat → WriteOutcome),
      Query.Delete userType (MinDB.Query { wal := [], data := [] } blankUser)
        conditionFields io = .panicked) :=
  ⟨fun _ _ _ _ => rfl, fun _ _ => rfl⟩

/-! ### `AutoCreate` and the text after "default " -/

theorem autoCreateField_none_iff {R : Type} (m : MinDB) (field : Field R) :
    autoCreateField m field = none ↔
      Contains field.Tag defaultWord = true ∧
        (Split field.Tag (defaultWord ++ [' '])).get? 1 = none := by
  unfold autoCreateField
  by_cases hd : Contains field.Tag defaultWord = true
  · simp only [hd, if_true, true_and]
    cases hs : (Split field.Tag (defaultWord ++ [' '])).get? 1 with
    | none => simp
    | some v =>
      simp only [reduceCtorEq, iff_false]
      cases field.Typ with
      | String => simp
      | Int => cases Atoi v <;> simp
      | Bool => simp
  · simp [hd]

/-- C24. `AutoCreate` panics on a field whose annotation contains "default"
but not "default " (with the space): `strings.Split(tag, "default ")` then
has one element and index 1 is out of range. With `Name` tagged `default`
the registration panics; with `unique default anon` it returns, with `Name`
in the constraint set and "anon" as its default. -/
theorem AutoCreate_panics_on_bare_default :
    Contains "default".toList defaultWord = true ∧
    Split "default".toList (defaultWord ++ [' ']) = ["default".toList] ∧
    MinDB.empty.AutoCreate (memberType [] "default".toList) = none ∧
    MinDB.empty.AutoCreate (memberType [] "unique default anon".toList) =
      some { constraints := [['N', 'a', 'm', 'e']],
             defaults := [(['N', 'a', 'm', 'e'], .str "anon".toList)] } :=
  ⟨rfl, rfl, rfl, rfl⟩

/-! ### Chained filter calls -/

theorem applyFilterCall_filter_only {R : Type} (K : Keyable R) (compile : Regexp) (q : Query R)
    (c : FilterCall) :
    ∃ g, q.applyFilterCall K compile c = { q with filter := g } := by
  cases c with
  | Where field value => exact ⟨_, rfl⟩
  | In field values => exact ⟨_, rfl⟩
  | IsNull field => exact ⟨_, rfl⟩
  | IsNotNull field => exact ⟨_, rfl⟩
  | Like field pattern =>
    simp only [Query.applyFilterCall, Query.Like]
    split
    · exact ⟨q.filter, rfl⟩
    · exact ⟨_, rfl⟩

theorem applyFilterCall_after_filter {R : Type} (K : Keyable R) (compile : Regexp) (q : Query R)
    (g : Option (R → Bool)) (c : FilterCall) (h : c.compiles compile = true) :
    Query.applyFilterCall K compile { q with filter := g } c = q.applyFilterCall K compile c := by
  cases c with
  | Where field value => rfl
  | In field values => rfl
  | IsNull field => rfl
  | IsNotNull field => rfl
  | Like field pattern =>
    simp only [FilterCall.compiles] at h
    simp only [Query.applyFilterCall, Query.Like]
    split
    · rename_i hc
      rw [hc] at h
      cases h
    · rfl

/-- C25. When two filter builder calls (each of `Where`, `In`, `IsNull`,
`IsNotNull`, `Like`) are chained on a query and the pattern of the second
compiles (whatever `regexp.Compile` accepts, and whether or not the first
call set a filter), the query is the one that the second call alone gives,
and so is the result of `List`: the later filter replaces the earlier one. -/
theorem later_filter_replaces_earlier {R : Type} (K : Keyable R) (env : Env R)
    (compile : Regexp) (q : Query R) (c1 c2 : FilterCall)
    (h2 : c2.compiles compile = true) :
    (q.applyFilterCall K compile c1).applyFilterCall K compile c2 =
        q.applyFilterCall K compile c2 ∧
      ((q.applyFilterCall K compile c1).applyFilterCall K compile c2).List K env =
        (q.applyFilterCall K compile c2).List K env := by
  obtain ⟨g, hg⟩ := applyFilterCall_filter_only K compile q c1
  have h3 : (q.applyFilterCall K compile c1).applyFilterCall K compile c2 =
      q.applyFilterCall K compile c2 := by
    rw [hg]
    exact applyFilterCall_after_filter K compile q g c2 h2
  exact ⟨h3, by rw [h3]⟩

/-- Later_filter_replaces_earlier on the five members: `Where(Name, "bob")`
followed by `Like(Name, "ev_")` gives the query and the list of
`Like(Name, "ev_")` alone. -/
theorem later_filter_replaces_earlier_witness :
    Query.Like (memberType [] []) smallRegexp
        (Query.Where (memberType [] [])
          (MinDB.Query { wal := [], data := fiveMembers } blankMember)
          "Name".toList (.str bob))
        "Name".toList "ev_".toList =
      Query.Like (memberType [] []) smallRegexp
        (MinDB.Query { wal := [], data := fiveMembers } blankMember)
        "Name".toList "ev_".toList ∧
    Query.List (memberType [] []) (smallEnv Member)
        (Query.Like (memberType [] []) smallRegexp
          (Query.Where (memberType [] [])
            (MinDB.Query { wal := [], data := fiveMembers } blankMember)
            "Name".toList (.str bob))
          "Name".toList "ev_".toList) =
      Query.List (memberType [] []) (smallEnv Member)
        (Query.Like (memberType [] []) smallRegexp
          (MinDB.Query { wal := [], data := fiveMembers } blankMember)
          "Name".toList "ev_".toList) :=
  later_filter_replaces_earlier (memberType [] []) (smallEnv Member) smallRegexp
    (MinDB.Query { wal := [], data := fiveMembers } blankMember)
    (.Where "Name".toList (.str bob)) (.Like "Name".toList "ev_".toList) rfl

/-- The chained query of the witness, evaluated: the two members named "eve". -/
theorem chained_Where_example :
    Query.List (memberType [] []) (smallEnv Member)
        (Query.Where (memberType [] [])
          (Query.Where (memberType [] [])
            (MinDB.Query { wal := [], data := fiveMembers } blankMember)
            "Name".toList (.str bob))
          "Name".toList (.str eve)) =
      .ok [{ ID := ['2'], Name := eve }, { ID := ['5'], Name := eve }] :=
  rfl

end Mikan
